import Mathlib

/-!
# iohelper: the streaming token-replacing reader

A shallow embedding of `readers.go` (`BytesReplacingReader`, its `Reset` and its
`Read`) together with the properties of the reader that are settled against it.

Go `int` values are Lean `Int`s (no arithmetic of the reader can overflow: every
quantity is bounded by a slice length).  A Go byte slice whose length equals its
capacity is a `List Byte`; a slice expression `b[lo:hi]` is checked against the
capacity exactly as the Go runtime does and faults when it is out of range.
-/

namespace Iohelper

/-- One byte of a stream. -/
abbrev Byte := UInt8

/-- Go `error` values that a reader can return: `io.EOF` or any other error. -/
inductive GoError where
  | EOF
  | other (code : Nat)
deriving DecidableEq, Repr

/-- Abnormal ends of the execution of `Read`: the two run-time panics its
statements can raise, and the exhaustion of the iteration budget of the model. -/
inductive Fault where
  | sliceOutOfRange
  | nilDereference
  | outOfFuel
deriving DecidableEq, Repr

/-- The length of a slice, `len(b)`, as a Go `int`. -/
def len (b : List Byte) : Int := (b.length : Int)

/-- The slice expression `b[lo:hi]` of a slice `b` with `cap(b) = len(b)`:
a run-time panic unless `0 <= lo <= hi <= cap(b)`. -/
def slice (b : List Byte) (lo hi : Int) : Except Fault (List Byte) :=
  if 0 ≤ lo ∧ lo ≤ hi ∧ hi ≤ len b then
    .ok ((b.drop lo.toNat).take (hi.toNat - lo.toNat))
  else
    .error .sliceOutOfRange

/-- Go builtin `copy(dst, src)`: the first `min(len(dst), len(src))` elements of
`src` overwrite the front of `dst`; the number of copied elements is returned. -/
def goCopy (dst src : List Byte) : List Byte × Int :=
  let n := min dst.length src.length
  (src.take n ++ dst.drop n, (n : Int))

/-- The statement `copy(b[lo:hi], src)`: the slice expression is evaluated (and
may panic), then `src` is copied to the front of that window of `b`. -/
def copyInto (b : List Byte) (lo hi : Int) (src : List Byte) :
    Except Fault (List Byte × Int) :=
  match slice b lo hi with
  | .error e => .error e
  | .ok dst =>
    let c := goCopy dst src
    .ok (b.take lo.toNat ++ c.1 ++ b.drop hi.toNat, c.2)

/-- Go standard library `bytes.Index(s, sep)`: the index of the first instance of
`sep` in `s`, or `-1` if `sep` is not present in `s`. -/
def Index (s sep : List Byte) : Int :=
  match s with
  | [] => if sep.isPrefixOf [] then 0 else -1
  | x :: t =>
    if sep.isPrefixOf (x :: t) then 0
    else
      let i := Index t sep
      if i < 0 then -1 else i + 1

/-- An upstream `io.Reader`: from its state and the length of the slice it is
given, the bytes it stores at the front of that slice (their number is the
returned `n`), the returned error and its next state. -/
abbrev Upstream (σ : Type) := σ → Nat → List Byte × Option GoError × σ

/-- The contract of `io.Reader` on the returned count: `0 <= n <= len(p)`. -/
def Upstream.Obeys {σ : Type} (rd : Upstream σ) : Prop :=
  ∀ s k, (rd s k).1.length ≤ k

/-- The struct `BytesReplacingReader`.  The field `r` is `none` for a nil
`io.Reader`; a nil `buf` is the empty list (the code only takes its length). -/
structure BytesReplacingReader (σ : Type) where
  r : Option σ
  search : List Byte
  searchLen : Int
  replace : List Byte
  replaceLen : Int
  lenDelta : Int
  err : Option GoError
  buf : List Byte
  buf0 : Int
  buf1 : Int
  max : Int
deriving DecidableEq

/-- The zero value `&BytesReplacingReader{}`. -/
def BytesReplacingReader.zero (σ : Type) : BytesReplacingReader σ :=
  { r := none, search := [], searchLen := 0, replace := [], replaceLen := 0,
    lenDelta := 0, err := none, buf := [], buf0 := 0, buf1 := 0, max := 0 }

/-- The constant `defaultBufSize`. -/
def defaultBufSize : Int := 4096

/-- The helper `max(a, b int) int` of `readers.go`. -/
def goMax (a b : Int) : Int := if a > b then a else b

/-- `make([]byte, n)`: `n` zero bytes. -/
def makeBytes (n : Int) : List Byte := List.replicate n.toNat 0

/-- The method `Reset`.  The two `panic` calls are the `error` results, carrying
the panic message. -/
def Reset {σ : Type} (r : BytesReplacingReader σ) (r1 : Option σ)
    (search1 replace1 : List Byte) : Except String (BytesReplacingReader σ) :=
  match r1 with
  | none => .error "io.Reader cannot be nil"
  | some s =>
    if len search1 = 0 then .error "search token cannot be nil/empty"
    else
      let searchLen := len search1
      let replaceLen := len replace1
      let bufSize := goMax defaultBufSize (goMax searchLen replaceLen)
      let buf := if len r.buf < bufSize then makeBytes bufSize else r.buf
      let max := if searchLen < replaceLen
        then (Int.tdiv (len buf) replaceLen) * searchLen else len buf
      .ok { r := some s, search := search1, searchLen := searchLen,
            replace := replace1, replaceLen := replaceLen,
            lenDelta := replaceLen - searchLen, err := none, buf := buf,
            buf0 := 0, buf1 := 0, max := max }

/-- The function `NewBytesReplacingReader`. -/
def NewBytesReplacingReader {σ : Type} (r : Option σ) (search replace : List Byte) :
    Except String (BytesReplacingReader σ) :=
  Reset (BytesReplacingReader.zero σ) r search replace

/-- One iteration of the inner `for` loop of `Read` (lines 118-127): look for
the first instance of `search` in the unprocessed window `buf[buf0:buf1]`;
without one, move `buf0` forward and leave the loop (`false`); with one,
replace it in place and go on (`true`). -/
def scanStep {σ : Type} (r : BytesReplacingReader σ) :
    Except Fault (BytesReplacingReader σ × Bool) :=
  match slice r.buf r.buf0 r.buf1 with
  | .error e => .error e
  | .ok window =>
    let index := Index window r.search
    if index < 0 then
      .ok ({ r with buf0 := goMax r.buf0 (r.buf1 - r.searchLen + 1) }, false)
    else
      let index := index + r.buf0
      match slice r.buf (index + r.searchLen) r.buf1 with
      | .error e => .error e
      | .ok tail =>
        match copyInto r.buf (index + r.replaceLen) (r.buf1 + r.lenDelta) tail with
        | .error e => .error e
        | .ok c1 =>
          match copyInto c1.1 index (index + r.replaceLen) r.replace with
          | .error e => .error e
          | .ok c2 =>
            .ok ({ r with buf := c2.1, buf0 := index + r.replaceLen,
                          buf1 := r.buf1 + r.lenDelta }, true)

/-- The inner `for` loop of `Read` (lines 117-128): replace every instance of
`search` in the unprocessed window.  `fuel` bounds the number of iterations. -/
def scanLoop {σ : Type} : Nat → BytesReplacingReader σ → Except Fault (BytesReplacingReader σ)
  | 0, _ => .error .outOfFuel
  | fuel + 1, r =>
    match scanStep r with
    | .error e => .error e
    | .ok (r, true) => scanLoop fuel r
    | .ok (r, false) => .ok r

/-- What a call `Read(p)` returns and leaves behind: the count `n`, the error,
the destination slice after the call and the reader after the call. -/
structure ReadResult (σ : Type) where
  n : Int
  err : Option GoError
  p : List Byte
  st : BytesReplacingReader σ
deriving DecidableEq

/-- The branch `r.buf0 > 0` of `Read` (lines 102-109): hand processed bytes to
the caller and move what remains to the front of the buffer. -/
def deliver {σ : Type} (r : BytesReplacingReader σ) (p : List Byte) :
    Except Fault (ReadResult σ) :=
  match slice r.buf 0 r.buf0 with
  | .error e => .error e
  | .ok done =>
    let c := goCopy p done
    let n := c.2
    let r := { r with buf0 := r.buf0 - n, buf1 := r.buf1 - n }
    if r.buf1 = 0 ∧ r.err ≠ none then
      .ok { n := n, err := r.err, p := c.1, st := r }
    else
      match slice r.buf n (r.buf1 + n) with
      | .error e => .error e
      | .ok rest =>
        .ok { n := n, err := none, p := c.1,
              st := { r with buf := (goCopy r.buf rest).1 } }

/-- The call of the upstream source (line 114): `r.r.Read(r.buf[r.buf1:r.max])`.
The bytes the source returns are stored at the front of that window, the rest
of the window is left as it is (a Go reader may use it as scratch space; it
lies beyond `buf1` and the code never reads it), the error is latched, and the
count `n` is returned with the reader. -/
def receive {σ : Type} (rd : Upstream σ) (r : BytesReplacingReader σ) :
    Except Fault (BytesReplacingReader σ × Int) :=
  match slice r.buf r.buf1 r.max with
  | .error e => .error e
  | .ok dst =>
    match r.r with
    | none => .error .nilDereference
    | some s =>
      let res := rd s dst.length
      .ok ({ r with r := some res.2.2, err := res.2.1,
                    buf := r.buf.take r.buf1.toNat ++ (goCopy dst res.1).1
                             ++ r.buf.drop r.max.toNat }, len res.1)

/-- The rest of the body of the outer loop of `Read` (lines 114-132): read from
upstream into `buf[buf1:max]`, scan what was read, and count everything as
processed once upstream has returned an error. -/
def pull {σ : Type} (rd : Upstream σ) (fuel : Nat) (r : BytesReplacingReader σ) :
    Except Fault (BytesReplacingReader σ) :=
  match receive rd r with
  | .error e => .error e
  | .ok (r, n) =>
    let scanned :=
      if n > 0 then scanLoop fuel { r with buf1 := r.buf1 + n } else .ok r
    match scanned with
    | .error e => .error e
    | .ok r => .ok (if r.err ≠ none then { r with buf0 := r.buf1 } else r)

/-- The method `Read`: its outer loop runs `deliver` when processed bytes are
buffered, returns a latched error when nothing is buffered, and otherwise runs
`pull` and starts over.  `fuel` bounds the number of iterations of each of the
two loops. -/
def Read {σ : Type} (rd : Upstream σ) :
    Nat → BytesReplacingReader σ → List Byte → Except Fault (ReadResult σ)
  | 0, _, _ => .error .outOfFuel
  | fuel + 1, r, p =>
    if r.buf0 > 0 then deliver r p
    else if r.err ≠ none then .ok { n := 0, err := r.err, p := p, st := r }
    else
      match pull rd fuel r with
      | .error e => .error e
      | .ok r => Read rd fuel r p

/-- The iterations of the outer loop of `Read` that come before the one that
returns: `pull` until processed bytes are buffered or an error is latched. -/
def refill {σ : Type} (rd : Upstream σ) :
    Nat → BytesReplacingReader σ → Except Fault (BytesReplacingReader σ)
  | 0, _ => .error .outOfFuel
  | fuel + 1, r =>
    if r.buf0 > 0 then .ok r
    else if r.err ≠ none then .ok r
    else
      match pull rd fuel r with
      | .error e => .error e
      | .ok r => refill rd fuel r

/-- A consumer in the manner of `ioutil.ReadAll`: call `Read` with the
destination slices `dst i`, `dst (i+1)`, ... until a call returns an error;
the result is the concatenation of the delivered bytes `p[:n]` and that error.
`calls` bounds the number of `Read` calls, `fuel` the iterations inside each. -/
def drain {σ : Type} (rd : Upstream σ) (fuel : Nat) (dst : Nat → List Byte) :
    Nat → Nat → BytesReplacingReader σ → Except Fault (List Byte × GoError)
  | 0, _, _ => .error .outOfFuel
  | calls + 1, i, r =>
    match Read rd fuel r (dst i) with
    | .error e => .error e
    | .ok res =>
      match res.err with
      | some e => .ok (res.p.take res.n.toNat, e)
      | none =>
        match drain rd fuel dst calls (i + 1) res.st with
        | .error e => .error e
        | .ok out => .ok (res.p.take res.n.toNat ++ out.1, out.2)

/-- An in-memory upstream source that hands out a fixed input in pieces, then
ends: `given` is what it has delivered so far and `data` what it has not
delivered yet (the input is `given ++ data`), `sizes` the number of bytes it is
willing to return at each of its next calls (afterwards: as many as fit),
`final` the error that ends the stream (`io.EOF` for a source that ends
normally), and `eager` says whether the last bytes come together with `final`
or `final` comes alone at the following call. -/
structure Chunked where
  given : List Byte
  data : List Byte
  sizes : List Nat
  eager : Bool
  final : GoError
deriving DecidableEq

/-- The `Read` method of the chunked source. -/
def Chunked.read : Upstream Chunked := fun s k =>
  match s.data with
  | [] => ([], some s.final, s)
  | _ :: _ =>
    let m := match s.sizes with
      | [] => k
      | c :: _ => min c k
    let rest := s.data.drop m
    (s.data.take m, if s.eager ∧ rest = [] then some s.final else none,
      { s with given := s.given ++ s.data.take m, data := rest, sizes := s.sizes.tail })

/-- A chunked source at its start: nothing delivered yet. -/
def Chunked.start (input : List Byte) (sizes : List Nat) (eager : Bool)
    (final : GoError) : Chunked :=
  { given := [], data := input, sizes := sizes, eager := eager, final := final }

/-- The textbook left-to-right non-overlapping replacement, by one pass over the
input: `skip` counts the bytes of the current occurrence still to be passed
over; at every other position an occurrence of `search` that starts there is
replaced, and a byte that starts none is kept. -/
def replaceFrom (search replace : List Byte) : Nat → List Byte → List Byte
  | _, [] => []
  | skip + 1, _ :: t => replaceFrom search replace skip t
  | 0, x :: t =>
    if search.isPrefixOf (x :: t) then
      replace ++ replaceFrom search replace (search.length - 1) t
    else
      x :: replaceFrom search replace 0 t

/-- Specification `bytes.ReplaceAll(s, search, replace)` for a non-empty `search`. -/
def replaceAll (search replace s : List Byte) : List Byte :=
  replaceFrom search replace 0 s

/-- The processed bytes `buf[0:buf0]` of a reader. -/
def processed {σ : Type} (r : BytesReplacingReader σ) : List Byte :=
  r.buf.take r.buf0.toNat

/-- The bytes `buf[buf0:buf1]` of a reader: read in but not yet processed. -/
def unprocessed {σ : Type} (r : BytesReplacingReader σ) : List Byte :=
  (r.buf.drop r.buf0.toNat).take (r.buf1 - r.buf0).toNat

/-- What `Reset` establishes and `Read` never changes: the lengths agree with
the tokens, the search token is not empty, and the fill ceiling `max` leaves
room for the worst-case growth. -/
structure Config {σ : Type} (r : BytesReplacingReader σ) : Prop where
  hsearch : r.searchLen = len r.search
  hreplace : r.replaceLen = len r.replace
  hdelta : r.lenDelta = r.replaceLen - r.searchLen
  hpos : 0 < r.searchLen
  hmaxlo : r.searchLen ≤ r.max
  hmaxhi : r.max ≤ len r.buf
  hgrow : r.searchLen < r.replaceLen → r.max ≤ (len r.buf / r.replaceLen) * r.searchLen
  hsrc : r.r ≠ none

/-- The invariant of the reader between two statements of the outer loop of
`Read` (and between two calls): the cursors are ordered and inside the buffer,
the unprocessed fragment is shorter than the search token and holds no
instance of it, and a latched error leaves nothing unprocessed. -/
structure Inv {σ : Type} (r : BytesReplacingReader σ) extends Config r : Prop where
  h0 : 0 ≤ r.buf0
  h01 : r.buf0 ≤ r.buf1
  h1 : r.buf1 ≤ len r.buf
  hfrag : r.buf1 - r.buf0 < r.searchLen
  hlatched : r.err ≠ none → r.buf0 = r.buf1

/-- The invariant of the scan loop of `Read`: the cursors are ordered and inside
the buffer, and when the replacement is longer than the search token the
processed bytes, counted at the rate of a search token, and the unprocessed
bytes, counted at the rate of a replacement, fit the worst case that the fill
ceiling allows. -/
structure ScanInv {σ : Type} (r : BytesReplacingReader σ) extends Config r : Prop where
  h0 : 0 ≤ r.buf0
  h01 : r.buf0 ≤ r.buf1
  h1 : r.buf1 ≤ len r.buf
  hroom : r.searchLen < r.replaceLen →
    r.buf0 * r.searchLen + (r.buf1 - r.buf0) * r.replaceLen
      ≤ (len r.buf / r.replaceLen) * r.searchLen * r.replaceLen

/-- The fields that only `Reset` assigns are the same in two readers, and the
buffer has the same length. -/
structure SameConfig {σ : Type} (r r' : BytesReplacingReader σ) : Prop where
  search_eq : r'.search = r.search
  searchLen_eq : r'.searchLen = r.searchLen
  replace_eq : r'.replace = r.replace
  replaceLen_eq : r'.replaceLen = r.replaceLen
  lenDelta_eq : r'.lenDelta = r.lenDelta
  max_eq : r'.max = r.max
  len_eq : len r'.buf = len r.buf

/-- What the scan loop achieves from `r` to `r'`: upstream and error are
untouched, the cursors stay ordered inside the buffer, less than one search
token is left unprocessed, and whatever follows in the stream, the processed
bytes followed by the replacement of the rest are the same before and after. -/
structure ScanPost {σ : Type} (r r' : BytesReplacingReader σ) extends SameConfig r r' : Prop where
  r_eq : r'.r = r.r
  err_eq : r'.err = r.err
  h0 : 0 ≤ r'.buf0
  h01 : r'.buf0 ≤ r'.buf1
  h1 : r'.buf1 ≤ len r'.buf
  hmono : r.buf0 ≤ r'.buf0
  hfrag : r'.buf1 - r'.buf0 < r'.searchLen
  hsync : ∀ z, processed r ++ replaceAll r.search r.replace (unprocessed r ++ z)
    = processed r' ++ replaceAll r.search r.replace (unprocessed r' ++ z)

/-- A history for an upstream source: `hist s` is the sequence of all bytes the
source has returned before reaching the state `s`. -/
def Feeds {σ : Type} (rd : Upstream σ) (hist : σ → List Byte) : Prop :=
  ∀ s k, hist (rd s k).2.2 = hist s ++ (rd s k).1

/-- The bytes the upstream source of a reader has returned so far. -/
def pulled {σ : Type} (hist : σ → List Byte) (r : BytesReplacingReader σ) : List Byte :=
  match r.r with
  | none => []
  | some s => hist s

/-- The reader is in step with its upstream source when `d` is what it has
delivered so far: the delivered bytes, then the processed bytes, then the
replacement of the unprocessed bytes and of whatever the source returns next,
are the replacement of the whole stream; once an error is latched the stream
has ended and the delivered and the processed bytes are its replacement. -/
def Sync {σ : Type} (hist : σ → List Byte) (r : BytesReplacingReader σ)
    (d : List Byte) : Prop :=
  (r.err = none → ∀ z, d ++ processed r ++ replaceAll r.search r.replace (unprocessed r ++ z)
      = replaceAll r.search r.replace (pulled hist r ++ z)) ∧
  (r.err ≠ none → d ++ processed r = replaceAll r.search r.replace (pulled hist r))

/-- What a call `Read(p)` that returns `res` from the reader `r` guarantees. -/
structure ReadPost {σ : Type} (rd : Upstream σ) (r : BytesReplacingReader σ)
    (p : List Byte) (res : ReadResult σ) : Prop where
  inv : Inv res.st
  same : SameConfig r res.st
  n_nonneg : 0 ≤ res.n
  n_le : res.n ≤ len p
  p_length : res.p.length = p.length
  p_rest : res.p.drop res.n.toNat = p.drop res.n.toNat
  err_eq : res.err ≠ none → res.err = res.st.err
  err_empty : res.err ≠ none → res.st.buf0 = 0 ∧ res.st.buf1 = 0
  progress : p ≠ [] → res.err = none → 0 < res.n
  source : res.st.err = r.err ∨ ∃ s k, res.st.err = (rd s k).2.1
  direct : 0 < r.buf0 →
    res.n = min (len p) r.buf0 ∧ res.p.take res.n.toNat = r.buf.take res.n.toNat ∧
      res.st.buf0 = r.buf0 - res.n ∧ res.st.buf1 = r.buf1 - res.n
  quiet : 0 < r.buf0 ∨ r.err ≠ none → res.st.r = r.r ∧ res.st.err = r.err
  latched : r.buf0 = 0 → r.err ≠ none → res = { n := 0, err := r.err, p := p, st := r }
  track : ∀ I : σ → Option GoError → Prop,
    (∀ s k, I s none → I (rd s k).2.2 (rd s k).2.1) →
    (∀ s, r.r = some s → I s r.err) → ∀ s, res.st.r = some s → I s res.st.err
  sync : ∀ hist d, Feeds rd hist → Sync hist r d →
    Sync hist res.st (d ++ res.p.take res.n.toNat)

/-- What one `pull` that takes the reader from `r` to `r'` guarantees: the
upstream source was called once, with the window `buf[buf1:max]`. -/
structure PullPost {σ : Type} (rd : Upstream σ) (r r' : BytesReplacingReader σ) : Prop where
  inv : Inv r'
  same : SameConfig r r'
  source : ∃ s, r.r = some s ∧ r'.err = (rd s (r.max - r.buf1).toNat).2.1 ∧
    r'.r = some (rd s (r.max - r.buf1).toNat).2.2
  sync : ∀ hist d, Feeds rd hist → Sync hist r d → Sync hist r' d
  track : ∀ I : σ → Option GoError → Prop,
    (∀ s k, I s none → I (rd s k).2.2 (rd s k).2.1) →
    (∀ s, r.r = some s → I s r.err) → ∀ s, r'.r = some s → I s r'.err

/-- The number of calls after which a chunked source has surely reported its
end: each call that returns no error uses up an entry of `sizes` or some data. -/
def Chunked.measure (s : Chunked) : Nat := s.sizes.length + s.data.length

/-- The invariant of a chunked source that hands out `input` and ends with
`fin`, together with the error `e` the reader has got from it: nothing of the
input is lost, an error is reported only once all data is delivered, and the
measure never exceeds its initial value `m`. -/
def Chunked.Tracks (input : List Byte) (fin : GoError) (m : Nat) (s : Chunked)
    (e : Option GoError) : Prop :=
  s.given ++ s.data = input ∧ s.final = fin ∧ s.measure ≤ m ∧
    (e ≠ none → s.data = [] ∧ e = some fin)

/-- The readers that a program can reach, each with the bytes it has delivered
so far: `Reset` on any reader, with a source that has not returned anything
yet, reaches a reader that has delivered nothing, and every `Read` that returns
reaches the reader it leaves, which has delivered `p[:n]` more. -/
inductive Reached {σ : Type} (rd : Upstream σ) (hist : σ → List Byte) :
    BytesReplacingReader σ → List Byte → Prop where
  | reset (r0 : BytesReplacingReader σ) (s : σ) (search1 replace1 : List Byte)
      (r : BytesReplacingReader σ) :
      hist s = [] → Reset r0 (some s) search1 replace1 = .ok r → Reached rd hist r []
  | read (r : BytesReplacingReader σ) (d : List Byte) (fuel : Nat) (p : List Byte)
      (res : ReadResult σ) :
      Reached rd hist r d → Read rd fuel r p = .ok res →
      Reached rd hist res.st (d ++ res.p.take res.n.toNat)

/-- The readers at the head of an iteration of the outer loop of `Read`, in
any run of a program: the reader that `Reset` leaves, the reader that the
branch `deliver` leaves (the outer loop of the next call starts there), and
the reader that a `pull` leaves. -/
inductive Visits {σ : Type} (rd : Upstream σ) : BytesReplacingReader σ → Prop where
  | reset (r0 : BytesReplacingReader σ) (s : σ) (search1 replace1 : List Byte)
      (r : BytesReplacingReader σ) :
      Reset r0 (some s) search1 replace1 = .ok r → Visits rd r
  | deliver (r : BytesReplacingReader σ) (p : List Byte) (res : ReadResult σ) :
      Visits rd r → r.buf0 > 0 → deliver r p = .ok res → Visits rd res.st
  | pull (r : BytesReplacingReader σ) (fuel : Nat) (r' : BytesReplacingReader σ) :
      Visits rd r → ¬ r.buf0 > 0 → r.err = none → pull rd fuel r = .ok r' → Visits rd r'

/-- The readers at the head of an iteration of the scan loop of `Read`: the
reader with which the loop is entered after upstream has returned `n > 0`
bytes, and the reader after each replacement. -/
inductive ScanVisits {σ : Type} (rd : Upstream σ) : BytesReplacingReader σ → Prop where
  | start (r r2 : BytesReplacingReader σ) (n : Int) :
      Visits rd r → ¬ r.buf0 > 0 → r.err = none → receive rd r = .ok (r2, n) → n > 0 →
      ScanVisits rd { r2 with buf1 := r2.buf1 + n }
  | step (x x' : BytesReplacingReader σ) :
      ScanVisits rd x → scanStep x = .ok (x', true) → ScanVisits rd x'

/-- The error the reader holds is the one its source returned at the call that
brought the source to its present state. -/
def FromUpstream {σ : Type} (rd : Upstream σ) (s : σ) (e : Option GoError) : Prop :=
  e = none ∨ ∃ s0 k, e = (rd s0 k).2.1 ∧ s = (rd s0 k).2.2

/-- A reader for examples: `Reset` of the zero reader on a source that holds
the one byte `1`, to replace `[9, 9]` by nothing. -/
def demoReader : BytesReplacingReader Chunked :=
  { r := some (Chunked.start [1] [] false GoError.EOF), search := [9, 9], searchLen := 2,
    replace := [], replaceLen := 0, lenDelta := -2, err := none,
    buf := makeBytes 4096, buf0 := 0, buf1 := 0, max := 4096 }

/-- What `Read` returns from `demoReader` into a destination of three bytes. -/
def demoResult : ReadResult Chunked :=
  { n := 1, err := some GoError.EOF, p := [1, 0, 0],
    st := { demoReader with
      r := some { given := [1], data := [], sizes := [], eager := false, final := GoError.EOF },
      err := some GoError.EOF, buf := 1 :: List.replicate 4095 0 } }

/-- A reader for examples with a replacement longer than the search token:
`Reset` of the zero reader to replace a token of 3 bytes by one of 11 bytes. -/
def growReader : BytesReplacingReader Unit :=
  { r := some (), search := List.replicate 3 1, searchLen := 3,
    replace := List.replicate 11 2, replaceLen := 11, lenDelta := 8, err := none,
    buf := makeBytes 4096, buf0 := 0, buf1 := 0, max := 1116 }


/-- The number of instances of `search` that the left-to-right
non-overlapping pass of `replaceFrom` replaces: `skip` counts the bytes of the
current instance still to be passed over. -/
def countFrom (search : List Byte) : Nat → List Byte → Nat
  | _, [] => 0
  | skip + 1, _ :: t => countFrom search skip t
  | 0, x :: t =>
    if search.isPrefixOf (x :: t) then
      1 + countFrom search (search.length - 1) t
    else
      countFrom search 0 t

/-- The number of left-to-right non-overlapping instances of `search` in `s`. -/
def countOcc (search s : List Byte) : Nat := countFrom search 0 s

/-- An upstream source under watch: the state of the source together with the
log of the calls of its `Read` method so far, which holds the error that each
call returned, the oldest call first. -/
def Upstream.logging {σ : Type} (rd : Upstream σ) : Upstream (σ × List (Option GoError)) :=
  fun s k => ((rd s.1 k).1, (rd s.1 k).2.1, ((rd s.1 k).2.2, s.2 ++ [(rd s.1 k).2.1]))

/-- The readers at the head of an iteration of the outer loop of `Read` in the
runs that start with the reader `r0`: `r0` itself, the reader that the branch
`deliver` leaves (the outer loop of the next call starts there), and the
reader that a `pull` leaves, which the loop takes only when nothing is
processed and no error is latched.  The third branch of the loop returns the
latched error and leaves the reader as it is. -/
inductive Run {σ : Type} (rd : Upstream σ) (r0 : BytesReplacingReader σ) :
    BytesReplacingReader σ → Prop where
  | start : Run rd r0 r0
  | deliver (r : BytesReplacingReader σ) (p : List Byte) (res : ReadResult σ) :
      Run rd r0 r → r.buf0 > 0 → deliver r p = .ok res → Run rd r0 res.st
  | pull (r : BytesReplacingReader σ) (fuel : Nat) (r' : BytesReplacingReader σ) :
      Run rd r0 r → ¬ r.buf0 > 0 → r.err = none → pull rd fuel r = .ok r' → Run rd r0 r'

/-- The reader `demoReader` over the same source under watch, with an empty
log. -/
def demoLogging : BytesReplacingReader (Chunked × List (Option GoError)) :=
  { r := some (Chunked.start [1] [] false GoError.EOF, []), search := [9, 9], searchLen := 2,
    replace := [], replaceLen := 0, lenDelta := -2, err := none,
    buf := makeBytes 4096, buf0 := 0, buf1 := 0, max := 4096 }

/-- What `Read` returns from `demoLogging` into a destination of three bytes:
the source was called twice, and the second call returned `io.EOF`. -/
def demoLogged : ReadResult (Chunked × List (Option GoError)) :=
  { n := 1, err := some GoError.EOF, p := [1, 0, 0],
    st := { demoLogging with
      r := some ({ given := [1], data := [], sizes := [], eager := false, final := GoError.EOF },
        [none, some GoError.EOF]),
      err := some GoError.EOF, buf := 1 :: List.replicate 4095 0 } }


/-! # strings.go: escape-aware index, split and unescape

Go strings are byte sequences, `List Byte`; Go runes are `Int`s.  The
conversions between strings and rune slices belong to the Go language and are
modelled from its specification: `[]rune(s)` decodes UTF-8 and yields U+FFFD
for every byte that starts no valid encoding, `string(runes)` encodes, with
U+FFFD in the place of every value that is no Unicode scalar value. -/

/-- The rune `utf8.RuneError`, U+FFFD. -/
def RuneError : Int := 0xFFFD

/-- The byte with the value `n` (taken modulo 256). -/
def byteOf (n : Int) : Byte := UInt8.ofNat n.toNat

/-- Go `utf8.AppendRune`, the encoding that the conversion `string(r)` of a
rune applies: one to four bytes, and the encoding of U+FFFD for a negative
value, a surrogate half or a value above U+10FFFF. -/
def encodeRune (r : Int) : List Byte :=
  if 0 ≤ r ∧ r ≤ 0x7F then [byteOf r]
  else if 0 ≤ r ∧ r ≤ 0x7FF then [byteOf (0xC0 + r / 64), byteOf (0x80 + r % 64)]
  else if r < 0 ∨ 0x10FFFF < r ∨ (0xD800 ≤ r ∧ r ≤ 0xDFFF) then [0xEF, 0xBF, 0xBD]
  else if r ≤ 0xFFFF then
    [byteOf (0xE0 + r / 4096), byteOf (0x80 + r / 64 % 64), byteOf (0x80 + r % 64)]
  else
    [byteOf (0xF0 + r / 262144), byteOf (0x80 + r / 4096 % 64), byteOf (0x80 + r / 64 % 64),
      byteOf (0x80 + r % 64)]

/-- Go `utf8.DecodeRune`: the first rune of `p` and the number of bytes of its
encoding; `(RuneError, 1)` when `p` starts with no valid encoding, and
`(RuneError, 0)` for the empty `p`.  The second byte of an encoding must lie
in the range that the first byte accepts, which excludes over-long encodings,
surrogate halves and values above U+10FFFF. -/
def decodeRune : List Byte → Int × Nat
  | [] => (RuneError, 0)
  | p0 :: t =>
    let b0 : Int := p0.toNat
    if b0 < 0x80 then (b0, 1)
    else if b0 < 0xC2 ∨ 0xF4 < b0 then (RuneError, 1)
    else
      let lo : Int := if b0 = 0xE0 then 0xA0 else if b0 = 0xF0 then 0x90 else 0x80
      let hi : Int := if b0 = 0xED then 0x9F else if b0 = 0xF4 then 0x8F else 0xBF
      match t with
      | [] => (RuneError, 1)
      | p1 :: t1 =>
        let b1 : Int := p1.toNat
        if b1 < lo ∨ hi < b1 then (RuneError, 1)
        else if b0 < 0xE0 then (b0 % 32 * 64 + b1 % 64, 2)
        else
          match t1 with
          | [] => (RuneError, 1)
          | p2 :: t2 =>
            let b2 : Int := p2.toNat
            if b2 < 0x80 ∨ 0xBF < b2 then (RuneError, 1)
            else if b0 < 0xF0 then (b0 % 16 * 4096 + b1 % 64 * 64 + b2 % 64, 3)
            else
              match t2 with
              | [] => (RuneError, 1)
              | p3 :: _ =>
                let b3 : Int := p3.toNat
                if b3 < 0x80 ∨ 0xBF < b3 then (RuneError, 1)
                else (b0 % 8 * 262144 + b1 % 64 * 4096 + b2 % 64 * 64 + b3 % 64, 4)

/-- The runes of a string from the offset `skip` on: `skip` counts the bytes
of the current encoding still to be passed over. -/
def decodeFrom : Nat → List Byte → List Int
  | _, [] => []
  | skip + 1, _ :: t => decodeFrom skip t
  | 0, b :: t => (decodeRune (b :: t)).1 :: decodeFrom ((decodeRune (b :: t)).2 - 1) t

/-- The conversion `[]rune(s)`. -/
def toRunes (s : List Byte) : List Int := decodeFrom 0 s

/-- The conversion `string(runes)`. -/
def encodeRunes (rs : List Int) : List Byte := rs.flatMap encodeRune

/-- The Unicode scalar values: the code points that are no surrogate halves. -/
def IsScalar (c : Int) : Prop := (0 ≤ c ∧ c < 0xD800) ∨ (0xE000 ≤ c ∧ c ≤ 0x10FFFF)

/-- Valid UTF-8: the encoding of a sequence of Unicode scalar values. -/
def ValidUTF8 (s : List Byte) : Prop := ∃ cs : List Int, (∀ c ∈ cs, IsScalar c) ∧ encodeRunes cs = s

/-- The runes of a text given as a Lean string literal. -/
def runesOf (t : String) : List Int := t.data.map (fun c => (c.toNat : Int))

/-- The Go string with the text of a Lean string literal. -/
def str (t : String) : List Byte := encodeRunes (runesOf t)

/-- The rune of a character literal. -/
def rune (c : Char) : Int := (c.toNat : Int)

/-- The index expression `rs[i]` on a rune slice: a run-time panic (reported
as `sliceOutOfRange`) unless `0 <= i < len(rs)`. -/
def runeAt (rs : List Int) (i : Int) : Except Fault Int :=
  if 0 ≤ i ∧ i < (rs.length : Int) then
    match rs.get? i.toNat with
    | some c => .ok c
    | none => .error .sliceOutOfRange
  else .error .sliceOutOfRange

/-- The slice expression `rs[lo:hi]` on a rune slice, checked against its
length. -/
def sliceRunes (rs : List Int) (lo hi : Int) : Except Fault (List Int) :=
  if 0 ≤ lo ∧ lo ≤ hi ∧ hi ≤ (rs.length : Int) then
    .ok ((rs.drop lo.toNat).take (hi.toNat - lo.toNat))
  else
    .error .sliceOutOfRange

/-- The inner loop of `IndexWithEsc` (lines 39-45): compare `delimRunes` with
the runes of `sRunes` from `i` on, from the index `j`; `true` when none
differs.  `fuel` bounds the number of iterations. -/
def delimFoundAt (sRunes delimRunes : List Int) (i : Int) : Nat → Int → Except Fault Bool
  | 0, _ => .error .outOfFuel
  | fuel + 1, j =>
    if j < (delimRunes.length : Int) then
      match runeAt sRunes (i + j) with
      | .error e => .error e
      | .ok a =>
        match runeAt delimRunes j with
        | .error e => .error e
        | .ok b =>
          if a ≠ b then .ok false
          else delimFoundAt sRunes delimRunes i fuel (j + 1)
    else .ok true

/-- The outer loop of `IndexWithEsc` (lines 33-49) from the index `i`: an
escape rune makes the loop pass over the rune behind it; elsewhere the
delimiter is looked for, and found at `i` the loop returns
`len(string(sRunes[:i]))`.  `fuel` bounds the number of iterations. -/
def indexLoop (sRunes delimRunes : List Int) (escRune : Int) : Nat → Int → Except Fault Int
  | 0, _ => .error .outOfFuel
  | fuel + 1, i =>
    if i < (sRunes.length : Int) - (delimRunes.length : Int) + 1 then
      match runeAt sRunes i with
      | .error e => .error e
      | .ok c =>
        if c = escRune then indexLoop sRunes delimRunes escRune fuel (i + 1 + 1)
        else
          match delimFoundAt sRunes delimRunes i (delimRunes.length + 1) 0 with
          | .error e => .error e
          | .ok true =>
            match sliceRunes sRunes 0 i with
            | .error e => .error e
            | .ok front => .ok (len (encodeRunes front))
          | .ok false => indexLoop sRunes delimRunes escRune fuel (i + 1)
    else .ok (-1)

/-- The function `IndexWithEsc`; `esc` is `none` for a nil pointer.
`strings.Index` is `bytes.Index` on the bytes of its arguments, `Index`.
The loop counter grows at every iteration of the outer loop, so the model
gives it `len(sRunes) + 1` iterations, and as many as `len(delimRunes) + 1` to
the inner loop. -/
def IndexWithEsc (s delim : List Byte) (esc : Option Int) : Except Fault Int :=
  if len delim = 0 then .ok 0
  else if len s = 0 then .ok (-1)
  else
    match esc with
    | none => .ok (Index s delim)
    | some escRune =>
      indexLoop (toRunes s) (toRunes delim) escRune ((toRunes s).length + 1) 0

/-- The pieces of `s` between the instances of a non-empty `sep`, found from
left to right without overlap: `skip` counts the bytes of the current
instance still to be passed over, `cur` is the piece collected so far. -/
def splitFrom (sep : List Byte) : Nat → List Byte → List Byte → List (List Byte)
  | _, cur, [] => [cur]
  | skip + 1, cur, _ :: t => splitFrom sep skip cur t
  | 0, cur, x :: t =>
    if sep.isPrefixOf (x :: t) then cur :: splitFrom sep (sep.length - 1) [] t
    else splitFrom sep 0 (cur ++ [x]) t

/-- The UTF-8 sequences of `s`, one piece for each; a byte that starts no
valid encoding is a piece of its own. -/
def explodeFrom : Nat → List Byte → List (List Byte)
  | _, [] => []
  | skip + 1, _ :: t => explodeFrom skip t
  | 0, x :: t =>
    (x :: t).take (decodeRune (x :: t)).2 :: explodeFrom ((decodeRune (x :: t)).2 - 1) t

/-- Go standard library `strings.Split(s, sep)`: the substrings of `s` between
the instances of `sep`; `[s]` when `sep` is not empty and not in `s`; the
UTF-8 sequences of `s` when `sep` is empty. -/
def stringsSplit (s sep : List Byte) : List (List Byte) :=
  if sep = [] then explodeFrom 0 s else splitFrom sep 0 [] s

/-- Go standard library `strings.Join(elems, sep)`. -/
def stringsJoin (elems : List (List Byte)) (sep : List Byte) : List Byte :=
  sep.intercalate elems

/-- The loop of `SplitWithEsc` (lines 62-67): cut `s` at every index that
`IndexWithEsc` returns; `split` holds the pieces so far.  `fuel` bounds the
number of iterations. -/
def splitLoop (delim : List Byte) (esc : Option Int) :
    Nat → List Byte → List (List Byte) → Except Fault (List (List Byte))
  | 0, _, _ => .error .outOfFuel
  | fuel + 1, s, split =>
    match IndexWithEsc s delim esc with
    | .error e => .error e
    | .ok delimIndex =>
      if delimIndex ≥ 0 then
        match slice s 0 delimIndex with
        | .error e => .error e
        | .ok piece =>
          match slice s (delimIndex + len delim) (len s) with
          | .error e => .error e
          | .ok rest => splitLoop delim esc fuel rest (split ++ [piece])
      else .ok (split ++ [s])

/-- The function `SplitWithEsc`. -/
def SplitWithEsc (fuel : Nat) (s delim : List Byte) (esc : Option Int) :
    Except Fault (List (List Byte)) :=
  if len delim = 0 ∨ esc = none then .ok (stringsSplit s delim)
  else splitLoop delim esc fuel s []

/-- Go builtin `copy(dst, src)` on rune slices. -/
def copyRunes (dst src : List Int) : List Int × Int :=
  let n := min dst.length src.length
  (src.take n ++ dst.drop n, (n : Int))

/-- The loop of `Unescape` (lines 78-84) from the index `i`: an escape rune at
`i` is removed, by the copy of `sRunes[i+1:]` over `sRunes[i:]` and the cut of
the last element, and the loop goes on behind the rune that took its place.
`fuel` bounds the number of iterations. -/
def unescapeLoop (escRune : Int) : Nat → List Int → Int → Except Fault (List Int)
  | 0, _, _ => .error .outOfFuel
  | fuel + 1, sRunes, i =>
    if i < (sRunes.length : Int) then
      match runeAt sRunes i with
      | .error e => .error e
      | .ok c =>
        if c ≠ escRune then unescapeLoop escRune fuel sRunes (i + 1)
        else
          match sliceRunes sRunes i (sRunes.length : Int) with
          | .error e => .error e
          | .ok dst =>
            match sliceRunes sRunes (i + 1) (sRunes.length : Int) with
            | .error e => .error e
            | .ok src =>
              let copied := sRunes.take i.toNat ++ (copyRunes dst src).1
              match sliceRunes copied 0 ((sRunes.length : Int) - 1) with
              | .error e => .error e
              | .ok cut => unescapeLoop escRune fuel cut (i + 1)
    else .ok sRunes

/-- The function `Unescape`; the model gives its loop `len(sRunes) + 1`
iterations, which it never uses up, the loop counter growing at each. -/
def Unescape (s : List Byte) (esc : Option Int) : Except Fault (List Byte) :=
  match esc with
  | none => .ok s
  | some escRune =>
    match unescapeLoop escRune ((toRunes s).length + 1) (toRunes s) 0 with
    | .error e => .error e
    | .ok sRunes => .ok (encodeRunes sRunes)

/-- The search that the loop of `IndexWithEsc` performs, on the runes from the
current index on: `none` when the loop ends without a find, or the number of
runes in front of the find.  An escape rune makes the search pass over the
rune behind it. -/
def findEsc (ds : List Int) (e : Int) : List Int → Option Nat
  | [] => none
  | c :: rest =>
    if c = e then
      match rest with
      | [] => none
      | _ :: rest2 => (findEsc ds e rest2).map (fun k => k + 2)
    else if ds.isPrefixOf (c :: rest) then some 0
    else (findEsc ds e rest).map (fun k => k + 1)

/-- The number of consecutive escape runes immediately in front of the rune
index `p`. -/
def escRun (e : Int) (cs : List Int) : Nat → Nat
  | 0 => 0
  | p + 1 => if cs.get? p = some e then escRun e cs p + 1 else 0

/-- The byte offset of the rune index `p` in the string of the runes `cs`. -/
def offsetOf (cs : List Int) (p : Nat) : Int := len (encodeRunes (cs.take p))

/-- The effect of the loop of `Unescape` on the runes from the current index
on: an escape rune is dropped and the rune behind it is kept. -/
def unescRunes (e : Int) : List Int → List Int
  | [] => []
  | c :: rest =>
    if c = e then
      match rest with
      | [] => []
      | d :: rest2 => d :: unescRunes e rest2
    else c :: unescRunes e rest

/-- Escaping: the escape rune `e` is put in front of every `e` of the runes
and in front of every rune that `mask` marks (a mask that is too short marks
no further rune). -/
def escapeRunes (e : Int) : List Bool → List Int → List Int
  | _, [] => []
  | mask, c :: rest =>
    if c = e ∨ mask.headD false = true then e :: c :: escapeRunes e mask.tail rest
    else c :: escapeRunes e mask.tail rest

instance (c : Int) : Decidable (IsScalar c) :=
  inferInstanceAs (Decidable ((0 ≤ c ∧ c < 0xD800) ∨ (0xE000 ≤ c ∧ c ≤ 0x10FFFF)))


/-! ## Slices and copies -/

theorem len_nonneg (b : List Byte) : 0 ≤ len b := by unfold len; omega

theorem len_eq_zero_iff (b : List Byte) : len b = 0 ↔ b = [] := by
  unfold len
  constructor
  · intro h
    have : b.length = 0 := by omega
    exact List.length_eq_zero.mp this
  · intro h; subst h; rfl

theorem len_makeBytes (n : Int) (h : 0 ≤ n) : len (makeBytes n) = n := by
  unfold len makeBytes
  rw [List.length_replicate]
  omega

theorem len_append (a b : List Byte) : len (a ++ b) = len a + len b := by
  unfold len; simp

theorem goMax_eq_max (a b : Int) : goMax a b = max a b := by
  unfold goMax
  split <;> omega

/-- A slice expression inside the bounds succeeds. -/
theorem slice_ok (b : List Byte) (lo hi : Nat) (h1 : lo ≤ hi) (h2 : hi ≤ b.length) :
    slice b lo hi = .ok ((b.drop lo).take (hi - lo)) := by
  unfold slice len
  have : (0:Int) ≤ lo ∧ (lo:Int) ≤ hi ∧ (hi:Int) ≤ b.length := by omega
  simp [this]

theorem slice_ok_length (b : List Byte) (lo hi : Nat) (h2 : hi ≤ b.length) :
    ((b.drop lo).take (hi - lo)).length = hi - lo := by
  simp; omega

/-- A slice expression outside the bounds panics. -/
theorem slice_error (b : List Byte) (lo hi : Int) (h : ¬ (0 ≤ lo ∧ lo ≤ hi ∧ hi ≤ len b)) :
    slice b lo hi = .error .sliceOutOfRange := by
  unfold slice
  simp [h]

theorem goCopy_fst_of_length_le (dst src : List Byte) (h : src.length ≤ dst.length) :
    (goCopy dst src).1 = src ++ dst.drop src.length := by
  unfold goCopy
  simp [Nat.min_eq_right h]

theorem goCopy_snd (dst src : List Byte) :
    (goCopy dst src).2 = ((min dst.length src.length : Nat) : Int) := rfl

theorem goCopy_fst_length (dst src : List Byte) :
    (goCopy dst src).1.length = dst.length := by
  unfold goCopy
  simp

/-- Copying a source that fills the window `b[lo:hi]` exactly. -/
theorem copyInto_exact (b : List Byte) (lo hi : Nat) (src : List Byte)
    (h1 : lo ≤ hi) (h2 : hi ≤ b.length) (h3 : src.length = hi - lo) :
    copyInto b lo hi src = .ok (b.take lo ++ src ++ b.drop hi, ((hi - lo : Nat) : Int)) := by
  unfold copyInto
  rw [slice_ok b lo hi h1 h2]
  have hl := slice_ok_length b lo hi h2
  simp only [Int.toNat_ofNat]
  rw [goCopy_fst_of_length_le _ _ (by omega), goCopy_snd]
  have : List.drop src.length (List.take (hi - lo) (List.drop lo b)) = [] := by
    apply List.drop_eq_nil_of_le
    omega
  rw [this, hl, h3]
  simp

/-! ## `bytes.Index` -/

theorem isPrefixOf_iff (sep s : List Byte) : sep.isPrefixOf s = true ↔ sep <+: s :=
  List.isPrefixOf_iff_prefix

theorem Index_ge (s sep : List Byte) : -1 ≤ Index s sep := by
  induction s with
  | nil => unfold Index; split <;> omega
  | cons x t ih =>
    unfold Index
    split
    · omega
    · simp only []
      split <;> omega

/-- When `bytes.Index` returns a negative value, `sep` starts at no offset. -/
theorem Index_neg (s sep : List Byte) (h : Index s sep < 0) (j : Nat) :
    ¬ sep <+: s.drop j := by
  induction s generalizing j with
  | nil =>
    unfold Index at h
    split at h
    · omega
    · rename_i hp
      simpa [isPrefixOf_iff] using hp
  | cons x t ih =>
    unfold Index at h
    split at h
    · omega
    · rename_i hp
      simp only [] at h
      have ht : Index t sep < 0 := by
        by_contra hc
        rw [if_neg hc] at h
        omega
      cases j with
      | zero => simpa [isPrefixOf_iff] using hp
      | succ j => simpa using ih ht j

/-- When `bytes.Index` returns `i >= 0`, `sep` starts at offset `i` and at no
smaller offset. -/
theorem Index_found (s sep : List Byte) (h : 0 ≤ Index s sep) :
    ∃ i : Nat, Index s sep = (i : Int) ∧ sep <+: s.drop i ∧
      ∀ j, j < i → ¬ sep <+: s.drop j := by
  induction s with
  | nil =>
    unfold Index at h ⊢
    split at h
    · rename_i hp
      refine ⟨0, ?_, ?_, ?_⟩
      · simp [hp]
      · simpa [isPrefixOf_iff] using hp
      · intro j hj; omega
    · omega
  | cons x t ih =>
    unfold Index at h ⊢
    by_cases hp : sep.isPrefixOf (x :: t) = true
    · refine ⟨0, ?_, ?_, ?_⟩
      · simp [hp]
      · simpa [isPrefixOf_iff] using hp
      · intro j hj; omega
    · rw [if_neg hp] at h ⊢
      simp only [] at h ⊢
      by_cases ht : Index t sep < 0
      · rw [if_pos ht] at h; omega
      · rw [if_neg ht]
        obtain ⟨i, hi, hpre, hmin⟩ := ih (by omega)
        refine ⟨i + 1, ?_, ?_, ?_⟩
        · rw [hi]; push_cast; rfl
        · simpa using hpre
        · intro j hj
          cases j with
          | zero => simpa [isPrefixOf_iff] using hp
          | succ j => simpa using hmin j (by omega)

theorem occ_drop_bound (sep s : List Byte) (i : Nat) (h : sep <+: s.drop i)
    (hne : sep ≠ []) : i + sep.length ≤ s.length := by
  have := h.length_le
  rw [List.length_drop] at this
  have hpos : 0 < sep.length := List.length_pos.mpr hne
  omega

theorem occ_drop_split (sep s : List Byte) (i : Nat) (h : sep <+: s.drop i) :
    s = s.take i ++ sep ++ s.drop (i + sep.length) := by
  obtain ⟨t, ht⟩ := h
  have h2 : s.drop (i + sep.length) = t := by
    rw [← List.drop_drop, ← ht]
    simp
  rw [h2, List.append_assoc, ht]
  exact (List.take_append_drop i s).symm

/-! ## The specification `replaceAll` -/

theorem replaceFrom_skip (search replace : List Byte) (k : Nat) (l : List Byte) :
    replaceFrom search replace k l = replaceFrom search replace 0 (l.drop k) := by
  induction k generalizing l with
  | zero => simp
  | succ k ih =>
    cases l with
    | nil => simp [replaceFrom]
    | cons x t => simp [replaceFrom, ih]

theorem replaceAll_nil (search replace : List Byte) : replaceAll search replace [] = [] := by
  simp [replaceAll, replaceFrom]

/-- A byte at which no instance of `search` starts is kept. -/
theorem replaceAll_cons_of_no_occ (search replace : List Byte) (x : Byte) (t : List Byte)
    (h : ¬ search <+: x :: t) :
    replaceAll search replace (x :: t) = x :: replaceAll search replace t := by
  have hp : ¬ (search.isPrefixOf (x :: t) = true) := fun hc => h ((isPrefixOf_iff _ _).mp hc)
  simp [replaceAll, replaceFrom, hp]

/-- An instance of `search` at the front is replaced, and the pass goes on
behind it. -/
theorem replaceAll_search_append (search replace : List Byte) (hne : search ≠ [])
    (z : List Byte) :
    replaceAll search replace (search ++ z) = replace ++ replaceAll search replace z := by
  cases search with
  | nil => exact absurd rfl hne
  | cons x t =>
    have hp : (x :: t).isPrefixOf (x :: (t ++ z)) = true := by
      rw [isPrefixOf_iff]
      exact ⟨z, rfl⟩
    simp only [replaceAll, List.cons_append, replaceFrom, hp, if_true]
    rw [replaceFrom_skip]
    simp

/-- Bytes at which no instance of `search` starts are kept. -/
theorem replaceAll_append_of_no_occ (search replace : List Byte) (x z : List Byte)
    (h : ∀ j, j < x.length → ¬ search <+: (x ++ z).drop j) :
    replaceAll search replace (x ++ z) = x ++ replaceAll search replace z := by
  induction x with
  | nil => simp
  | cons a t ih =>
    have h0 := h 0 (by simp)
    simp only [List.drop_zero, List.cons_append] at h0
    rw [List.cons_append, replaceAll_cons_of_no_occ _ _ _ _ h0, ih]
    · simp
    · intro j hj
      have := h (j + 1) (by simp; omega)
      simpa using this

/-- An instance of `search` that starts inside `u` and fits in `u` is an
instance in `u`. -/
theorem occ_drop_of_append (search u z : List Byte) (j : Nat)
    (hfit : j + search.length ≤ u.length) (h : search <+: (u ++ z).drop j) :
    search <+: u.drop j := by
  have hj : j ≤ u.length := by omega
  rw [List.drop_append_of_le_length hj] at h
  refine List.prefix_of_prefix_length_le h (List.prefix_append _ _) ?_
  rw [List.length_drop]
  omega

/-- The step of the scan when `bytes.Index` finds an instance at `i`. -/
theorem replaceAll_found (search replace u : List Byte) (hne : search ≠ []) (i : Nat)
    (hpre : search <+: u.drop i) (hmin : ∀ j, j < i → ¬ search <+: u.drop j)
    (z : List Byte) :
    replaceAll search replace (u ++ z)
      = u.take i ++ replace ++ replaceAll search replace (u.drop (i + search.length) ++ z) := by
  have hb := occ_drop_bound search u i hpre hne
  have hsplit := occ_drop_split search u i hpre
  have hlen : (u.take i).length = i := by
    rw [List.length_take]; omega
  have e : u ++ z = u.take i ++ (search ++ (u.drop (i + search.length) ++ z)) := by
    conv_lhs => rw [hsplit]
    simp
  rw [e, replaceAll_append_of_no_occ, replaceAll_search_append _ _ hne]
  · simp
  · intro j hj
    rw [hlen] at hj
    rw [← e]
    intro hc
    exact hmin j hj (occ_drop_of_append search u z j (by omega) hc)

/-- The step of the scan when `bytes.Index` finds nothing: the first `k` bytes
are final as soon as no instance starting in them could reach past `u`. -/
theorem replaceAll_not_found (search replace u : List Byte)
    (hno : ∀ j, ¬ search <+: u.drop j) (k : Nat)
    (hk : k = 0 ∨ k + search.length ≤ u.length + 1) (z : List Byte) :
    replaceAll search replace (u ++ z)
      = u.take k ++ replaceAll search replace (u.drop k ++ z) := by
  have e : u ++ z = u.take k ++ (u.drop k ++ z) := by
    rw [← List.append_assoc, List.take_append_drop]
  conv_lhs => rw [e]
  apply replaceAll_append_of_no_occ
  intro j hj
  rw [← e]
  intro hc
  rw [List.length_take] at hj
  refine hno j (occ_drop_of_append search u z j ?_ hc)
  omega

/-- Bytes that hold no instance of `search` are left alone. -/
theorem replaceAll_of_no_occ (search replace u : List Byte)
    (hno : ∀ j, ¬ search <+: u.drop j) :
    replaceAll search replace u = u := by
  have := replaceAll_append_of_no_occ search replace u [] (by
    intro j _
    simpa using hno j)
  simpa [replaceAll_nil] using this

/-! ## The scan loop -/

theorem slice_ok_int (b : List Byte) (lo hi : Int) (h0 : 0 ≤ lo) (h1 : lo ≤ hi)
    (h2 : hi ≤ len b) :
    slice b lo hi = .ok ((b.drop lo.toNat).take (hi - lo).toNat) := by
  unfold slice
  have e : hi.toNat - lo.toNat = (hi - lo).toNat := by omega
  simp [h0, h1, h2, e]

theorem copyInto_exact_int (b : List Byte) (lo hi : Int) (src : List Byte)
    (h0 : 0 ≤ lo) (h1 : lo ≤ hi) (h2 : hi ≤ len b) (h3 : len src = hi - lo) :
    copyInto b lo hi src = .ok (b.take lo.toNat ++ src ++ b.drop hi.toNat, hi - lo) := by
  unfold len at h2 h3
  obtain ⟨l, rfl⟩ := Int.eq_ofNat_of_zero_le h0
  obtain ⟨h, rfl⟩ := Int.eq_ofNat_of_zero_le (le_trans h0 h1)
  have := copyInto_exact b l h src (by omega) (by omega) (by omega)
  rw [this]
  simp only [Int.toNat_ofNat]
  congr 2
  omega

/-- The two `copy` statements of one replacement (lines 124 and 125). -/
theorem replace_in_place (buf rep : List Byte) (idx sl b1 : Int)
    (h0 : 0 ≤ idx) (h1 : idx + sl ≤ b1) (h2 : b1 ≤ len buf) (hsl : 0 ≤ sl)
    (h3 : b1 + (len rep - sl) ≤ len buf) :
    ∃ c1 c2,
      slice buf (idx + sl) b1 = .ok ((buf.drop (idx + sl).toNat).take (b1 - (idx + sl)).toNat) ∧
      copyInto buf (idx + len rep) (b1 + (len rep - sl))
        ((buf.drop (idx + sl).toNat).take (b1 - (idx + sl)).toNat) = .ok c1 ∧
      copyInto c1.1 idx (idx + len rep) rep = .ok c2 ∧
      c2.1 = buf.take idx.toNat ++ rep
        ++ (buf.drop (idx + sl).toNat).take (b1 - (idx + sl)).toNat
        ++ buf.drop (b1 + (len rep - sl)).toNat := by
  have hr := len_nonneg rep
  have eb : len buf = (buf.length : Int) := rfl
  have er : len rep = (rep.length : Int) := rfl
  have hs := slice_ok_int buf (idx + sl) b1 (by omega) (by omega) h2
  set tail := (buf.drop (idx + sl).toNat).take (b1 - (idx + sl)).toNat with htail
  have htl : (tail.length : Int) = b1 - (idx + sl) := by
    rw [htail, List.length_take, List.length_drop]
    omega
  have et : len tail = (tail.length : Int) := rfl
  have hc1 := copyInto_exact_int buf (idx + len rep) (b1 + (len rep - sl)) tail
    (by omega) (by omega) h3 (by omega)
  set m := buf.take (idx + len rep).toNat ++ tail ++ buf.drop (b1 + (len rep - sl)).toNat with hm
  have hk : (buf.take (idx + len rep).toNat).length = (idx + len rep).toNat := by
    rw [List.length_take]
    omega
  have hml : (m.length : Int) = buf.length := by
    rw [hm]
    simp only [List.length_append, hk, List.length_drop]
    omega
  have em : len m = (m.length : Int) := rfl
  have hc2 := copyInto_exact_int m idx (idx + len rep) rep h0 (by omega) (by omega) (by omega)
  refine ⟨_, _, hs, hc1, hc2, ?_⟩
  simp only []
  have e1 : m.take idx.toNat = buf.take idx.toNat := by
    rw [hm, List.append_assoc, List.take_append_of_le_length (by rw [hk]; omega),
      List.take_take]
    congr 1
    omega
  have e2 : m.drop (idx + len rep).toNat = tail ++ buf.drop (b1 + (len rep - sl)).toNat := by
    rw [hm, List.append_assoc, List.drop_append_of_le_length (by rw [hk])]
    rw [List.drop_eq_nil_of_le (by rw [hk])]
    simp
  rw [e1, e2]
  simp

theorem take_split (l : List Byte) (a c b : Nat) (hac : a ≤ c) (hcb : c ≤ b) :
    l.take c = l.take a ++ ((l.drop a).take (b - a)).take (c - a) := by
  rw [List.take_take, Nat.min_eq_left (by omega)]
  have h : c = a + (c - a) := by omega
  conv_lhs => rw [h, List.take_add]

theorem drop_split (l : List Byte) (a c b : Nat) (hac : a ≤ c) (hcb : c ≤ b) :
    (l.drop c).take (b - c) = ((l.drop a).take (b - a)).drop (c - a) := by
  rw [List.drop_take, List.drop_drop]
  congr 1
  · omega
  · congr 1
    omega

/-- The worst-case accounting of the scan keeps the fill inside the buffer. -/
theorem room_bound (b0 b1 s rl cap : Int) (hs : 0 < s) (hsr : s < rl)
    (h01 : b0 ≤ b1) (hroom : b0 * s + (b1 - b0) * rl ≤ (cap / rl) * s * rl) : b1 ≤ cap := by
  have h1 : b1 * s ≤ (cap / rl * rl) * s := by
    nlinarith [mul_nonneg (sub_nonneg.2 h01) (sub_nonneg.2 hsr.le)]
  have h2 : cap / rl * rl ≤ cap := Int.ediv_mul_le _ (by omega)
  have h3 : b1 ≤ cap / rl * rl := le_of_mul_le_mul_right h1 hs
  omega

theorem unprocessed_length {σ : Type} (r : BytesReplacingReader σ) (h0 : 0 ≤ r.buf0)
    (h01 : r.buf0 ≤ r.buf1) (h1 : r.buf1 ≤ len r.buf) :
    ((unprocessed r).length : Int) = r.buf1 - r.buf0 := by
  unfold unprocessed
  unfold len at h1
  rw [List.length_take, List.length_drop]
  omega

theorem processed_length {σ : Type} (r : BytesReplacingReader σ) (h0 : 0 ≤ r.buf0)
    (h01 : r.buf0 ≤ r.buf1) (h1 : r.buf1 ≤ len r.buf) :
    ((processed r).length : Int) = r.buf0 := by
  unfold processed
  unfold len at h1
  rw [List.length_take]
  omega

theorem scanPost_refl {σ : Type} (r : BytesReplacingReader σ) (h0 : 0 ≤ r.buf0)
    (h01 : r.buf0 ≤ r.buf1) (h1 : r.buf1 ≤ len r.buf) (hf : r.buf1 - r.buf0 < r.searchLen) :
    ScanPost r r :=
  { search_eq := rfl, searchLen_eq := rfl, replace_eq := rfl, replaceLen_eq := rfl,
    lenDelta_eq := rfl, max_eq := rfl, len_eq := rfl, r_eq := rfl, err_eq := rfl,
    h0 := h0, h01 := h01, h1 := h1, hmono := le_refl _, hfrag := hf,
    hsync := fun _ => rfl }

theorem scanPost_trans {σ : Type} {a b c : BytesReplacingReader σ}
    (hab_same : SameConfig a b) (hab_r : b.r = a.r) (hab_err : b.err = a.err)
    (hab_mono : a.buf0 ≤ b.buf0)
    (hab_sync : ∀ z, processed a ++ replaceAll a.search a.replace (unprocessed a ++ z)
      = processed b ++ replaceAll a.search a.replace (unprocessed b ++ z))
    (hbc : ScanPost b c) : ScanPost a c :=
  { search_eq := hbc.search_eq.trans hab_same.search_eq
    searchLen_eq := hbc.searchLen_eq.trans hab_same.searchLen_eq
    replace_eq := hbc.replace_eq.trans hab_same.replace_eq
    replaceLen_eq := hbc.replaceLen_eq.trans hab_same.replaceLen_eq
    lenDelta_eq := hbc.lenDelta_eq.trans hab_same.lenDelta_eq
    max_eq := hbc.max_eq.trans hab_same.max_eq
    len_eq := hbc.len_eq.trans hab_same.len_eq
    r_eq := hbc.r_eq.trans hab_r
    err_eq := hbc.err_eq.trans hab_err
    h0 := hbc.h0, h01 := hbc.h01, h1 := hbc.h1
    hmono := le_trans hab_mono hbc.hmono
    hfrag := hbc.hfrag
    hsync := fun z => by
      rw [hab_sync z]
      have := hbc.hsync z
      rw [hab_same.search_eq, hab_same.replace_eq] at this
      exact this }

/-- The iteration of the scan loop when `bytes.Index` finds nothing in the
unprocessed bytes: the loop ends. -/
theorem scanStep_not_found {σ : Type} (r : BytesReplacingReader σ)
    (h : ScanInv r) (hi : Index (unprocessed r) r.search < 0) :
    ∃ r', scanStep r = .ok (r', false) ∧ ScanPost r r' := by
  have hsl := slice_ok_int r.buf r.buf0 r.buf1 h.h0 h.h01 h.h1
  have hU : (List.take (r.buf1 - r.buf0).toNat (List.drop r.buf0.toNat r.buf)) = unprocessed r := rfl
  rw [hU] at hsl
  refine ⟨{ r with buf0 := goMax r.buf0 (r.buf1 - r.searchLen + 1) }, ?_, ?_⟩
  · rw [scanStep, hsl]
    simp only [hi, if_true]
  · have hlen := unprocessed_length r h.h0 h.h01 h.h1
    have eb : len r.buf = (r.buf.length : Int) := rfl
    have hpos := h.hpos
    have hb1 := h.h1
    have hb0 := h.h0
    have hb01 := h.h01
    have hg : goMax r.buf0 (r.buf1 - r.searchLen + 1) = max r.buf0 (r.buf1 - r.searchLen + 1) :=
      goMax_eq_max _ _
    generalize goMax r.buf0 (r.buf1 - r.searchLen + 1) = c at hg ⊢
    have hc0 : r.buf0 ≤ c := by omega
    have hc1 : c ≤ r.buf1 := by omega
    refine { search_eq := rfl, searchLen_eq := rfl, replace_eq := rfl, replaceLen_eq := rfl,
             lenDelta_eq := rfl, max_eq := rfl, len_eq := rfl, r_eq := rfl, err_eq := rfl,
             h0 := ?_, h01 := ?_, h1 := ?_, hmono := ?_, hfrag := ?_, hsync := ?_ }
    · show 0 ≤ c
      omega
    · exact hc1
    · exact h.h1
    · exact hc0
    · show r.buf1 - c < r.searchLen
      omega
    · intro z
      have hsL : (r.search.length : Int) = r.searchLen := by rw [h.hsearch]; rfl
      have e1 : processed { r with buf0 := c }
          = processed r ++ (unprocessed r).take (c - r.buf0).toNat := by
        show r.buf.take c.toNat = r.buf.take r.buf0.toNat ++ _
        rw [take_split r.buf r.buf0.toNat c.toNat r.buf1.toNat (by omega) (by omega)]
        unfold unprocessed
        congr 3 <;> omega
      have e2 : unprocessed { r with buf0 := c }
          = (unprocessed r).drop (c - r.buf0).toNat := by
        show (r.buf.drop c.toNat).take (r.buf1 - c).toNat = _
        have := drop_split r.buf r.buf0.toNat c.toNat r.buf1.toNat (by omega) (by omega)
        unfold unprocessed
        have ea : (r.buf1 - c).toNat = r.buf1.toNat - c.toNat := by omega
        have eb : (r.buf1 - r.buf0).toNat = r.buf1.toNat - r.buf0.toNat := by omega
        have ec : (c - r.buf0).toNat = c.toNat - r.buf0.toNat := by omega
        rw [ea, eb, ec]
        exact this
      rw [e1, e2, List.append_assoc]
      congr 1
      apply replaceAll_not_found
      · exact Index_neg _ _ hi
      · omega

/-- One replacement of the scan loop: when `bytes.Index` finds an instance, the
loop goes on with a reader in which that instance is replaced and processed. -/
theorem scanStep_found {σ : Type} (r : BytesReplacingReader σ)
    (h : ScanInv r) (hi : 0 ≤ Index (unprocessed r) r.search) :
    ∃ r', scanStep r = .ok (r', true) ∧ ScanInv r' ∧ SameConfig r r' ∧
      r'.r = r.r ∧ r'.err = r.err ∧ r.buf0 ≤ r'.buf0 ∧
      r'.buf1 = r.buf1 + r.lenDelta ∧
      r'.buf1 - r'.buf0 < r.buf1 - r.buf0 ∧
      ∀ z, processed r ++ replaceAll r.search r.replace (unprocessed r ++ z)
        = processed r' ++ replaceAll r.search r.replace (unprocessed r' ++ z) := by
  have hsl := slice_ok_int r.buf r.buf0 r.buf1 h.h0 h.h01 h.h1
  have hU : (List.take (r.buf1 - r.buf0).toNat (List.drop r.buf0.toNat r.buf)) = unprocessed r := rfl
  rw [hU] at hsl
  have hlen := unprocessed_length r h.h0 h.h01 h.h1
  have eb : len r.buf = (r.buf.length : Int) := rfl
  have hpos := h.hpos
  have hb1 := h.h1
  have hb0 := h.h0
  have hb01 := h.h01
  have hsL : (r.search.length : Int) = r.searchLen := by rw [h.hsearch]; rfl
  have hrL : (r.replace.length : Int) = r.replaceLen := by rw [h.hreplace]; rfl
  have hrl' : r.replaceLen = len r.replace := h.hreplace
  have hne : r.search ≠ [] := by
    intro hc
    rw [hc] at hsL
    simp at hsL
    omega
  obtain ⟨i, hidx, hpre, hmin⟩ := Index_found _ _ hi
  have hfit := occ_drop_bound _ _ i hpre hne
  -- the fill after the replacement stays inside the buffer
  have hnew1 : r.buf1 + (len r.replace - r.searchLen) ≤ len r.buf := by
    rw [← hrl']
    by_cases hg : r.searchLen < r.replaceLen
    · have hroom := h.hroom hg
      have hi0 : (0:Int) ≤ i := by omega
      have hroom' : (i + r.buf0 + r.replaceLen) * r.searchLen
          + ((r.buf1 + (r.replaceLen - r.searchLen)) - (i + r.buf0 + r.replaceLen)) * r.replaceLen
          ≤ (len r.buf / r.replaceLen) * r.searchLen * r.replaceLen := by
        nlinarith [mul_nonneg hi0 (sub_nonneg.2 hg.le)]
      exact room_bound (i + r.buf0 + r.replaceLen) _ _ _ _ hpos hg (by omega) hroom'
    · omega
  obtain ⟨c1, c2, hs1, hc1, hc2, hbuf⟩ := replace_in_place r.buf r.replace (i + r.buf0)
    r.searchLen r.buf1 (by omega) (by omega) hb1 hpos.le hnew1
  have hd : r.lenDelta = len r.replace - r.searchLen := by rw [h.hdelta, hrl']
  refine ⟨{ r with buf := c2.1, buf0 := (i : Int) + r.buf0 + r.replaceLen,
                   buf1 := r.buf1 + r.lenDelta }, ?_, ?_, ?_, rfl, rfl, ?_, rfl, ?_, ?_⟩
  · rw [scanStep, hsl]
    have hni : ¬ Index (unprocessed r) r.search < 0 := by omega
    simp only [hni, if_false]
    rw [hidx, hs1]
    simp only []
    rw [hd, hrl', hc1]
    simp only []
    rw [hc2]
  all_goals
    have htk : ((r.buf.take ((i : Int) + r.buf0).toNat).length : Int) = i + r.buf0 := by
      rw [List.length_take]; omega
    have htl : (((r.buf.drop ((i : Int) + r.buf0 + r.searchLen).toNat).take
        (r.buf1 - ((i : Int) + r.buf0 + r.searchLen)).toNat).length : Int)
        = r.buf1 - (i + r.buf0 + r.searchLen) := by
      rw [List.length_take, List.length_drop]; omega
    have hlen2 : len c2.1 = len r.buf := by
      unfold len
      rw [hbuf]
      simp only [List.length_append, List.length_drop, Nat.cast_add]
      rw [htk, htl, hrL]
      omega
  · refine { hsearch := h.hsearch, hreplace := h.hreplace, hdelta := h.hdelta, hpos := h.hpos,
             hmaxlo := h.hmaxlo, hmaxhi := ?_, hgrow := ?_, hsrc := h.hsrc,
             h0 := ?_, h01 := ?_, h1 := ?_, hroom := ?_ }
    · show r.max ≤ len c2.1
      rw [hlen2]; exact h.hmaxhi
    · show r.searchLen < r.replaceLen → r.max ≤ len c2.1 / r.replaceLen * r.searchLen
      rw [hlen2]; exact h.hgrow
    · show 0 ≤ (i : Int) + r.buf0 + r.replaceLen
      have := len_nonneg r.replace
      omega
    · show (i : Int) + r.buf0 + r.replaceLen ≤ r.buf1 + r.lenDelta
      rw [hd, ← hrl']; omega
    · show r.buf1 + r.lenDelta ≤ len c2.1
      rw [hlen2, hd]; exact hnew1
    · show r.searchLen < r.replaceLen →
        ((i : Int) + r.buf0 + r.replaceLen) * r.searchLen
          + ((r.buf1 + r.lenDelta) - ((i : Int) + r.buf0 + r.replaceLen)) * r.replaceLen
          ≤ (len c2.1 / r.replaceLen) * r.searchLen * r.replaceLen
      intro hg
      rw [hlen2, h.hdelta]
      have hroom := h.hroom hg
      have hi0 : (0:Int) ≤ i := by omega
      nlinarith [mul_nonneg hi0 (sub_nonneg.2 hg.le)]
  · exact { search_eq := rfl, searchLen_eq := rfl, replace_eq := rfl, replaceLen_eq := rfl,
            lenDelta_eq := rfl, max_eq := rfl, len_eq := hlen2 }
  · show r.buf0 ≤ (i : Int) + r.buf0 + r.replaceLen
    have := len_nonneg r.replace
    omega
  · show r.buf1 + r.lenDelta - ((i : Int) + r.buf0 + r.replaceLen) < r.buf1 - r.buf0
    rw [h.hdelta]; omega
  · intro z
    have e1 : processed { r with buf := c2.1, buf0 := (i : Int) + r.buf0 + r.replaceLen,
                                 buf1 := r.buf1 + r.lenDelta }
        = processed r ++ (unprocessed r).take i ++ r.replace := by
      show c2.1.take ((i : Int) + r.buf0 + r.replaceLen).toNat = _
      rw [hbuf, List.append_assoc, List.append_assoc, ← List.append_assoc,
        List.take_left' (by
          rw [List.length_append]
          have : ((r.buf.take ((i : Int) + r.buf0).toNat).length : Int) = i + r.buf0 := htk
          omega)]
      congr 1
      have := take_split r.buf r.buf0.toNat ((i : Int) + r.buf0).toNat r.buf1.toNat
        (by omega) (by omega)
      rw [this]
      unfold processed unprocessed
      congr 3 <;> omega
    have e2 : unprocessed { r with buf := c2.1, buf0 := (i : Int) + r.buf0 + r.replaceLen,
                                   buf1 := r.buf1 + r.lenDelta }
        = (unprocessed r).drop (i + r.search.length) := by
      show (c2.1.drop ((i : Int) + r.buf0 + r.replaceLen).toNat).take
        (r.buf1 + r.lenDelta - ((i : Int) + r.buf0 + r.replaceLen)).toNat = _
      rw [hbuf, List.append_assoc, List.append_assoc, ← List.append_assoc,
        List.drop_left' (by
          rw [List.length_append]
          have : ((r.buf.take ((i : Int) + r.buf0).toNat).length : Int) = i + r.buf0 := htk
          omega)]
      rw [List.take_left' (by
          have := htl
          rw [h.hdelta]
          omega)]
      have := drop_split r.buf r.buf0.toNat ((i : Int) + r.buf0 + r.searchLen).toNat
        r.buf1.toNat (by omega) (by omega)
      unfold unprocessed
      have ea : (r.buf1 - ((i : Int) + r.buf0 + r.searchLen)).toNat
          = r.buf1.toNat - ((i : Int) + r.buf0 + r.searchLen).toNat := by omega
      have eb : (r.buf1 - r.buf0).toNat = r.buf1.toNat - r.buf0.toNat := by omega
      have ec : i + r.search.length
          = ((i : Int) + r.buf0 + r.searchLen).toNat - r.buf0.toNat := by omega
      rw [ea, eb, ec]
      exact this
    rw [e1, e2, replaceAll_found r.search r.replace (unprocessed r) hne i hpre hmin z]
    simp

/-- The scan loop never panics: it either runs out of fuel, which takes more
iterations than there are unprocessed bytes, or ends in a reader that
satisfies `ScanPost`. -/
theorem scanLoop_spec {σ : Type} (fuel : Nat) (r : BytesReplacingReader σ) (h : ScanInv r) :
    (scanLoop fuel r = .error .outOfFuel ∧ (fuel : Int) ≤ r.buf1 - r.buf0) ∨
    ∃ r', scanLoop fuel r = .ok r' ∧ ScanPost r r' := by
  induction fuel generalizing r with
  | zero =>
    left
    refine ⟨rfl, ?_⟩
    have := h.h01
    omega
  | succ fuel ih =>
    by_cases hi : Index (unprocessed r) r.search < 0
    · right
      obtain ⟨r', hstep, hpost⟩ := scanStep_not_found r h hi
      exact ⟨r', by rw [scanLoop, hstep], hpost⟩
    · obtain ⟨r1, hstep, hinv, hsame, hr, herr, hmono, _, hdec, hsync⟩ :=
        scanStep_found r h (by omega)
      rw [scanLoop, hstep]
      simp only []
      rcases ih r1 hinv with ⟨hout, hle⟩ | ⟨r', hok, hpost⟩
      · left
        refine ⟨hout, ?_⟩
        push_cast
        omega
      · right
        exact ⟨r', hok, scanPost_trans hsame hr herr hmono hsync hpost⟩

/-- With more fuel than unprocessed bytes the scan loop ends. -/
theorem scanLoop_ok {σ : Type} (fuel : Nat) (r : BytesReplacingReader σ) (h : ScanInv r)
    (hf : r.buf1 - r.buf0 < (fuel : Int)) :
    ∃ r', scanLoop fuel r = .ok r' ∧ ScanPost r r' := by
  rcases scanLoop_spec fuel r h with ⟨_, hle⟩ | h'
  · omega
  · exact h'

/-! ## The outer loop of `Read` -/

theorem config_of_same {σ : Type} {r r' : BytesReplacingReader σ} (h : Config r)
    (hs : SameConfig r r') (hr : r'.r ≠ none) : Config r' :=
  { hsearch := by rw [hs.searchLen_eq, hs.search_eq]; exact h.hsearch
    hreplace := by rw [hs.replaceLen_eq, hs.replace_eq]; exact h.hreplace
    hdelta := by rw [hs.lenDelta_eq, hs.replaceLen_eq, hs.searchLen_eq]; exact h.hdelta
    hpos := by rw [hs.searchLen_eq]; exact h.hpos
    hmaxlo := by rw [hs.searchLen_eq, hs.max_eq]; exact h.hmaxlo
    hmaxhi := by rw [hs.max_eq, hs.len_eq]; exact h.hmaxhi
    hgrow := by rw [hs.searchLen_eq, hs.replaceLen_eq, hs.max_eq, hs.len_eq]; exact h.hgrow
    hsrc := hr }

theorem sameConfig_refl {σ : Type} (r : BytesReplacingReader σ) : SameConfig r r :=
  { search_eq := rfl, searchLen_eq := rfl, replace_eq := rfl, replaceLen_eq := rfl,
    lenDelta_eq := rfl, max_eq := rfl, len_eq := rfl }

theorem sameConfig_trans {σ : Type} {a b c : BytesReplacingReader σ}
    (h1 : SameConfig a b) (h2 : SameConfig b c) : SameConfig a c :=
  { search_eq := h2.search_eq.trans h1.search_eq
    searchLen_eq := h2.searchLen_eq.trans h1.searchLen_eq
    replace_eq := h2.replace_eq.trans h1.replace_eq
    replaceLen_eq := h2.replaceLen_eq.trans h1.replaceLen_eq
    lenDelta_eq := h2.lenDelta_eq.trans h1.lenDelta_eq
    max_eq := h2.max_eq.trans h1.max_eq
    len_eq := h2.len_eq.trans h1.len_eq }

/-- The branch of `Read` that returns a latched error at once. -/
theorem latched_post {σ : Type} (rd : Upstream σ) (r : BytesReplacingReader σ) (p : List Byte)
    (h : Inv r) (hb : ¬ r.buf0 > 0) (he : r.err ≠ none) :
    ReadPost rd r p { n := 0, err := r.err, p := p, st := r } := by
  have hb0 : r.buf0 = 0 := by have := h.h0; omega
  have hb1 : r.buf1 = 0 := by have := h.hlatched he; omega
  exact
    { inv := h
      same := sameConfig_refl r
      n_nonneg := le_refl _
      n_le := len_nonneg p
      p_length := rfl
      p_rest := rfl
      err_eq := fun _ => rfl
      err_empty := fun _ => ⟨hb0, hb1⟩
      progress := fun _ hc => absurd hc he
      source := Or.inl rfl
      direct := fun hc => absurd hc hb
      quiet := fun _ => ⟨rfl, rfl⟩
      latched := fun _ _ => rfl
      track := fun _ _ hI s hs => hI s hs
      sync := fun hist d _ hs => by simpa using hs }

theorem pulled_congr {σ : Type} (hist : σ → List Byte) {r r' : BytesReplacingReader σ}
    (h : r'.r = r.r) : pulled hist r' = pulled hist r := by
  unfold pulled
  rw [h]

/-- Delivering the first `n` processed bytes keeps the reader in step. -/
theorem sync_deliver {σ : Type} (hist : σ → List Byte) {r r' : BytesReplacingReader σ}
    (d : List Byte) (n : Nat) (hs : Sync hist r d) (hsame : SameConfig r r')
    (hr : r'.r = r.r) (he : r'.err = r.err)
    (hp : processed r' = (processed r).drop n) (hu : unprocessed r' = unprocessed r) :
    Sync hist r' (d ++ (processed r).take n) := by
  unfold Sync
  rw [he, hp, hu, hsame.search_eq, hsame.replace_eq, pulled_congr hist hr]
  have e : d ++ (processed r).take n ++ (processed r).drop n = d ++ processed r := by
    rw [List.append_assoc, List.take_append_drop]
  constructor
  · intro hn z
    rw [e]
    exact hs.1 hn z
  · intro hn
    rw [e]
    exact hs.2 hn

/-- The branch `r.buf0 > 0` of `Read` succeeds and delivers processed bytes. -/
theorem deliver_spec {σ : Type} (rd : Upstream σ) (r : BytesReplacingReader σ) (p : List Byte)
    (h : Inv r) (hb : r.buf0 > 0) :
    ∃ res, deliver r p = .ok res ∧ ReadPost rd r p res := by
  have eb : len r.buf = (r.buf.length : Int) := rfl
  have ep : len p = (p.length : Int) := rfl
  have hb0 := h.h0
  have hb01 := h.h01
  have hb1 := h.h1
  have hsl := slice_ok_int r.buf 0 r.buf0 (le_refl _) h.h0 (by omega)
  have hdone : (List.take (r.buf0 - 0).toNat (List.drop (0:Int).toNat r.buf)) = processed r := by
    unfold processed
    simp
  rw [hdone] at hsl
  have hpl := processed_length r h.h0 h.h01 h.h1
  -- the number of copied bytes
  obtain ⟨n, hn⟩ : ∃ n : Nat, n = min p.length (processed r).length := ⟨_, rfl⟩
  have hc2 : (goCopy p (processed r)).2 = (n : Int) := by rw [goCopy_snd, hn]
  have hc1 : (goCopy p (processed r)).1 = (processed r).take n ++ p.drop n := by
    unfold goCopy
    rw [hn]
  have hnp : n ≤ p.length := by omega
  have hnb : (n : Int) ≤ r.buf0 := by omega
  have hfront : ((processed r).take n ++ p.drop n).take n = (processed r).take n := by
    rw [List.take_left' (by rw [List.length_take]; omega)]
  have hback : ((processed r).take n ++ p.drop n).drop n = p.drop n := by
    rw [List.drop_left' (by rw [List.length_take]; omega)]
  have hplen : ((processed r).take n ++ p.drop n).length = p.length := by
    rw [List.length_append, List.length_take, List.length_drop]; omega
  have hbuftake : (processed r).take n = r.buf.take n := by
    unfold processed
    rw [List.take_take, Nat.min_eq_left (by omega)]
  have hmin : (n : Int) = min (len p) r.buf0 := by omega
  by_cases hfin : r.buf1 - (n : Int) = 0 ∧ r.err ≠ none
  · -- the last bytes leave together with the latched error
    refine ⟨{ n := n, err := r.err, p := (processed r).take n ++ p.drop n,
              st := { r with buf0 := r.buf0 - n, buf1 := r.buf1 - n } }, ?_, ?_⟩
    · unfold deliver
      rw [hsl]
      simp only [hc2, hc1]
      rw [if_pos hfin]
    · have hz0 : r.buf0 - (n : Int) = 0 := by omega
      exact
        { inv :=
            { hsearch := h.hsearch, hreplace := h.hreplace, hdelta := h.hdelta, hpos := h.hpos,
              hmaxlo := h.hmaxlo, hmaxhi := h.hmaxhi, hgrow := h.hgrow, hsrc := h.hsrc,
              h0 := by show 0 ≤ r.buf0 - (n : Int); omega
              h01 := by show r.buf0 - (n : Int) ≤ r.buf1 - n; omega
              h1 := by show r.buf1 - (n : Int) ≤ len r.buf; omega
              hfrag := by
                show r.buf1 - (n : Int) - (r.buf0 - n) < r.searchLen
                have := h.hfrag; omega
              hlatched := fun _ => by show r.buf0 - (n : Int) = r.buf1 - n; omega }
          same :=
            { search_eq := rfl, searchLen_eq := rfl, replace_eq := rfl, replaceLen_eq := rfl,
              lenDelta_eq := rfl, max_eq := rfl, len_eq := rfl }
          n_nonneg := by show (0:Int) ≤ n; omega
          n_le := by show (n:Int) ≤ len p; omega
          p_length := hplen
          p_rest := by
            show List.drop (n : Int).toNat _ = List.drop (n : Int).toNat p
            rw [Int.toNat_ofNat]; exact hback
          err_eq := fun _ => rfl
          err_empty := fun _ => ⟨hz0, hfin.1⟩
          progress := fun _ hc => absurd hc hfin.2
          source := Or.inl rfl
          direct := fun _ => ⟨hmin, by
            show List.take (n : Int).toNat _ = List.take (n : Int).toNat r.buf
            rw [Int.toNat_ofNat, hfront, hbuftake], rfl, rfl⟩
          quiet := fun _ => ⟨rfl, rfl⟩
          latched := fun hc => by omega
          track := fun _ _ hI s hs => hI s hs
          sync := fun hist d _ hs => by
            show Sync hist _ (d ++ List.take (n : Int).toNat _)
            rw [Int.toNat_ofNat, hfront]
            refine ⟨fun hc => absurd hc hfin.2, fun _ => ?_⟩
            have e1 : processed { r with buf0 := r.buf0 - n, buf1 := r.buf1 - n } = [] := by
              show r.buf.take (r.buf0 - (n : Int)).toNat = []
              rw [hz0]; rfl
            rw [e1, List.append_nil]
            have e2 : (processed r).take n = processed r := by
              apply List.take_of_length_le
              omega
            rw [e2]
            exact hs.2 hfin.2 }
  · -- bytes remain (or no error is latched): the buffer is compacted
    have hsl2 := slice_ok_int r.buf (n : Int) (r.buf1 - n + n) (by omega) (by omega) (by omega)
    have hrest : (List.take (r.buf1 - (n : Int) + n - n).toNat (List.drop (n : Int).toNat r.buf))
        = (r.buf.drop n).take (r.buf1.toNat - n) := by
      rw [Int.toNat_ofNat]
      congr 1
      omega
    rw [hrest] at hsl2
    obtain ⟨rest, hrestdef⟩ : ∃ rest, rest = (r.buf.drop n).take (r.buf1.toNat - n) := ⟨_, rfl⟩
    rw [← hrestdef] at hsl2
    have hrl : rest.length = r.buf1.toNat - n := by
      rw [hrestdef, List.length_take, List.length_drop]; omega
    have hnew : (goCopy r.buf rest).1 = rest ++ r.buf.drop rest.length :=
      goCopy_fst_of_length_le _ _ (by omega)
    refine ⟨{ n := n, err := none, p := (processed r).take n ++ p.drop n,
              st := { r with buf0 := r.buf0 - n, buf1 := r.buf1 - n,
                             buf := rest ++ r.buf.drop rest.length } }, ?_, ?_⟩
    · unfold deliver
      rw [hsl]
      simp only [hc2, hc1]
      rw [if_neg hfin, hsl2]
      simp only [hnew]
    · have hlen2 : len (rest ++ r.buf.drop rest.length) = len r.buf := by
        unfold len
        rw [List.length_append, List.length_drop]
        omega
      have hP : processed { r with buf0 := r.buf0 - n, buf1 := r.buf1 - n,
                                   buf := rest ++ r.buf.drop rest.length }
          = (processed r).drop n := by
        show (rest ++ r.buf.drop rest.length).take (r.buf0 - (n : Int)).toNat = _
        rw [List.take_append_of_le_length (by omega), hrestdef, List.take_take,
          Nat.min_eq_left (by omega)]
        unfold processed
        rw [List.drop_take]
        congr 1
        omega
      have hU : unprocessed { r with buf0 := r.buf0 - n, buf1 := r.buf1 - n,
                                     buf := rest ++ r.buf.drop rest.length }
          = unprocessed r := by
        show ((rest ++ r.buf.drop rest.length).drop (r.buf0 - (n : Int)).toNat).take
          (r.buf1 - (n : Int) - (r.buf0 - n)).toNat = _
        rw [List.drop_append_of_le_length (by omega),
          List.take_append_of_le_length (by rw [List.length_drop]; omega),
          List.take_of_length_le (by rw [List.length_drop]; omega), hrestdef]
        have := drop_split r.buf n r.buf0.toNat r.buf1.toNat (by omega) (by omega)
        unfold unprocessed
        have ea : (r.buf0 - (n : Int)).toNat = r.buf0.toNat - n := by omega
        have ec : (r.buf1 - r.buf0).toNat = r.buf1.toNat - r.buf0.toNat := by omega
        rw [ea, ec]
        exact this.symm
      exact
        { inv :=
            { hsearch := h.hsearch, hreplace := h.hreplace, hdelta := h.hdelta, hpos := h.hpos,
              hmaxlo := h.hmaxlo
              hmaxhi := by
                show r.max ≤ len (rest ++ r.buf.drop rest.length)
                rw [hlen2]; exact h.hmaxhi
              hgrow := by
                show r.searchLen < r.replaceLen →
                  r.max ≤ len (rest ++ r.buf.drop rest.length) / r.replaceLen * r.searchLen
                rw [hlen2]; exact h.hgrow
              hsrc := h.hsrc
              h0 := by show 0 ≤ r.buf0 - (n : Int); omega
              h01 := by show r.buf0 - (n : Int) ≤ r.buf1 - n; omega
              h1 := by
                show r.buf1 - (n : Int) ≤ len (rest ++ r.buf.drop rest.length)
                rw [hlen2]; omega
              hfrag := by
                show r.buf1 - (n : Int) - (r.buf0 - n) < r.searchLen
                have := h.hfrag; omega
              hlatched := fun he => by
                show r.buf0 - (n : Int) = r.buf1 - n
                have := h.hlatched he; omega }
          same :=
            { search_eq := rfl, searchLen_eq := rfl, replace_eq := rfl, replaceLen_eq := rfl,
              lenDelta_eq := rfl, max_eq := rfl, len_eq := hlen2 }
          n_nonneg := by show (0:Int) ≤ n; omega
          n_le := by show (n:Int) ≤ len p; omega
          p_length := hplen
          p_rest := by
            show List.drop (n : Int).toNat _ = List.drop (n : Int).toNat p
            rw [Int.toNat_ofNat]; exact hback
          err_eq := fun hc => absurd rfl hc
          err_empty := fun hc => absurd rfl hc
          progress := fun hne _ => by
            show (0:Int) < n
            have : 0 < p.length := List.length_pos.mpr hne
            omega
          source := Or.inl rfl
          direct := fun _ => ⟨hmin, by
            show List.take (n : Int).toNat _ = List.take (n : Int).toNat r.buf
            rw [Int.toNat_ofNat, hfront, hbuftake], rfl, rfl⟩
          quiet := fun _ => ⟨rfl, rfl⟩
          latched := fun hc => by omega
          track := fun _ _ hI s hs => hI s hs
          sync := fun hist d _ hs => by
            show Sync hist _ (d ++ List.take (n : Int).toNat _)
            rw [Int.toNat_ofNat, hfront]
            exact sync_deliver hist d n hs
              { search_eq := rfl, searchLen_eq := rfl, replace_eq := rfl, replaceLen_eq := rfl,
                lenDelta_eq := rfl, max_eq := rfl, len_eq := hlen2 } rfl rfl hP hU }

theorem no_occ_of_short (search u : List Byte) (h : u.length < search.length) (j : Nat) :
    ¬ search <+: u.drop j := by
  intro hc
  have := hc.length_le
  rw [List.length_drop] at this
  omega

theorem processed_all {σ : Type} (r : BytesReplacingReader σ) (h0 : 0 ≤ r.buf0)
    (h01 : r.buf0 ≤ r.buf1) :
    processed { r with buf0 := r.buf1 } = processed r ++ unprocessed r := by
  show r.buf.take r.buf1.toNat = _
  rw [take_split r.buf r.buf0.toNat r.buf1.toNat r.buf1.toNat (by omega) (le_refl _)]
  unfold processed unprocessed
  have e : (r.buf1 - r.buf0).toNat = r.buf1.toNat - r.buf0.toNat := by omega
  rw [e, List.take_take, Nat.min_self]

theorem unprocessed_none {σ : Type} (r : BytesReplacingReader σ) :
    unprocessed { r with buf0 := r.buf1 } = [] := by
  show (r.buf.drop r.buf1.toNat).take (r.buf1 - r.buf1).toNat = []
  simp

/-- The end of `pull` (lines 130-132) after the scan of what upstream returned. -/
theorem pull_finish {σ : Type} (rd : Upstream σ) (r r2 r3 : BytesReplacingReader σ)
    (h : Inv r) (hb0 : r.buf0 = 0) (he : r.err = none) (s : σ) (hs : r.r = some s)
    (hsame : SameConfig r r2)
    (hr2 : r2.r = some (rd s (r.max - r.buf1).toNat).2.2)
    (he2 : r2.err = (rd s (r.max - r.buf1).toNat).2.1)
    (hP : processed r2 = [])
    (hU : unprocessed r2 = unprocessed r ++ (rd s (r.max - r.buf1).toNat).1)
    (hpost : ScanPost r2 r3) :
    PullPost rd r (if r3.err ≠ none then { r3 with buf0 := r3.buf1 } else r3) := by
  have hsame3 : SameConfig r r3 := sameConfig_trans hsame hpost.toSameConfig
  have hr3 : r3.r = some (rd s (r.max - r.buf1).toNat).2.2 := hpost.r_eq.trans hr2
  have he3 : r3.err = (rd s (r.max - r.buf1).toNat).2.1 := hpost.err_eq.trans he2
  have hsrc3 : r3.r ≠ none := by rw [hr3]; simp
  have hcfg3 : Config r3 := config_of_same h.toConfig hsame3 hsrc3
  have hP0 : processed r = [] := by
    unfold processed; rw [hb0]; rfl
  have hkey : ∀ (hist : σ → List Byte) (d : List Byte), Feeds rd hist → Sync hist r d →
      ∀ z, d ++ processed r3 ++ replaceAll r.search r.replace (unprocessed r3 ++ z)
        = replaceAll r.search r.replace (pulled hist r3 ++ z) := by
    intro hist d hf hsy z
    have h1 := hsy.1 he ((rd s (r.max - r.buf1).toNat).1 ++ z)
    have h2 := hpost.hsync z
    rw [hsame.search_eq, hsame.replace_eq, hP, hU, List.nil_append, List.append_assoc] at h2
    have hpl : pulled hist r3 = pulled hist r ++ (rd s (r.max - r.buf1).toNat).1 := by
      unfold pulled
      rw [hr3, hs]
      exact hf s _
    rw [hP0, List.append_nil] at h1
    rw [hpl, List.append_assoc (pulled hist r), ← h1, h2, List.append_assoc]
  have htrack : ∀ I : σ → Option GoError → Prop,
      (∀ s k, I s none → I (rd s k).2.2 (rd s k).2.1) →
      (∀ s, r.r = some s → I s r.err) → ∀ s, r3.r = some s → I s r3.err := by
    intro I hstep hI s4 hs4
    rw [hr3] at hs4
    cases hs4
    rw [he3]
    have := hI s hs
    rw [he] at this
    exact hstep s _ this
  by_cases hce : r3.err ≠ none
  · rw [if_pos hce]
    have hsame4 : SameConfig r { r3 with buf0 := r3.buf1 } :=
      { search_eq := hsame3.search_eq, searchLen_eq := hsame3.searchLen_eq,
        replace_eq := hsame3.replace_eq, replaceLen_eq := hsame3.replaceLen_eq,
        lenDelta_eq := hsame3.lenDelta_eq, max_eq := hsame3.max_eq, len_eq := hsame3.len_eq }
    refine { inv := ?_, same := hsame4, source := ⟨s, hs, he3, hr3⟩, sync := ?_,
             track := htrack }
    · have hc4 : Config { r3 with buf0 := r3.buf1 } := config_of_same h.toConfig hsame4 hsrc3
      exact
        { toConfig := hc4
          h0 := by show 0 ≤ r3.buf1; have := hpost.h0; have := hpost.h01; omega
          h01 := le_refl _
          h1 := hpost.h1
          hfrag := by
            show r3.buf1 - r3.buf1 < r3.searchLen
            have := hcfg3.hpos; omega
          hlatched := fun _ => rfl }
    · intro hist d hf hsy
      refine ⟨fun hc => absurd hc hce, fun _ => ?_⟩
      have hk := hkey hist d hf hsy []
      rw [List.append_nil, List.append_nil] at hk
      have hshort : (unprocessed r3).length < r.search.length := by
        have hl := unprocessed_length r3 hpost.h0 hpost.h01 hpost.h1
        have hf := hpost.hfrag
        have hsl : r3.searchLen = (r.search.length : Int) := by
          rw [hsame3.searchLen_eq, h.hsearch]; rfl
        omega
      rw [replaceAll_of_no_occ _ _ _ (no_occ_of_short _ _ hshort)] at hk
      show d ++ processed { r3 with buf0 := r3.buf1 }
        = replaceAll r3.search r3.replace (pulled hist r3)
      rw [processed_all r3 hpost.h0 hpost.h01, hsame3.search_eq, hsame3.replace_eq, ← hk,
        List.append_assoc]
  · rw [if_neg hce]
    refine { inv := ?_, same := hsame3, source := ⟨s, hs, he3, hr3⟩, sync := ?_,
             track := htrack }
    · exact
        { toConfig := hcfg3
          h0 := hpost.h0, h01 := hpost.h01, h1 := hpost.h1, hfrag := hpost.hfrag
          hlatched := fun hc => absurd hc hce }
    · intro hist d hf hsy
      refine ⟨fun _ z => ?_, fun hc => absurd hc hce⟩
      rw [hsame3.search_eq, hsame3.replace_eq]
      exact hkey hist d hf hsy z

/-- The call of the upstream source on a reader that satisfies the invariant
and holds no processed byte: the slice `buf[buf1:max]` is in range
and not empty, and the reader with `buf1` moved behind the received bytes
satisfies the invariant of the scan loop. -/
theorem receive_spec {σ : Type} (rd : Upstream σ) (ho : rd.Obeys)
    (r : BytesReplacingReader σ) (h : Inv r) (hb : ¬ r.buf0 > 0) :
    ∃ s r2, r.r = some s ∧
      receive rd r = .ok (r2, len (rd s (r.max - r.buf1).toNat).1) ∧
      0 < (r.max - r.buf1).toNat ∧
      r.buf1 + len (rd s (r.max - r.buf1).toNat).1 ≤ r.max ∧
      r2.r = some (rd s (r.max - r.buf1).toNat).2.2 ∧
      r2.err = (rd s (r.max - r.buf1).toNat).2.1 ∧
      r2.buf0 = 0 ∧ r2.buf1 = r.buf1 ∧
      SameConfig r { r2 with buf1 := r2.buf1 + len (rd s (r.max - r.buf1).toNat).1 } ∧
      ScanInv { r2 with buf1 := r2.buf1 + len (rd s (r.max - r.buf1).toNat).1 } ∧
      processed { r2 with buf1 := r2.buf1 + len (rd s (r.max - r.buf1).toNat).1 } = [] ∧
      unprocessed { r2 with buf1 := r2.buf1 + len (rd s (r.max - r.buf1).toNat).1 }
        = unprocessed r ++ (rd s (r.max - r.buf1).toNat).1 := by
  have eb : len r.buf = (r.buf.length : Int) := rfl
  have hb0 : r.buf0 = 0 := by have := h.h0; omega
  have hb1 := h.h1
  have hb01 := h.h01
  have hfrag := h.hfrag
  have hmaxlo := h.hmaxlo
  have hmaxhi := h.hmaxhi
  have hpos := h.hpos
  have hsl := slice_ok_int r.buf r.buf1 r.max (by omega) (by omega) hmaxhi
  obtain ⟨dst, hdst⟩ : ∃ dst, dst = (r.buf.drop r.buf1.toNat).take (r.max - r.buf1).toNat :=
    ⟨_, rfl⟩
  rw [← hdst] at hsl
  have hdl : dst.length = (r.max - r.buf1).toNat := by
    rw [hdst, List.length_take, List.length_drop]; omega
  obtain ⟨s, hs⟩ : ∃ s, r.r = some s := by
    cases hr : r.r with
    | none => exact absurd hr h.hsrc
    | some s => exact ⟨s, rfl⟩
  obtain ⟨bs, e', s', hrd⟩ : ∃ bs e' s', rd s dst.length = (bs, e', s') := ⟨_, _, _, rfl⟩
  have hbs : bs.length ≤ dst.length := by
    have := ho s dst.length
    rw [hrd] at this
    exact this
  have hcp : (goCopy dst bs).1 = bs ++ dst.drop bs.length := goCopy_fst_of_length_le _ _ hbs
  obtain ⟨nb, hnb⟩ : ∃ nb, nb = r.buf.take r.buf1.toNat ++ (bs ++ dst.drop bs.length)
      ++ r.buf.drop r.max.toNat := ⟨_, rfl⟩
  have hnbl : len nb = len r.buf := by
    unfold len
    rw [hnb]
    simp only [List.length_append, List.length_take, List.length_drop]
    omega
  have hunfold : receive rd r
      = .ok ({ r with r := some s', err := e', buf := nb }, len bs) := by
    unfold receive
    rw [hsl]
    simp only [hs, hrd, hcp, ← hnb]
  rw [hdl] at hrd
  have hbsl : (bs.length : Int) + r.buf1 ≤ r.max := by omega
  have elb : len bs = (bs.length : Int) := rfl
  have hsame2 : SameConfig r
      { r with r := some s', err := e', buf := nb, buf1 := r.buf1 + len bs } :=
    { search_eq := rfl, searchLen_eq := rfl, replace_eq := rfl, replaceLen_eq := rfl,
      lenDelta_eq := rfl, max_eq := rfl, len_eq := hnbl }
  have hinv2 : ScanInv { r with r := some s', err := e', buf := nb, buf1 := r.buf1 + len bs } :=
    { toConfig := config_of_same h.toConfig hsame2 (by simp)
      h0 := by show 0 ≤ r.buf0; omega
      h01 := by show r.buf0 ≤ r.buf1 + len bs; omega
      h1 := by show r.buf1 + len bs ≤ len nb; omega
      hroom := by
        intro hg0
        have hg : r.searchLen < r.replaceLen := hg0
        clear hg0
        show r.buf0 * r.searchLen + (r.buf1 + len bs - r.buf0) * r.replaceLen
          ≤ (len nb / r.replaceLen) * r.searchLen * r.replaceLen
        have hgr := h.hgrow hg
        rw [hnbl, hb0]
        have h1 : r.buf1 + len bs ≤ len r.buf / r.replaceLen * r.searchLen := by omega
        have hrp : 0 ≤ r.replaceLen := by omega
        nlinarith [mul_le_mul_of_nonneg_right h1 hrp] }
  have hP2 : processed { r with r := some s', err := e', buf := nb, buf1 := r.buf1 + len bs }
      = [] := by
    show nb.take r.buf0.toNat = []
    rw [hb0]; rfl
  have hU2 : unprocessed { r with r := some s', err := e', buf := nb, buf1 := r.buf1 + len bs }
      = unprocessed r ++ bs := by
    show (nb.drop r.buf0.toNat).take (r.buf1 + len bs - r.buf0).toNat = _
    unfold unprocessed
    rw [hb0, hnb]
    simp only [Int.toNat_zero, List.drop_zero, sub_zero]
    rw [List.append_assoc, List.append_assoc, ← List.append_assoc]
    apply List.take_left'
    rw [List.length_append, List.length_take]
    omega
  refine ⟨s, { r with r := some s', err := e', buf := nb }, hs, ?_, by omega, ?_, ?_, ?_, hb0,
    rfl, ?_, ?_, ?_, ?_⟩
  · rw [hunfold, hrd]
  · rw [hrd]; show r.buf1 + len bs ≤ r.max; omega
  · rw [hrd]
  · rw [hrd]
  · rw [hrd]; exact hsame2
  · rw [hrd]; exact hinv2
  · rw [hrd]; exact hP2
  · rw [hrd]; exact hU2

/-- The step `pull` never panics: it either runs out of fuel, which takes a
buffer at least as long as the fuel, or ends in a reader that satisfies
`PullPost`. -/
theorem pull_spec {σ : Type} (rd : Upstream σ) (ho : rd.Obeys) (fuel : Nat)
    (r : BytesReplacingReader σ) (h : Inv r) (hb : ¬ r.buf0 > 0) (he : r.err = none) :
    (pull rd fuel r = .error .outOfFuel ∧ (fuel : Int) ≤ len r.buf) ∨
    ∃ r', pull rd fuel r = .ok r' ∧ PullPost rd r r' := by
  obtain ⟨s, r2, hs, hrec, _, hle, hr2, he2, h20, h21, hsame2, hinv2, hP2, hU2⟩ :=
    receive_spec rd ho r h hb
  have hb0 : r.buf0 = 0 := by have := h.h0; omega
  have hfin := fun r3 hpost => pull_finish rd r _ r3 h hb0 he s hs hsame2 hr2 he2 hP2 hU2 hpost
  have hmaxhi := h.hmaxhi
  have hl0 := len_nonneg (rd s (r.max - r.buf1).toNat).1
  unfold pull
  rw [hrec]
  simp only []
  by_cases hn : len (rd s (r.max - r.buf1).toNat).1 > 0
  · rw [if_pos hn]
    rcases scanLoop_spec fuel _ hinv2 with ⟨hout, hle2⟩ | ⟨r3, hok, hpost⟩
    · left
      rw [hout]
      refine ⟨rfl, ?_⟩
      have : (fuel : Int) ≤ r2.buf1 + len (rd s (r.max - r.buf1).toNat).1 - r2.buf0 := hle2
      omega
    · right
      rw [hok]
      exact ⟨_, rfl, hfin r3 hpost⟩
  · right
    rw [if_neg hn]
    have hn0 : len (rd s (r.max - r.buf1).toNat).1 = 0 := by omega
    have heq : r2 = { r2 with buf1 := r2.buf1 + len (rd s (r.max - r.buf1).toNat).1 } := by
      rw [hn0, add_zero]
    refine ⟨_, rfl, ?_⟩
    have hpost : ScanPost { r2 with buf1 := r2.buf1 + len (rd s (r.max - r.buf1).toNat).1 } r2 := by
      have := scanPost_refl _ hinv2.h0 hinv2.h01 hinv2.h1 (by
        show r2.buf1 + len (rd s (r.max - r.buf1).toNat).1 - r2.buf0 < r2.searchLen
        have := h.hfrag
        have := hsame2.searchLen_eq
        have hq : r2.searchLen = r.searchLen := this
        omega)
      rw [← heq] at this
      rw [← heq]
      exact this
    exact hfin r2 hpost

/-- A call of `Read` that starts with a `pull` guarantees what the call that
goes on after the `pull` guarantees. -/
theorem readPost_after_pull {σ : Type} (rd : Upstream σ) {r r' : BytesReplacingReader σ}
    {p : List Byte} {res : ReadResult σ} (hb : ¬ r.buf0 > 0) (he : r.err = none)
    (hp : PullPost rd r r') (hr : ReadPost rd r' p res) : ReadPost rd r p res :=
  { inv := hr.inv
    same := sameConfig_trans hp.same hr.same
    n_nonneg := hr.n_nonneg
    n_le := hr.n_le
    p_length := hr.p_length
    p_rest := hr.p_rest
    err_eq := hr.err_eq
    err_empty := hr.err_empty
    progress := hr.progress
    source := by
      obtain ⟨s, _, hes, _⟩ := hp.source
      rcases hr.source with h1 | h2
      · exact Or.inr ⟨s, _, h1.trans hes⟩
      · exact Or.inr h2
    direct := fun hc => absurd hc hb
    quiet := fun hc => by
      rcases hc with hc | hc
      · exact absurd hc hb
      · exact absurd he hc
    latched := fun _ hc => absurd he hc
    track := fun I hstep hI => hr.track I hstep (hp.track I hstep hI)
    sync := fun hist d hf hs => hr.sync hist d hf (hp.sync hist d hf hs) }

/-- `Read` never panics on a reader that satisfies the invariant: it either
runs out of fuel or returns a result that satisfies `ReadPost`. -/
theorem Read_spec {σ : Type} (rd : Upstream σ) (ho : rd.Obeys) (fuel : Nat)
    (r : BytesReplacingReader σ) (p : List Byte) (h : Inv r) :
    Read rd fuel r p = .error .outOfFuel ∨
    ∃ res, Read rd fuel r p = .ok res ∧ ReadPost rd r p res := by
  induction fuel generalizing r with
  | zero => left; rfl
  | succ fuel ih =>
    rw [Read]
    by_cases hb : r.buf0 > 0
    · rw [if_pos hb]
      exact Or.inr (deliver_spec rd r p h hb)
    · rw [if_neg hb]
      by_cases he : r.err ≠ none
      · rw [if_pos he]
        exact Or.inr ⟨_, rfl, latched_post rd r p h hb he⟩
      · rw [if_neg he]
        have he' : r.err = none := not_not.mp he
        rcases pull_spec rd ho fuel r h hb he' with ⟨hout, _⟩ | ⟨r', hok, hpost⟩
        · left
          rw [hout]
        · rw [hok]
          rcases ih r' hpost.inv with hout | ⟨res, hres, hrp⟩
          · left
            exact hout
          · right
            exact ⟨res, hres, readPost_after_pull rd hb he' hpost hrp⟩

/-- `Read` returns when every call of the upstream source that returns no
error lowers a measure `mu` of the state of the source, and the fuel exceeds
that measure and the length of the buffer. -/
theorem Read_fuel {σ : Type} (rd : Upstream σ) (ho : rd.Obeys) (mu : σ → Nat)
    (hmu : ∀ s k, 0 < k → (rd s k).2.1 = none → mu (rd s k).2.2 < mu s)
    (fuel : Nat) (r : BytesReplacingReader σ) (p : List Byte) (h : Inv r)
    (hf : ((r.buf0 > 0 ∨ r.err ≠ none) ∧ 1 ≤ fuel) ∨
      ∃ s, r.r = some s ∧ mu s + r.buf.length + 2 ≤ fuel) :
    Read rd fuel r p ≠ .error .outOfFuel := by
  induction fuel generalizing r with
  | zero =>
    rcases hf with ⟨_, h1⟩ | ⟨s, _, h2⟩ <;> omega
  | succ fuel ih =>
    rw [Read]
    by_cases hb : r.buf0 > 0
    · rw [if_pos hb]
      obtain ⟨res, hres, _⟩ := deliver_spec rd r p h hb
      rw [hres]
      simp
    · rw [if_neg hb]
      by_cases he : r.err ≠ none
      · rw [if_pos he]
        simp
      · rw [if_neg he]
        have he' : r.err = none := not_not.mp he
        obtain ⟨s, hs, hfl⟩ : ∃ s, r.r = some s ∧ mu s + r.buf.length + 2 ≤ fuel + 1 := by
          rcases hf with ⟨hc, _⟩ | h2
          · rcases hc with hc | hc
            · exact absurd hc hb
            · exact absurd hc he
          · exact h2
        have eb : len r.buf = (r.buf.length : Int) := rfl
        rcases pull_spec rd ho fuel r h hb he' with ⟨_, hle⟩ | ⟨r', hok, hpost⟩
        · omega
        · rw [hok]
          apply ih r' hpost.inv
          obtain ⟨s0, hs0, hes, hrs⟩ := hpost.source
          rw [hs] at hs0
          cases hs0
          by_cases he2 : r'.err ≠ none
          · left
            exact ⟨Or.inr he2, by omega⟩
          · right
            refine ⟨_, hrs, ?_⟩
            have he2' : r'.err = none := not_not.mp he2
            have hk : 0 < (r.max - r.buf1).toNat := by
              have := h.hfrag
              have := h.hmaxlo
              have := h.h0
              omega
            have hlt := hmu s _ hk (by rw [← hes]; exact he2')
            have hl : len r'.buf = len r.buf := hpost.same.len_eq
            have eb' : len r'.buf = (r'.buf.length : Int) := rfl
            omega

/-! ## `Reset` -/

/-- The buffer that `Reset` leaves: the old one when it is large enough, a new
one of the least admissible length otherwise. -/
theorem Reset_eq {σ : Type} (r : BytesReplacingReader σ) (s : σ) (search1 replace1 : List Byte)
    (hne : search1 ≠ []) :
    Reset r (some s) search1 replace1 = .ok
      { r := some s, search := search1, searchLen := len search1,
        replace := replace1, replaceLen := len replace1,
        lenDelta := len replace1 - len search1, err := none,
        buf := if len r.buf < max 4096 (max (len search1) (len replace1))
          then makeBytes (max 4096 (max (len search1) (len replace1))) else r.buf,
        buf0 := 0, buf1 := 0,
        max := if len search1 < len replace1
          then (len (if len r.buf < max 4096 (max (len search1) (len replace1))
            then makeBytes (max 4096 (max (len search1) (len replace1))) else r.buf)
              / len replace1) * len search1
          else len (if len r.buf < max 4096 (max (len search1) (len replace1))
            then makeBytes (max 4096 (max (len search1) (len replace1))) else r.buf) } := by
  have h0 : len search1 ≠ 0 := fun h => hne ((len_eq_zero_iff _).mp h)
  unfold Reset
  simp only [h0, if_false, goMax_eq_max, defaultBufSize]
  rw [Int.tdiv_eq_ediv (len_nonneg _) (len_nonneg _)]

theorem Reset_buf_len {σ : Type} (r : BytesReplacingReader σ) (search1 replace1 : List Byte) :
    max 4096 (max (len search1) (len replace1))
      ≤ len (if len r.buf < max 4096 (max (len search1) (len replace1))
          then makeBytes (max 4096 (max (len search1) (len replace1))) else r.buf) := by
  split
  · rw [len_makeBytes _ (by omega)]
  · omega

/-- A successful `Reset` establishes the invariant of the reader. -/
theorem Reset_inv {σ : Type} (r r' : BytesReplacingReader σ) (s : σ)
    (search1 replace1 : List Byte) (hne : search1 ≠ [])
    (h : Reset r (some s) search1 replace1 = .ok r') :
    Inv r' ∧ r'.r = some s ∧ r'.search = search1 ∧ r'.replace = replace1 ∧ r'.err = none ∧
      r'.buf0 = 0 ∧ r'.buf1 = 0 := by
  rw [Reset_eq r s search1 replace1 hne] at h
  injection h with h
  subst h
  refine ⟨?_, rfl, rfl, rfl, rfl, rfl, rfl⟩
  have hb := Reset_buf_len r search1 replace1
  generalize (if len r.buf < max 4096 (max (len search1) (len replace1))
    then makeBytes (max 4096 (max (len search1) (len replace1))) else r.buf) = b at hb ⊢
  have hs0 := len_nonneg search1
  have hsne : len search1 ≠ 0 := fun h => hne ((len_eq_zero_iff _).mp h)
  have hr0 := len_nonneg replace1
  have hgrow : len search1 < len replace1 →
      len search1 ≤ len b / len replace1 * len search1 := by
    intro hg
    have h1 : 1 ≤ len b / len replace1 := by
      rw [Int.le_ediv_iff_mul_le (by omega)]
      omega
    nlinarith
  exact
    { hsearch := rfl, hreplace := rfl, hdelta := rfl
      hpos := by show 0 < len search1; omega
      hmaxlo := by
        show len search1 ≤ if len search1 < len replace1
          then len b / len replace1 * len search1 else len b
        split
        · exact hgrow (by assumption)
        · omega
      hmaxhi := by
        show (if len search1 < len replace1
          then len b / len replace1 * len search1 else len b) ≤ len b
        split
        · rename_i hg
          have h1 : len b / len replace1 * len replace1 ≤ len b :=
            Int.ediv_mul_le _ (by omega)
          have h2 : 0 ≤ len b / len replace1 := Int.ediv_nonneg (by omega) (by omega)
          nlinarith
        · exact le_refl _
      hgrow := by
        intro hg
        have hg' : len search1 < len replace1 := hg
        show (if len search1 < len replace1
          then len b / len replace1 * len search1 else len b) ≤ _
        rw [if_pos hg']
      hsrc := by simp
      h0 := le_refl _, h01 := le_refl _
      h1 := by show (0:Int) ≤ len b; exact len_nonneg b
      hfrag := by show (0:Int) - 0 < len search1; omega
      hlatched := fun _ => rfl }

/-! ## The chunked source -/

theorem chunked_read_obeys : Upstream.Obeys Chunked.read := by
  intro s k
  unfold Chunked.read
  cases hd : s.data with
  | nil => simp
  | cons x t =>
    cases hz : s.sizes with
    | nil => simp
    | cons c cs =>
      simp only [List.length_take]
      omega

theorem chunked_read_feeds : Feeds Chunked.read (fun s => s.given) := by
  intro s k
  unfold Chunked.read
  cases hd : s.data with
  | nil => simp
  | cons x t => simp

theorem chunked_read_measure (s : Chunked) (k : Nat) (hk : 0 < k)
    (he : (Chunked.read s k).2.1 = none) :
    (Chunked.read s k).2.2.measure < s.measure := by
  unfold Chunked.read at he ⊢
  unfold Chunked.measure
  cases hd : s.data with
  | nil =>
    rw [hd] at he
    simp at he
  | cons x t =>
    cases hz : s.sizes with
    | nil =>
      simp only [List.tail_nil, List.length_nil, List.length_drop, List.length_cons]
      omega
    | cons c cs =>
      simp only [List.tail_cons, List.length_drop, List.length_cons]
      omega

theorem chunked_read_tracks (input : List Byte) (fin : GoError) (m : Nat) (s : Chunked)
    (k : Nat) (h : Chunked.Tracks input fin m s none) :
    Chunked.Tracks input fin m (Chunked.read s k).2.2 (Chunked.read s k).2.1 := by
  obtain ⟨h1, h2, h3, _⟩ := h
  unfold Chunked.read
  unfold Chunked.measure at h3
  cases hd : s.data with
  | nil =>
    refine ⟨h1, h2, h3, fun _ => ⟨hd, ?_⟩⟩
    simp [h2]
  | cons x t =>
    refine ⟨?_, h2, ?_, ?_⟩
    · simp only []
      rw [List.append_assoc, List.take_append_drop, ← hd]
      exact h1
    · unfold Chunked.measure
      simp only [List.length_drop, List.length_tail]
      rw [hd] at h3
      omega
    · simp only []
      intro he
      by_cases hc : s.eager = true ∧ List.drop (match s.sizes with
          | [] => k
          | c :: _ => min c k) (x :: t) = []
      · rw [if_pos hc] at he ⊢
        exact ⟨hc.2, by rw [h2]⟩
      · rw [if_neg hc] at he
        exact absurd rfl he

/-! ## Draining the reader -/

/-- What has been delivered is never longer than the replacement of the input. -/
theorem delivered_le {σ : Type} (hist : σ → List Byte) (r : BytesReplacingReader σ)
    (d input rest : List Byte) (hs : Sync hist r d)
    (hin : pulled hist r ++ rest = input) (herr : r.err ≠ none → rest = []) :
    d.length ≤ (replaceAll r.search r.replace input).length := by
  by_cases he : r.err = none
  · have := hs.1 he rest
    rw [hin] at this
    rw [← this]
    simp only [List.length_append]
    omega
  · have := hs.2 he
    have hr := herr he
    rw [hr, List.append_nil] at hin
    rw [hin] at this
    rw [← this]
    simp only [List.length_append]
    omega

/-- Draining a reader over a chunked source, from any state that satisfies the
invariant and is in step with the source: with enough fuel and enough calls
the drain ends with the error of the source, and what was delivered before
together with what it delivers is the replacement of the whole input. -/
theorem drain_chunked (input : List Byte) (fin : GoError) (m : Nat)
    (dst : Nat → List Byte) (hdst : ∀ i, dst i ≠ []) (fuel : Nat) :
    ∀ (calls i : Nat) (r : BytesReplacingReader Chunked) (d : List Byte),
      Inv r → Sync (fun s => s.given) r d →
      (∀ s, r.r = some s → Chunked.Tracks input fin m s r.err) →
      m + r.buf.length + 2 ≤ fuel →
      (replaceAll r.search r.replace input).length + 1 ≤ d.length + calls →
      ∃ out, drain Chunked.read fuel dst calls i r = .ok (out, fin) ∧
        d ++ out = replaceAll r.search r.replace input := by
  intro calls
  induction calls with
  | zero =>
    intro i r d h hs ht hf hc
    exfalso
    obtain ⟨s, hsr⟩ : ∃ s, r.r = some s := by
      cases hr : r.r with
      | none => exact absurd hr h.hsrc
      | some s => exact ⟨s, rfl⟩
    obtain ⟨t1, _, _, t4⟩ := ht s hsr
    have := delivered_le (fun s => s.given) r d input s.data hs
      (by unfold pulled; rw [hsr]; exact t1) (fun he => (t4 he).1)
    omega
  | succ calls ih =>
    intro i r d h hs ht hf hc
    obtain ⟨s, hsr⟩ : ∃ s, r.r = some s := by
      cases hr : r.r with
      | none => exact absurd hr h.hsrc
      | some s => exact ⟨s, rfl⟩
    have hne := Read_fuel Chunked.read chunked_read_obeys Chunked.measure
      chunked_read_measure fuel r (dst i) h
      (Or.inr ⟨s, hsr, by have := (ht s hsr).2.2.1; omega⟩)
    rcases Read_spec Chunked.read chunked_read_obeys fuel r (dst i) h with hout | ⟨res, hres, hp⟩
    · exact absurd hout hne
    · rw [drain, hres]
      simp only []
      have hs' := hp.sync (fun s => s.given) d chunked_read_feeds hs
      have ht' := hp.track (Chunked.Tracks input fin m)
        (fun s k => chunked_read_tracks input fin m s k) ht
      obtain ⟨s', hsr'⟩ : ∃ s', res.st.r = some s' := by
        cases hr : res.st.r with
        | none => exact absurd hr hp.inv.hsrc
        | some s => exact ⟨s, rfl⟩
      obtain ⟨t1, _, _, t4⟩ := ht' s' hsr'
      cases hre : res.err with
      | some e =>
        have hne' : res.err ≠ none := by rw [hre]; simp
        have hee := hp.err_eq hne'
        have hste : res.st.err ≠ none := by rw [← hee]; exact hne'
        obtain ⟨hd0, hefin⟩ := t4 hste
        have hefin' : e = fin := by
          rw [← hee, hre] at hefin
          injection hefin
        subst hefin'
        refine ⟨_, rfl, ?_⟩
        have h2 := hs'.2 hste
        have hP : processed res.st = [] := by
          unfold processed
          rw [(hp.err_empty hne').1]
          rfl
        rw [hP, List.append_nil] at h2
        rw [h2, hp.same.search_eq, hp.same.replace_eq]
        congr 1
        unfold pulled
        rw [hsr', ← t1, hd0, List.append_nil]
      | none =>
        have hn := hp.progress (hdst i) hre
        have hlen : (res.p.take res.n.toNat).length = res.n.toNat := by
          rw [List.length_take, hp.p_length]
          have := hp.n_le
          unfold len at this
          omega
        have hbl : res.st.buf.length = r.buf.length := by
          have := hp.same.len_eq
          unfold len at this
          omega
        obtain ⟨out, hdr, hout⟩ := ih (i + 1) res.st (d ++ res.p.take res.n.toNat) hp.inv
          hs' ht' (by omega) (by
            rw [hp.same.search_eq, hp.same.replace_eq, List.length_append, hlen]
            omega)
        rw [hdr]
        refine ⟨_, rfl, ?_⟩
        rw [← List.append_assoc, hout, hp.same.search_eq, hp.same.replace_eq]

/-! ## Reachable readers -/

theorem fromUpstream_step {σ : Type} (rd : Upstream σ) (s : σ) (k : Nat)
    (_h : FromUpstream rd s none) : FromUpstream rd (rd s k).2.2 (rd s k).2.1 :=
  Or.inr ⟨s, k, rfl, rfl⟩

/-- Every reachable reader satisfies the invariant, holds no error that its
source did not return, and is in step with its source. -/
theorem reached_inv {σ : Type} {rd : Upstream σ} {hist : σ → List Byte}
    {r : BytesReplacingReader σ} {d : List Byte} (ho : rd.Obeys) (h : Reached rd hist r d) :
    Inv r ∧ (∀ s, r.r = some s → FromUpstream rd s r.err) ∧
      (Feeds rd hist → Sync hist r d) := by
  induction h with
  | reset r0 s search1 replace1 r hh hr =>
    have hne : search1 ≠ [] := by
      intro hc
      subst hc
      simp [Reset, len] at hr
    obtain ⟨hinv, hrs, hsr, hrp, herr, hb0, hb1⟩ := Reset_inv r0 r s search1 replace1 hne hr
    refine ⟨hinv, fun s' _ => Or.inl herr, fun _ => ⟨fun _ z => ?_, fun hc => absurd herr hc⟩⟩
    have hP : processed r = [] := by unfold processed; rw [hb0]; rfl
    have hU : unprocessed r = [] := by unfold unprocessed; rw [hb0, hb1]; rfl
    have hpl : pulled hist r = [] := by unfold pulled; rw [hrs]; exact hh
    rw [hP, hU, hpl]
    rfl
  | read r d fuel p res _ hread ih =>
    obtain ⟨hinv, hfrom, hsync⟩ := ih
    rcases Read_spec rd ho fuel r p hinv with hout | ⟨res', hres, hp⟩
    · rw [hout] at hread
      cases hread
    · rw [hres] at hread
      injection hread with hread
      subst hread
      exact ⟨hp.inv, hp.track (FromUpstream rd) (fromUpstream_step rd) hfrom,
        fun hf => hp.sync hist d hf (hsync hf)⟩

/-- `Read` is the refill followed by the delivery or the return of the error. -/
theorem Read_eq_refill {σ : Type} (rd : Upstream σ) (fuel : Nat) (r : BytesReplacingReader σ)
    (p : List Byte) :
    Read rd fuel r p = match refill rd fuel r with
      | .error e => .error e
      | .ok r' => if r'.buf0 > 0 then deliver r' p
                  else .ok { n := 0, err := r'.err, p := p, st := r' } := by
  induction fuel generalizing r with
  | zero => rfl
  | succ fuel ih =>
    rw [Read, refill]
    by_cases hb : r.buf0 > 0
    · rw [if_pos hb, if_pos hb]
      simp only [hb, if_true]
    · rw [if_neg hb, if_neg hb]
      by_cases he : r.err ≠ none
      · rw [if_pos he, if_pos he]
        simp only [hb, if_false]
      · rw [if_neg he, if_neg he]
        cases hpull : pull rd fuel r with
        | error e => rfl
        | ok r' => exact ih r'

theorem ok_of_toOption {ε α : Type} (x : Except ε α) (a : α)
    (h : x.toOption = some a) : x = .ok a := by
  cases x with
  | error e => simp [Except.toOption] at h
  | ok b =>
    simp [Except.toOption] at h
    rw [h]

theorem demoReader_reset :
    Reset (BytesReplacingReader.zero Chunked) (some (Chunked.start [1] [] false GoError.EOF))
      [9, 9] [] = .ok demoReader := by
  apply ok_of_toOption
  decide!

theorem demoReader_read : Read Chunked.read 3 demoReader [0, 0, 0] = .ok demoResult := by
  apply ok_of_toOption
  decide!

theorem demoReader_reached : Reached Chunked.read (fun s => s.given) demoReader [] :=
  Reached.reset _ _ _ _ _ rfl demoReader_reset

/-! ## The claims on `Reset` -/

/-- C6. `Reset` panics with "io.Reader cannot be nil" exactly when the upstream
reader is nil, with "search token cannot be nil/empty" exactly when the reader
is not nil and the search token is empty, and succeeds exactly when the reader
is not nil and the search token is not empty, whatever the replacement token;
`NewBytesReplacingReader` is `Reset` on the zero reader. -/
theorem Reset_panics_iff {σ : Type} (r : BytesReplacingReader σ) (r1 : Option σ)
    (search1 replace1 : List Byte) :
    (Reset r r1 search1 replace1 = .error "io.Reader cannot be nil" ↔ r1 = none) ∧
    (Reset r r1 search1 replace1 = .error "search token cannot be nil/empty"
      ↔ (r1 ≠ none ∧ search1 = [])) ∧
    ((∃ r', Reset r r1 search1 replace1 = .ok r') ↔ (r1 ≠ none ∧ search1 ≠ [])) ∧
    NewBytesReplacingReader r1 search1 replace1
      = Reset (BytesReplacingReader.zero σ) r1 search1 replace1 := by
  have hne : ("search token cannot be nil/empty" : String) ≠ "io.Reader cannot be nil" := by
    decide
  cases r1 with
  | none => simp [Reset, NewBytesReplacingReader, hne.symm]
  | some s =>
    by_cases hs : search1 = []
    · subst hs
      simp [Reset, NewBytesReplacingReader, len, hne]
    · have : len search1 ≠ 0 := fun h => hs ((len_eq_zero_iff _).mp h)
      simp [Reset, NewBytesReplacingReader, this, hs]

/-- C8. After a successful `Reset` the buffer is at least
`max(4096, len(search), len(replace))` long; a buffer that was already that
long is kept as it is, and otherwise the buffer is a new one of exactly that
length. -/
theorem Reset_buf_size {σ : Type} (r : BytesReplacingReader σ) (s : σ)
    (search1 replace1 : List Byte) (hne : search1 ≠ []) :
    ∃ r', Reset r (some s) search1 replace1 = .ok r' ∧
      max 4096 (max (len search1) (len replace1)) ≤ len r'.buf ∧
      (max 4096 (max (len search1) (len replace1)) ≤ len r.buf → r'.buf = r.buf) ∧
      (len r.buf < max 4096 (max (len search1) (len replace1)) →
        r'.buf = makeBytes (max 4096 (max (len search1) (len replace1))) ∧
        len r'.buf = max 4096 (max (len search1) (len replace1))) := by
  refine ⟨_, Reset_eq r s search1 replace1 hne, Reset_buf_len r search1 replace1, ?_, ?_⟩
  · intro h
    show (if len r.buf < max 4096 (max (len search1) (len replace1))
      then makeBytes (max 4096 (max (len search1) (len replace1))) else r.buf) = r.buf
    rw [if_neg (by omega)]
  · intro h
    show (if len r.buf < max 4096 (max (len search1) (len replace1))
      then makeBytes (max 4096 (max (len search1) (len replace1))) else r.buf) = _ ∧
      len (if len r.buf < max 4096 (max (len search1) (len replace1))
      then makeBytes (max 4096 (max (len search1) (len replace1))) else r.buf) = _
    rw [if_pos h]
    exact ⟨rfl, len_makeBytes _ (by omega)⟩

/-- Witness of C8: a reader whose buffer of 5000 bytes is kept by `Reset`. -/
theorem Reset_buf_size_witness :
    ∃ r', Reset { BytesReplacingReader.zero Unit with buf := List.replicate 5000 7 }
        (some ()) [2, 3] [4, 5, 6] = .ok r' ∧
      max 4096 (max (len [2, 3]) (len [4, 5, 6])) ≤ len r'.buf ∧
      (max 4096 (max (len [2, 3]) (len [4, 5, 6])) ≤ len (List.replicate 5000 7) →
        r'.buf = List.replicate 5000 7) ∧
      (len (List.replicate 5000 7) < max 4096 (max (len [2, 3]) (len [4, 5, 6])) →
        r'.buf = makeBytes (max 4096 (max (len [2, 3]) (len [4, 5, 6]))) ∧
        len r'.buf = max 4096 (max (len [2, 3]) (len [4, 5, 6]))) :=
  Reset_buf_size { BytesReplacingReader.zero Unit with buf := List.replicate 5000 7 } ()
    [2, 3] [4, 5, 6] (by decide)

theorem growReader_reset :
    Reset (BytesReplacingReader.zero Unit) (some ()) (List.replicate 3 1)
      (List.replicate 11 2) = .ok growReader := by
  apply ok_of_toOption
  decide!

/-- Counterexample to C9 as stated: with a buffer of 4096 bytes, a search token
of 3 bytes and a replacement of 11 bytes, `Reset` sets `max` to
`(4096 / 11) * 3 = 1116`, not to `floor(4096 * 3 / 11) = 1117`. -/
theorem Reset_max_not_floor_of_product :
    Reset (BytesReplacingReader.zero Unit) (some ()) (List.replicate 3 1)
        (List.replicate 11 2) = .ok growReader ∧
      len growReader.search < len growReader.replace ∧
      len growReader.buf = 4096 ∧ growReader.max = 1116 ∧
      len growReader.buf * len growReader.search / len growReader.replace = 1117 ∧
      growReader.max
        ≠ len growReader.buf * len growReader.search / len growReader.replace := by
  refine ⟨growReader_reset, ?_, ?_, ?_, ?_, ?_⟩ <;> decide!

/-- C9 as amended. After a successful `Reset` the fill ceiling `max` is the
length of the buffer when `len(replace) <= len(search)`, and
`floor(len(buf) / len(replace)) * len(search)` when `len(replace) > len(search)`. -/
theorem Reset_max {σ : Type} (r r' : BytesReplacingReader σ) (s : σ)
    (search1 replace1 : List Byte) (h : Reset r (some s) search1 replace1 = .ok r') :
    r'.max = if len search1 < len replace1
      then (len r'.buf / len replace1) * len search1 else len r'.buf := by
  have hne : search1 ≠ [] := by
    intro hc
    subst hc
    simp [Reset, len] at h
  rw [Reset_eq r s search1 replace1 hne] at h
  injection h with h
  subst h
  rfl

/-- Witness of C9 as amended: the reader of the counterexample. -/
theorem Reset_max_witness :
    growReader.max = if len (List.replicate 3 (1 : Byte)) < len (List.replicate 11 (2 : Byte))
      then (len growReader.buf / len (List.replicate 11 (2 : Byte)))
        * len (List.replicate 3 (1 : Byte))
      else len growReader.buf :=
  Reset_max _ growReader _ _ _ growReader_reset

/-! ## The claims on the drained output -/

/-- After `Reset` on any reader and a chunked source at its start, the drain
returns the replacement of the input of the source and the error that ends
the source, as soon as the fuel and the number of calls are large enough. -/
theorem drain_after_Reset (r0 : BytesReplacingReader Chunked)
    (input search1 replace1 : List Byte) (hne : search1 ≠ []) (sizes : List Nat)
    (eager : Bool) (fin : GoError) (dst : Nat → List Byte) (hdst : ∀ i, dst i ≠ []) :
    ∃ r, Reset r0 (some (Chunked.start input sizes eager fin)) search1 replace1 = .ok r ∧
      ∀ fuel calls, sizes.length + input.length + r.buf.length + 2 ≤ fuel →
        (replaceAll search1 replace1 input).length + 1 ≤ calls →
        drain Chunked.read fuel dst calls 0 r
          = .ok (replaceAll search1 replace1 input, fin) := by
  obtain ⟨r, hr⟩ : ∃ r, Reset r0 (some (Chunked.start input sizes eager fin)) search1 replace1
      = .ok r := ⟨_, Reset_eq r0 _ search1 replace1 hne⟩
  obtain ⟨hinv, hrs, hsr, hrp, herr, hb0, hb1⟩ := Reset_inv r0 r _ search1 replace1 hne hr
  refine ⟨r, hr, ?_⟩
  intro fuel calls hf hc
  have hP : processed r = [] := by unfold processed; rw [hb0]; rfl
  have hU : unprocessed r = [] := by unfold unprocessed; rw [hb0, hb1]; rfl
  have hpl : pulled (fun s : Chunked => s.given) r = [] := by
    unfold pulled; rw [hrs]; rfl
  have hsync : Sync (fun s : Chunked => s.given) r [] := by
    refine ⟨fun _ z => ?_, fun hc => absurd herr hc⟩
    rw [hP, hU, hpl]
    rfl
  have htr : ∀ s, r.r = some s →
      Chunked.Tracks input fin (sizes.length + input.length) s r.err := by
    intro s hs
    rw [hrs] at hs
    injection hs with hs
    subst hs
    refine ⟨rfl, rfl, le_refl _, fun hc => absurd herr hc⟩
  obtain ⟨out, hd, ho⟩ := drain_chunked input fin (sizes.length + input.length) dst hdst fuel
    calls 0 r [] hinv hsync htr (by omega) (by
      rw [hsr, hrp, List.length_nil]
      omega)
  rw [hd]
  rw [List.nil_append, hsr, hrp] at ho
  rw [ho]

/-- C1. For every input, every non-empty search token, every replacement token,
every way a chunked source splits the input into reads (sizes of the reads,
zero included, and end-of-stream with the last bytes or alone) and every
sequence of non-empty destination slices: after `Reset` on any reader, the
bytes that the successive `Read` calls deliver, up to and including the call
that returns `io.EOF`, are `replaceAll search replace input`, the left-to-right
non-overlapping replacement, as soon as fuel and calls are large enough. -/
theorem drain_eq_replaceAll (r0 : BytesReplacingReader Chunked)
    (input search1 replace1 : List Byte) (hne : search1 ≠ []) (sizes : List Nat)
    (eager : Bool) (dst : Nat → List Byte) (hdst : ∀ i, dst i ≠ []) :
    ∃ r, Reset r0 (some (Chunked.start input sizes eager GoError.EOF)) search1 replace1
        = .ok r ∧
      ∀ fuel calls, sizes.length + input.length + r.buf.length + 2 ≤ fuel →
        (replaceAll search1 replace1 input).length + 1 ≤ calls →
        drain Chunked.read fuel dst calls 0 r
          = .ok (replaceAll search1 replace1 input, GoError.EOF) :=
  drain_after_Reset r0 input search1 replace1 hne sizes eager GoError.EOF dst hdst

/-- Witness of C1: the input `[1,2,3,2,2,3,4,5]` handed out one byte at a time,
search `[2,3]`, replace `[4,5,6]`: the drain gives `[1,4,5,6,2,4,5,6,4,5]`. -/
theorem drain_eq_replaceAll_witness :
    ([2, 3] : List Byte) ≠ [] ∧ (∀ i : Nat, (fun _ => ([0, 0, 0] : List Byte)) i ≠ []) ∧
    replaceAll [2, 3] [4, 5, 6] [1, 2, 3, 2, 2, 3, 4, 5] = [1, 4, 5, 6, 2, 4, 5, 6, 4, 5] ∧
    ∃ r, Reset (BytesReplacingReader.zero Chunked)
        (some (Chunked.start [1, 2, 3, 2, 2, 3, 4, 5] [1, 1, 1, 1, 1, 1, 1, 1] false
          GoError.EOF)) [2, 3] [4, 5, 6] = .ok r ∧
      ∀ fuel calls,
        [1, 1, 1, 1, 1, 1, 1, 1].length + [1, 2, 3, 2, 2, 3, 4, 5].length + r.buf.length + 2
          ≤ fuel →
        (replaceAll [2, 3] [4, 5, 6] [1, 2, 3, 2, 2, 3, 4, 5]).length + 1 ≤ calls →
        drain Chunked.read fuel (fun _ => [0, 0, 0]) calls 0 r
          = .ok (replaceAll [2, 3] [4, 5, 6] [1, 2, 3, 2, 2, 3, 4, 5], GoError.EOF) :=
  ⟨by decide, fun _ => List.cons_ne_nil _ _, by decide,
    drain_eq_replaceAll (BytesReplacingReader.zero Chunked) [1, 2, 3, 2, 2, 3, 4, 5] [2, 3]
      [4, 5, 6] (by decide) [1, 1, 1, 1, 1, 1, 1, 1] false (fun _ => [0, 0, 0])
      (fun _ => List.cons_ne_nil _ _)⟩

/-- C2. For a fixed input, non-empty search token and replacement token, two
readers over chunked sources that split the input in any two ways (one byte
per read, one large read, or any other sizes; end of stream with the last
bytes or alone), drained into any two sequences of non-empty destination
slices, deliver the same bytes and the same final error, and these bytes are
the replacement of the input: a token split across two reads is replaced
exactly once. -/
theorem drain_chunking_independent (r0 r0' : BytesReplacingReader Chunked)
    (input search1 replace1 : List Byte) (hne : search1 ≠ []) (sizes sizes' : List Nat)
    (eager eager' : Bool) (fin : GoError) (dst dst' : Nat → List Byte)
    (hdst : ∀ i, dst i ≠ []) (hdst' : ∀ i, dst' i ≠ []) :
    ∃ r r', Reset r0 (some (Chunked.start input sizes eager fin)) search1 replace1 = .ok r ∧
      Reset r0' (some (Chunked.start input sizes' eager' fin)) search1 replace1 = .ok r' ∧
      ∀ fuel calls fuel' calls',
        sizes.length + input.length + r.buf.length + 2 ≤ fuel →
        (replaceAll search1 replace1 input).length + 1 ≤ calls →
        sizes'.length + input.length + r'.buf.length + 2 ≤ fuel' →
        (replaceAll search1 replace1 input).length + 1 ≤ calls' →
        drain Chunked.read fuel dst calls 0 r = drain Chunked.read fuel' dst' calls' 0 r' ∧
        drain Chunked.read fuel dst calls 0 r
          = .ok (replaceAll search1 replace1 input, fin) := by
  obtain ⟨r, hr, h⟩ := drain_after_Reset r0 input search1 replace1 hne sizes eager fin dst hdst
  obtain ⟨r', hr', h'⟩ :=
    drain_after_Reset r0' input search1 replace1 hne sizes' eager' fin dst' hdst'
  refine ⟨r, r', hr, hr', fun fuel calls fuel' calls' hf hc hf' hc' => ?_⟩
  rw [h fuel calls hf hc, h' fuel' calls' hf' hc']
  exact ⟨rfl, rfl⟩

/-- Witness of C2: the input `[1,2,3,4]` with the token `[2,3]` split across the
two reads `[1,2]` and `[3,4]`, against the same input in one read. -/
theorem drain_chunking_independent_witness :
    ([2, 3] : List Byte) ≠ [] ∧
    replaceAll [2, 3] [9] [1, 2, 3, 4] = [1, 9, 4] ∧
    ∃ r r', Reset (BytesReplacingReader.zero Chunked)
        (some (Chunked.start [1, 2, 3, 4] [2, 2] false GoError.EOF)) [2, 3] [9] = .ok r ∧
      Reset (BytesReplacingReader.zero Chunked)
        (some (Chunked.start [1, 2, 3, 4] [] true GoError.EOF)) [2, 3] [9] = .ok r' ∧
      ∀ fuel calls fuel' calls',
        [2, 2].length + [1, 2, 3, 4].length + r.buf.length + 2 ≤ fuel →
        (replaceAll [2, 3] [9] [1, 2, 3, 4]).length + 1 ≤ calls →
        ([] : List Nat).length + [1, 2, 3, 4].length + r'.buf.length + 2 ≤ fuel' →
        (replaceAll [2, 3] [9] [1, 2, 3, 4]).length + 1 ≤ calls' →
        drain Chunked.read fuel (fun _ => [0]) calls 0 r
          = drain Chunked.read fuel' (fun _ => [0, 0, 0, 0, 0]) calls' 0 r' ∧
        drain Chunked.read fuel (fun _ => [0]) calls 0 r
          = .ok (replaceAll [2, 3] [9] [1, 2, 3, 4], GoError.EOF) :=
  ⟨by decide, by decide,
    drain_chunking_independent (BytesReplacingReader.zero Chunked)
      (BytesReplacingReader.zero Chunked) [1, 2, 3, 4] [2, 3] [9] (by decide) [2, 2] []
      false true GoError.EOF (fun _ => [0]) (fun _ => [0, 0, 0, 0, 0])
      (fun _ => List.cons_ne_nil _ _) (fun _ => List.cons_ne_nil _ _)⟩

/-- `Reset` with the same arguments on the reader it has just left changes
nothing. -/
theorem Reset_idem {σ : Type} (r r' : BytesReplacingReader σ) (s : σ)
    (search1 replace1 : List Byte) (h : Reset r (some s) search1 replace1 = .ok r') :
    Reset r' (some s) search1 replace1 = .ok r' := by
  have hne : search1 ≠ [] := by
    intro hc
    subst hc
    simp [Reset, len] at h
  rw [Reset_eq r s search1 replace1 hne] at h
  injection h with h
  have hb := Reset_buf_len r search1 replace1
  rw [Reset_eq r' s search1 replace1 hne]
  have hbuf : r'.buf = if len r.buf < max 4096 (max (len search1) (len replace1))
      then makeBytes (max 4096 (max (len search1) (len replace1))) else r.buf := by
    rw [← h]
  have hn : ¬ len r'.buf < max 4096 (max (len search1) (len replace1)) := by
    rw [hbuf]; omega
  rw [if_neg hn]
  congr 1
  rw [hbuf]
  exact h

/-- C7. From any reader, whatever its cursors, its buffer and its latched
error, a successful `Reset` leaves `buf0 = 0`, `buf1 = 0`, no error, the new
tokens and `lenDelta = len(replace) - len(search)`; `Reset` again with the same
arguments leaves the same reader; and the drain after it delivers the
replacement of the new input and nothing else. -/
theorem Reset_clears_state (r : BytesReplacingReader Chunked)
    (input search1 replace1 : List Byte) (hne : search1 ≠ []) (sizes : List Nat)
    (eager : Bool) (fin : GoError) (dst : Nat → List Byte) (hdst : ∀ i, dst i ≠ []) :
    ∃ r', Reset r (some (Chunked.start input sizes eager fin)) search1 replace1 = .ok r' ∧
      r'.buf0 = 0 ∧ r'.buf1 = 0 ∧ r'.err = none ∧ r'.search = search1 ∧
      r'.replace = replace1 ∧ r'.searchLen = len search1 ∧ r'.replaceLen = len replace1 ∧
      r'.lenDelta = len replace1 - len search1 ∧
      Reset r' (some (Chunked.start input sizes eager fin)) search1 replace1 = .ok r' ∧
      ∀ fuel calls, sizes.length + input.length + r'.buf.length + 2 ≤ fuel →
        (replaceAll search1 replace1 input).length + 1 ≤ calls →
        drain Chunked.read fuel dst calls 0 r'
          = .ok (replaceAll search1 replace1 input, fin) := by
  obtain ⟨r', hr, h⟩ := drain_after_Reset r input search1 replace1 hne sizes eager fin dst hdst
  obtain ⟨hinv, hrs, hsr, hrp, herr, hb0, hb1⟩ := Reset_inv r r' _ search1 replace1 hne hr
  refine ⟨r', hr, hb0, hb1, herr, hsr, hrp, ?_, ?_, ?_, Reset_idem r r' _ _ _ hr, h⟩
  · rw [hinv.hsearch, hsr]
  · rw [hinv.hreplace, hrp]
  · rw [hinv.hdelta, hinv.hsearch, hinv.hreplace, hsr, hrp]

/-- Witness of C7: `Reset` of the reader that `demoResult` leaves, which holds
a latched `io.EOF` and the byte `1` in its buffer. -/
theorem Reset_clears_state_witness :
    ([5] : List Byte) ≠ [] ∧ demoResult.st.err = some GoError.EOF ∧
    ∃ r', Reset demoResult.st (some (Chunked.start [4, 5, 6] [] false GoError.EOF)) [5] [7, 7]
        = .ok r' ∧
      r'.buf0 = 0 ∧ r'.buf1 = 0 ∧ r'.err = none ∧ r'.search = [5] ∧
      r'.replace = [7, 7] ∧ r'.searchLen = len [5] ∧ r'.replaceLen = len [7, 7] ∧
      r'.lenDelta = len [7, 7] - len [5] ∧
      Reset r' (some (Chunked.start [4, 5, 6] [] false GoError.EOF)) [5] [7, 7] = .ok r' ∧
      ∀ fuel calls, ([] : List Nat).length + [4, 5, 6].length + r'.buf.length + 2 ≤ fuel →
        (replaceAll [5] [7, 7] [4, 5, 6]).length + 1 ≤ calls →
        drain Chunked.read fuel (fun _ => [0, 0]) calls 0 r'
          = .ok (replaceAll [5] [7, 7] [4, 5, 6], GoError.EOF) :=
  ⟨by decide, rfl,
    Reset_clears_state demoResult.st [4, 5, 6] [5] [7, 7] (by decide) [] false GoError.EOF
      (fun _ => [0, 0]) (fun _ => List.cons_ne_nil _ _)⟩

/-! ## The claims on single `Read` calls -/

/-- What `Read` guarantees on a reachable reader. -/
theorem reached_post {σ : Type} {rd : Upstream σ} {hist : σ → List Byte}
    {r : BytesReplacingReader σ} {d : List Byte} (ho : rd.Obeys) (hr : Reached rd hist r d)
    {fuel : Nat} {p : List Byte} {res : ReadResult σ} (h : Read rd fuel r p = .ok res) :
    ReadPost rd r p res := by
  rcases Read_spec rd ho fuel r p (reached_inv ho hr).1 with hout | ⟨res', hres, hp⟩
  · rw [hout] at h
    cases h
  · rw [hres] at h
    injection h with h
    subst h
    exact hp

/-- C3. When a `Read` call on a reachable reader returns a non-nil error, that
error is the one latched in the reader, which is the value the upstream source
returned at its last call; after the call the buffer is empty
(`buf0 = buf1 = 0`, nothing processed and nothing unprocessed is left); and the
bytes delivered by this and the earlier calls are the replacement of all the
bytes the source has returned. -/
theorem Read_error_after_all_bytes {σ : Type} (rd : Upstream σ) (ho : rd.Obeys)
    (hist : σ → List Byte) (hf : Feeds rd hist) (r : BytesReplacingReader σ) (d : List Byte)
    (hr : Reached rd hist r d) (fuel : Nat) (p : List Byte) (res : ReadResult σ)
    (h : Read rd fuel r p = .ok res) (he : res.err ≠ none) :
    res.err = res.st.err ∧
    (∃ s0 k, res.err = (rd s0 k).2.1 ∧ res.st.r = some (rd s0 k).2.2) ∧
    res.st.buf0 = 0 ∧ res.st.buf1 = 0 ∧ processed res.st = [] ∧ unprocessed res.st = [] ∧
    d ++ res.p.take res.n.toNat
      = replaceAll res.st.search res.st.replace (pulled hist res.st) := by
  have hp := reached_post ho hr h
  obtain ⟨hinv, hfrom, hsync⟩ := reached_inv ho (Reached.read r d fuel p res hr h)
  have hee := hp.err_eq he
  have hste : res.st.err ≠ none := by rw [← hee]; exact he
  obtain ⟨hb0, hb1⟩ := hp.err_empty he
  have hP : processed res.st = [] := by unfold processed; rw [hb0]; rfl
  have hU : unprocessed res.st = [] := by unfold unprocessed; rw [hb0, hb1]; rfl
  refine ⟨hee, ?_, hb0, hb1, hP, hU, ?_⟩
  · obtain ⟨s, hs⟩ : ∃ s, res.st.r = some s := by
      cases hrr : res.st.r with
      | none => exact absurd hrr hinv.hsrc
      | some s => exact ⟨s, rfl⟩
    rcases hfrom s hs with hn | ⟨s0, k, h1, h2⟩
    · exact absurd hn hste
    · exact ⟨s0, k, hee.trans h1, by rw [hs, h2]⟩
  · have := (hsync hf).2 hste
    rw [hP, List.append_nil] at this
    exact this

/-- Witness of C3: the `Read` from `demoReader`, which returns `io.EOF`. -/
theorem Read_error_after_all_bytes_witness :
    demoResult.err = demoResult.st.err ∧
    (∃ s0 k, demoResult.err = (Chunked.read s0 k).2.1 ∧
      demoResult.st.r = some (Chunked.read s0 k).2.2) ∧
    demoResult.st.buf0 = 0 ∧ demoResult.st.buf1 = 0 ∧ processed demoResult.st = [] ∧
    unprocessed demoResult.st = [] ∧
    [] ++ demoResult.p.take demoResult.n.toNat
      = replaceAll demoResult.st.search demoResult.st.replace
          (pulled (fun s => s.given) demoResult.st) :=
  Read_error_after_all_bytes Chunked.read chunked_read_obeys (fun s => s.given)
    chunked_read_feeds demoReader [] demoReader_reached 3 [0, 0, 0] demoResult
    demoReader_read (by decide)

/-- Counterexample to C4 as stated: the first `Read` from `demoReader`, a
reader fresh from `Reset`, returns the error `io.EOF` together with the byte
count 1. -/
theorem Read_error_with_bytes :
    Reached Chunked.read (fun s => s.given) demoReader [] ∧
    Read Chunked.read 3 demoReader [0, 0, 0] = .ok demoResult ∧
    demoResult.err = some GoError.EOF ∧ demoResult.n = 1 ∧ demoResult.n ≠ 0 :=
  ⟨demoReader_reached, demoReader_read, rfl, rfl, by decide⟩

/-- C4 as amended. A `Read` call on a reachable reader that returns a non-nil
error leaves the buffer empty (`buf0 = buf1 = 0`) and returns a count
`0 <= n <= len(p)`; the count is 0 when the call finds the buffer empty and the
error latched; and when the call finds processed bytes buffered, the error was
latched before and the call delivers all of them, `n = buf0 = buf1`. -/
theorem Read_error_count {σ : Type} (rd : Upstream σ) (ho : rd.Obeys)
    (hist : σ → List Byte) (r : BytesReplacingReader σ) (d : List Byte)
    (hr : Reached rd hist r d) (fuel : Nat) (p : List Byte) (res : ReadResult σ)
    (h : Read rd fuel r p = .ok res) (he : res.err ≠ none) :
    res.st.buf0 = 0 ∧ res.st.buf1 = 0 ∧ 0 ≤ res.n ∧ res.n ≤ len p ∧
    (r.buf0 = 0 → r.err ≠ none → res.n = 0 ∧ res.err = r.err) ∧
    (0 < r.buf0 → res.n = r.buf0 ∧ res.n = r.buf1 ∧ res.err = r.err) := by
  have hp := reached_post ho hr h
  obtain ⟨hb0, hb1⟩ := hp.err_empty he
  refine ⟨hb0, hb1, hp.n_nonneg, hp.n_le, ?_, ?_⟩
  · intro h0 hre
    rw [hp.latched h0 hre]
    exact ⟨rfl, rfl⟩
  · intro hpos
    obtain ⟨_, _, h1, h2⟩ := hp.direct hpos
    have hq := (hp.quiet (Or.inl hpos)).2
    refine ⟨by omega, by omega, ?_⟩
    rw [hp.err_eq he, hq]

/-- Witness of C4 as amended: the `Read` from `demoReader`. -/
theorem Read_error_count_witness :
    demoResult.st.buf0 = 0 ∧ demoResult.st.buf1 = 0 ∧ 0 ≤ demoResult.n ∧
    demoResult.n ≤ len [0, 0, 0] ∧
    (demoReader.buf0 = 0 → demoReader.err ≠ none →
      demoResult.n = 0 ∧ demoResult.err = demoReader.err) ∧
    (0 < demoReader.buf0 → demoResult.n = demoReader.buf0 ∧ demoResult.n = demoReader.buf1 ∧
      demoResult.err = demoReader.err) :=
  Read_error_count Chunked.read chunked_read_obeys (fun s => s.given) demoReader []
    demoReader_reached 3 [0, 0, 0] demoResult demoReader_read (by decide)

/-- The refill keeps the invariant, does nothing on a reader that holds
processed bytes, and ends on a reader that holds processed bytes or a latched
error. -/
theorem refill_inv {σ : Type} (rd : Upstream σ) (ho : rd.Obeys) (fuel : Nat)
    (r r' : BytesReplacingReader σ) (h : Inv r) (hre : refill rd fuel r = .ok r') :
    Inv r' ∧ (0 < r.buf0 → r' = r) ∧ (r'.buf0 > 0 ∨ r'.err ≠ none) := by
  induction fuel generalizing r with
  | zero =>
    rw [refill] at hre
    cases hre
  | succ fuel ih =>
    rw [refill] at hre
    by_cases hb : r.buf0 > 0
    · rw [if_pos hb] at hre
      injection hre with hre
      subst hre
      exact ⟨h, fun _ => rfl, Or.inl hb⟩
    · rw [if_neg hb] at hre
      by_cases he : r.err ≠ none
      · rw [if_pos he] at hre
        injection hre with hre
        subst hre
        exact ⟨h, fun _ => rfl, Or.inr he⟩
      · rw [if_neg he] at hre
        rcases pull_spec rd ho fuel r h hb (not_not.mp he) with ⟨hout, _⟩ | ⟨r1, hok, hpost⟩
        · rw [hout] at hre
          cases hre
        · rw [hok] at hre
          obtain ⟨h1, _, h3⟩ := ih r1 hpost.inv hre
          exact ⟨h1, fun hc => absurd hc hb, h3⟩

/-- Counterexample to C5 as stated: the `Read` from `demoReader` finds no
processed byte, refills the buffer from upstream and writes the byte `1` to
`p`, while `buf[0:1]` before the call is the byte `0`. -/
theorem Read_bytes_not_from_old_buffer :
    Reached Chunked.read (fun s => s.given) demoReader [] ∧
    Read Chunked.read 3 demoReader [0, 0, 0] = .ok demoResult ∧
    demoResult.n = 1 ∧ demoResult.p.take 1 = [1] ∧ demoReader.buf.take 1 = [0] ∧
    demoResult.p.take demoResult.n.toNat ≠ demoReader.buf.take demoResult.n.toNat := by
  refine ⟨demoReader_reached, demoReader_read, rfl, rfl, ?_, ?_⟩ <;> decide!

/-- C5 as amended. For every reachable reader and every destination `p`, `Read`
returns a count `n` with `0 <= n <= len(p)`, leaves the bytes of `p` beyond `n`
as they were, and the `n` bytes written to `p` are the first `n` processed
bytes of the buffer at the time of the copy, with `n = min(len(p), buf0)`: the
buffer is the one before the call when the call finds processed bytes, and the
one after the refill from upstream otherwise. -/
theorem Read_count_and_bytes {σ : Type} (rd : Upstream σ) (ho : rd.Obeys)
    (hist : σ → List Byte) (r : BytesReplacingReader σ) (d : List Byte)
    (hr : Reached rd hist r d) (fuel : Nat) (p : List Byte) (res : ReadResult σ)
    (h : Read rd fuel r p = .ok res) :
    0 ≤ res.n ∧ res.n ≤ len p ∧ res.p.length = p.length ∧
    res.p.drop res.n.toNat = p.drop res.n.toNat ∧
    ∃ r', refill rd fuel r = .ok r' ∧ (0 < r.buf0 → r' = r) ∧
      res.n = min (len p) r'.buf0 ∧ res.p.take res.n.toNat = r'.buf.take res.n.toNat := by
  have hp := reached_post ho hr h
  refine ⟨hp.n_nonneg, hp.n_le, hp.p_length, hp.p_rest, ?_⟩
  rw [Read_eq_refill] at h
  cases hre : refill rd fuel r with
  | error e =>
    rw [hre] at h
    cases h
  | ok r' =>
    rw [hre] at h
    simp only [] at h
    obtain ⟨hinv', hsame, _⟩ := refill_inv rd ho fuel r r' (reached_inv ho hr).1 hre
    refine ⟨r', rfl, hsame, ?_⟩
    by_cases hb : r'.buf0 > 0
    · rw [if_pos hb] at h
      obtain ⟨res', hres, hp'⟩ := deliver_spec rd r' p hinv' hb
      rw [hres] at h
      injection h with h
      subst h
      obtain ⟨h1, h2, _, _⟩ := hp'.direct hb
      exact ⟨h1, h2⟩
    · rw [if_neg hb] at h
      injection h with h
      subst h
      have h0 := hinv'.h0
      have hl := len_nonneg p
      refine ⟨?_, rfl⟩
      show (0 : Int) = min (len p) r'.buf0
      omega

/-- Witness of C5 as amended: the `Read` from `demoReader`. -/
theorem Read_count_and_bytes_witness :
    0 ≤ demoResult.n ∧ demoResult.n ≤ len [0, 0, 0] ∧
    demoResult.p.length = [(0 : Byte), 0, 0].length ∧
    demoResult.p.drop demoResult.n.toNat = [(0 : Byte), 0, 0].drop demoResult.n.toNat ∧
    ∃ r', refill Chunked.read 3 demoReader = .ok r' ∧ (0 < demoReader.buf0 → r' = demoReader) ∧
      demoResult.n = min (len [0, 0, 0]) r'.buf0 ∧
      demoResult.p.take demoResult.n.toNat = r'.buf.take demoResult.n.toNat :=
  Read_count_and_bytes Chunked.read chunked_read_obeys (fun s => s.given) demoReader []
    demoReader_reached 3 [0, 0, 0] demoResult demoReader_read

/-! ## The cursors stay in range -/

/-- Every reader at the head of an iteration of the outer loop satisfies the
invariant. -/
theorem visits_inv {σ : Type} {rd : Upstream σ} (ho : rd.Obeys)
    {r : BytesReplacingReader σ} (h : Visits rd r) : Inv r := by
  induction h with
  | reset r0 s search1 replace1 r hr =>
    have hne : search1 ≠ [] := by
      intro hc
      subst hc
      simp [Reset, len] at hr
    exact (Reset_inv r0 r s search1 replace1 hne hr).1
  | deliver r p res _ hb hd ih =>
    obtain ⟨res', hres, hp⟩ := deliver_spec rd r p ih hb
    rw [hres] at hd
    injection hd with hd
    subst hd
    exact hp.inv
  | pull r fuel r' _ hb he hpl ih =>
    rcases pull_spec rd ho fuel r ih hb he with ⟨hout, _⟩ | ⟨r1, hok, hpost⟩
    · rw [hout] at hpl
      cases hpl
    · rw [hok] at hpl
      injection hpl with hpl
      subst hpl
      exact hpost.inv

/-- The reader that a `Read` call leaves is at the head of an iteration of the
outer loop, that of the next call. -/
theorem visits_of_read {σ : Type} (rd : Upstream σ) (fuel : Nat)
    (r : BytesReplacingReader σ) (p : List Byte) (res : ReadResult σ) (h : Visits rd r)
    (hread : Read rd fuel r p = .ok res) : Visits rd res.st := by
  induction fuel generalizing r with
  | zero =>
    rw [Read] at hread
    cases hread
  | succ fuel ih =>
    rw [Read] at hread
    by_cases hb : r.buf0 > 0
    · rw [if_pos hb] at hread
      exact Visits.deliver r p res h hb hread
    · rw [if_neg hb] at hread
      by_cases he : r.err ≠ none
      · rw [if_pos he] at hread
        injection hread with hread
        subst hread
        exact h
      · rw [if_neg he] at hread
        cases hpl : pull rd fuel r with
        | error e =>
          rw [hpl] at hread
          cases hread
        | ok r' =>
          rw [hpl] at hread
          exact ih r' (Visits.pull r fuel r' h hb (not_not.mp he) hpl) hread

theorem visits_of_reached {σ : Type} {rd : Upstream σ} {hist : σ → List Byte}
    {r : BytesReplacingReader σ} {d : List Byte} (h : Reached rd hist r d) : Visits rd r := by
  induction h with
  | reset r0 s search1 replace1 r _ hr => exact Visits.reset r0 s search1 replace1 r hr
  | read r d fuel p res _ hread ih => exact visits_of_read rd fuel r p res ih hread

/-- Every reader at the head of an iteration of the scan loop satisfies the
invariant of the scan loop. -/
theorem scanVisits_inv {σ : Type} {rd : Upstream σ} (ho : rd.Obeys)
    {x : BytesReplacingReader σ} (h : ScanVisits rd x) : ScanInv x := by
  induction h with
  | start r r2 n hv hb _ hrec _ =>
    obtain ⟨s, r2', _, hrec', _, _, _, _, _, _, _, hinv2, _, _⟩ :=
      receive_spec rd ho r (visits_inv ho hv) hb
    rw [hrec'] at hrec
    injection hrec with hrec
    injection hrec with h1 h2
    subst h1
    subst h2
    exact hinv2
  | step x x' _ hstep ih =>
    by_cases hi : Index (unprocessed x) x.search < 0
    · obtain ⟨y, hy, _⟩ := scanStep_not_found x ih hi
      rw [hy] at hstep
      injection hstep with hstep
      injection hstep with _ hbool
      cases hbool
    · obtain ⟨y, hy, hinv, _⟩ := scanStep_found x ih (by omega)
      rw [hy] at hstep
      injection hstep with hstep
      injection hstep with h1 _
      subst h1
      exact hinv

/-- C10. Over an upstream source that obeys `0 <= n <= len(p)`: the readers
between two `Read` calls are among the readers at the head of an iteration of
the outer loop of `Read`; each of these satisfies `0 <= buf0 <= buf1 <= len(buf)`
and `len(search) <= max <= len(buf)`, and `Read` from it never ends in a
panic, whatever the fuel; and each reader at the head of an iteration of the
scan loop, hence after each replacement, satisfies
`0 <= buf0 <= buf1 <= len(buf)`, its iteration evaluates every slice
expression and copy in range, and when the iteration replaces an instance,
`buf1 + lenDelta <= len(buf)`, whether the replacement is longer than the
search token or not. -/
theorem cursors_in_range {σ : Type} (rd : Upstream σ) (ho : rd.Obeys) :
    (∀ (hist : σ → List Byte) (r : BytesReplacingReader σ) (d : List Byte),
      Reached rd hist r d → Visits rd r) ∧
    (∀ r, Visits rd r →
      0 ≤ r.buf0 ∧ r.buf0 ≤ r.buf1 ∧ r.buf1 ≤ len r.buf ∧
      r.searchLen ≤ r.max ∧ r.max ≤ len r.buf ∧
      ∀ fuel p, Read rd fuel r p ≠ .error .sliceOutOfRange ∧
        Read rd fuel r p ≠ .error .nilDereference) ∧
    (∀ x, ScanVisits rd x →
      0 ≤ x.buf0 ∧ x.buf0 ≤ x.buf1 ∧ x.buf1 ≤ len x.buf ∧
      (∃ y b, scanStep x = .ok (y, b)) ∧
      ∀ y, scanStep x = .ok (y, true) →
        y.buf1 = x.buf1 + x.lenDelta ∧ x.buf1 + x.lenDelta ≤ len x.buf ∧
        0 ≤ y.buf0 ∧ y.buf0 ≤ y.buf1 ∧ y.buf1 ≤ len y.buf) := by
  refine ⟨fun hist r d h => visits_of_reached h, fun r hv => ?_, fun x hx => ?_⟩
  · have hinv := visits_inv ho hv
    refine ⟨hinv.h0, hinv.h01, hinv.h1, hinv.hmaxlo, hinv.hmaxhi, fun fuel p => ?_⟩
    rcases Read_spec rd ho fuel r p hinv with hout | ⟨res, hres, _⟩
    · rw [hout]
      exact ⟨by simp, by simp⟩
    · rw [hres]
      exact ⟨by simp, by simp⟩
  · have hinv := scanVisits_inv ho hx
    refine ⟨hinv.h0, hinv.h01, hinv.h1, ?_, ?_⟩
    · by_cases hi : Index (unprocessed x) x.search < 0
      · obtain ⟨y, hy, _⟩ := scanStep_not_found x hinv hi
        exact ⟨y, false, hy⟩
      · obtain ⟨y, hy, _⟩ := scanStep_found x hinv (by omega)
        exact ⟨y, true, hy⟩
    · intro y hy
      have hinv' := scanVisits_inv ho (ScanVisits.step x y hx hy)
      by_cases hi : Index (unprocessed x) x.search < 0
      · obtain ⟨y', hy', _⟩ := scanStep_not_found x hinv hi
        rw [hy'] at hy
        injection hy with hy
        injection hy with _ hbool
        cases hbool
      · obtain ⟨y', hy', _, hsame, _, _, _, hb1, _⟩ := scanStep_found x hinv (by omega)
        rw [hy'] at hy
        injection hy with hy
        injection hy with h1 _
        subst h1
        have hl := hsame.len_eq
        have := hinv'.h1
        exact ⟨hb1, by omega, hinv'.h0, hinv'.h01, hinv'.h1⟩

theorem demoReader_receive :
    receive Chunked.read demoReader = .ok ({ demoResult.st with err := none }, 1) := by
  apply ok_of_toOption
  decide!

/-- Witness of C10: over chunked sources; `demoReader` is at the head of an
iteration of the outer loop, and after its first call of the source, which
returns one byte, the reader is at the head of an iteration of the scan loop. -/
theorem cursors_in_range_witness :
    Visits Chunked.read demoReader ∧
    ScanVisits Chunked.read
      { ({ demoResult.st with err := none } : BytesReplacingReader Chunked) with
        buf1 := ({ demoResult.st with err := none } : BytesReplacingReader Chunked).buf1 + 1 } ∧
    ((∀ (hist : Chunked → List Byte) (r : BytesReplacingReader Chunked) (d : List Byte),
      Reached Chunked.read hist r d → Visits Chunked.read r) ∧
    (∀ r, Visits Chunked.read r →
      0 ≤ r.buf0 ∧ r.buf0 ≤ r.buf1 ∧ r.buf1 ≤ len r.buf ∧
      r.searchLen ≤ r.max ∧ r.max ≤ len r.buf ∧
      ∀ fuel p, Read Chunked.read fuel r p ≠ .error .sliceOutOfRange ∧
        Read Chunked.read fuel r p ≠ .error .nilDereference) ∧
    (∀ x, ScanVisits Chunked.read x →
      0 ≤ x.buf0 ∧ x.buf0 ≤ x.buf1 ∧ x.buf1 ≤ len x.buf ∧
      (∃ y b, scanStep x = .ok (y, b)) ∧
      ∀ y, scanStep x = .ok (y, true) →
        y.buf1 = x.buf1 + x.lenDelta ∧ x.buf1 + x.lenDelta ≤ len x.buf ∧
        0 ≤ y.buf0 ∧ y.buf0 ≤ y.buf1 ∧ y.buf1 ≤ len y.buf)) :=
  ⟨Visits.reset _ _ _ _ _ demoReader_reset,
    ScanVisits.start demoReader _ 1 (Visits.reset _ _ _ _ _ demoReader_reset) (by decide) rfl
      demoReader_receive (by decide),
    cursors_in_range Chunked.read chunked_read_obeys⟩


/-! ## Deletion: the empty replacement -/

/-- The length of the replacement: every replaced instance trades the length
of `search` for the length of `replace`. -/
theorem replaceFrom_length (search replace : List Byte) (hne : search ≠ []) (skip : Nat)
    (l : List Byte) :
    (replaceFrom search replace skip l).length + countFrom search skip l * search.length
        + min skip l.length
      = l.length + countFrom search skip l * replace.length := by
  induction l generalizing skip with
  | nil => simp [replaceFrom, countFrom]
  | cons x t ih =>
    cases skip with
    | succ k =>
      have := ih k
      simp only [replaceFrom, countFrom, List.length_cons]
      omega
    | zero =>
      by_cases hp : search.isPrefixOf (x :: t) = true
      · have hle : search.length ≤ (x :: t).length := ((isPrefixOf_iff _ _).mp hp).length_le
        have := ih (search.length - 1)
        simp only [replaceFrom, countFrom, hp, if_true, List.length_cons, List.length_append]
        simp only [List.length_cons] at hle
        have hpos : 0 < search.length := List.length_pos.mpr hne
        rw [Nat.add_mul, Nat.add_mul]
        omega
      · have := ih 0
        simp only [replaceFrom, countFrom, hp, List.length_cons]
        simp only [Bool.false_eq_true, if_false, List.length_cons]
        omega

/-- With an empty replacement the pass only removes bytes. -/
theorem replaceFrom_nil_sublist (search : List Byte) (skip : Nat) (l : List Byte) :
    List.Sublist (replaceFrom search [] skip l) l := by
  induction l generalizing skip with
  | nil => simp [replaceFrom]
  | cons x t ih =>
    cases skip with
    | succ k =>
      simp only [replaceFrom]
      exact List.Sublist.cons x (ih k)
    | zero =>
      by_cases hp : search.isPrefixOf (x :: t) = true
      · simp only [replaceFrom, hp, if_true, List.nil_append]
        exact List.Sublist.cons x (ih _)
      · simp only [replaceFrom, hp]
        simp only [Bool.false_eq_true, if_false]
        exact List.Sublist.cons₂ x (ih 0)

/-- C11. With an empty replacement token, for every input, non-empty search
token, chunked source and sequence of non-empty destination slices: the drain
after `Reset` delivers the input with its left-to-right non-overlapping
instances of the search token removed (`replaceAll search [] input`), which is
a subsequence of the input, every other byte kept in order, of length
`len(input) - k * len(search)` for the number `k` of those instances. -/
theorem drain_deletes_instances (r0 : BytesReplacingReader Chunked)
    (input search1 : List Byte) (hne : search1 ≠ []) (sizes : List Nat)
    (eager : Bool) (dst : Nat → List Byte) (hdst : ∀ i, dst i ≠ []) :
    ∃ r out, Reset r0 (some (Chunked.start input sizes eager GoError.EOF)) search1 [] = .ok r ∧
      (∀ fuel calls, sizes.length + input.length + r.buf.length + 2 ≤ fuel →
        input.length + 1 ≤ calls →
        drain Chunked.read fuel dst calls 0 r = .ok (out, GoError.EOF)) ∧
      out = replaceAll search1 [] input ∧
      List.Sublist out input ∧
      out.length + countOcc search1 input * search1.length = input.length := by
  obtain ⟨r, hr, h⟩ :=
    drain_after_Reset r0 input search1 [] hne sizes eager GoError.EOF dst hdst
  have hlen := replaceFrom_length search1 [] hne 0 input
  simp only [List.length_nil, Nat.mul_zero, Nat.zero_min, Nat.add_zero] at hlen
  refine ⟨r, replaceAll search1 [] input, hr, ?_, rfl, replaceFrom_nil_sublist search1 0 input,
    hlen⟩
  intro fuel calls hf hc
  apply h fuel calls hf
  have : (replaceAll search1 [] input).length ≤ input.length :=
    (replaceFrom_nil_sublist search1 0 input).length_le
  omega

/-- Witness of C11: input `[1,2,3,2,2,3,4,2,3,2,8]`, search `[2,3,2]`: the two
instances are removed and `[1,2,3,4,8]` is left. -/
theorem drain_deletes_instances_witness :
    ([2, 3, 2] : List Byte) ≠ [] ∧
    replaceAll [2, 3, 2] [] [1, 2, 3, 2, 2, 3, 4, 2, 3, 2, 8] = [1, 2, 3, 4, 8] ∧
    countOcc [2, 3, 2] [1, 2, 3, 2, 2, 3, 4, 2, 3, 2, 8] = 2 ∧
    ∃ r out, Reset (BytesReplacingReader.zero Chunked)
        (some (Chunked.start [1, 2, 3, 2, 2, 3, 4, 2, 3, 2, 8] [3, 0, 4] false GoError.EOF))
        [2, 3, 2] [] = .ok r ∧
      (∀ fuel calls,
        [3, 0, 4].length + [1, 2, 3, 2, 2, 3, 4, 2, 3, 2, 8].length + r.buf.length + 2 ≤ fuel →
        [1, 2, 3, 2, 2, 3, 4, 2, 3, 2, 8].length + 1 ≤ calls →
        drain Chunked.read fuel (fun _ => [0, 0]) calls 0 r = .ok (out, GoError.EOF)) ∧
      out = replaceAll [2, 3, 2] [] [1, 2, 3, 2, 2, 3, 4, 2, 3, 2, 8] ∧
      List.Sublist out [1, 2, 3, 2, 2, 3, 4, 2, 3, 2, 8] ∧
      out.length + countOcc [2, 3, 2] [1, 2, 3, 2, 2, 3, 4, 2, 3, 2, 8] * [2, 3, 2].length
        = [1, 2, 3, 2, 2, 3, 4, 2, 3, 2, 8].length :=
  ⟨by decide, by decide, by decide,
    drain_deletes_instances (BytesReplacingReader.zero Chunked)
      [1, 2, 3, 2, 2, 3, 4, 2, 3, 2, 8] [2, 3, 2] (by decide) [3, 0, 4] false
      (fun _ => [0, 0]) (fun _ => List.cons_ne_nil _ _)⟩

/-- C18. For every reachable reader and every non-empty destination `p`, a
`Read` call that returns does not return `(0, nil)`: it returns `n > 0` bytes
or a non-nil error. -/
theorem Read_makes_progress {σ : Type} (rd : Upstream σ) (ho : rd.Obeys)
    (hist : σ → List Byte) (r : BytesReplacingReader σ) (d : List Byte)
    (hr : Reached rd hist r d) (fuel : Nat) (p : List Byte) (hp : p ≠ [])
    (res : ReadResult σ) (h : Read rd fuel r p = .ok res) :
    ¬ (res.n = 0 ∧ res.err = none) ∧ (0 < res.n ∨ res.err ≠ none) := by
  have hpost := reached_post ho hr h
  by_cases he : res.err = none
  · have := hpost.progress hp he
    exact ⟨fun hc => by omega, Or.inl this⟩
  · exact ⟨fun hc => he hc.2, Or.inr he⟩

/-- Witness of C18: the `Read` from `demoReader` into three bytes. -/
theorem Read_makes_progress_witness :
    ([0, 0, 0] : List Byte) ≠ [] ∧
    ¬ (demoResult.n = 0 ∧ demoResult.err = none) ∧
    (0 < demoResult.n ∨ demoResult.err ≠ none) :=
  ⟨by decide,
    Read_makes_progress Chunked.read chunked_read_obeys (fun s => s.given) demoReader []
      demoReader_reached 3 [0, 0, 0] (by decide) demoResult demoReader_read⟩

/-- C19. Whenever `Read` pulls from the upstream source (line 114), that is at
the head of an iteration of its outer loop that takes neither the branch
`buf0 > 0` nor the branch of the latched error: `buf0 = 0`, no error is
latched, `buf1 <= len(search) - 1 < len(search) <= max <= len(buf)`, so the
slice `buf[buf1:max]` handed to upstream is in range and not empty, and the
call `receive` succeeds; this holds for every pair of tokens, also when the
replacement is longer than the search token. -/
theorem pull_window_nonempty {σ : Type} (rd : Upstream σ) (ho : rd.Obeys)
    (r : BytesReplacingReader σ) (hv : Visits rd r) (hb : ¬ r.buf0 > 0)
    (he : ¬ r.err ≠ none) :
    r.buf0 = 0 ∧ r.err = none ∧ r.searchLen = len r.search ∧
    r.buf1 ≤ len r.search - 1 ∧ len r.search - 1 < len r.search ∧
    len r.search ≤ r.max ∧ r.max ≤ len r.buf ∧
    (∃ dst, slice r.buf r.buf1 r.max = .ok dst ∧ dst ≠ [] ∧ len dst = r.max - r.buf1) ∧
    ∃ r2 n, receive rd r = .ok (r2, n) := by
  have hinv := visits_inv ho hv
  have h0 := hinv.h0
  have hfrag := hinv.hfrag
  have hlo := hinv.hmaxlo
  have hhi := hinv.hmaxhi
  have hs := hinv.hsearch
  have h01 := hinv.h01
  have hb0 : r.buf0 = 0 := by omega
  obtain ⟨s, r2, _, hrec, _⟩ := receive_spec rd ho r hinv hb
  have hsl := slice_ok_int r.buf r.buf1 r.max (by omega) (by omega) hhi
  have eb : len r.buf = (r.buf.length : Int) := rfl
  have hlen : (((r.buf.drop r.buf1.toNat).take (r.max - r.buf1).toNat).length : Int)
      = r.max - r.buf1 := by
    rw [List.length_take, List.length_drop]
    omega
  refine ⟨hb0, not_not.mp he, hs, by omega, by omega, by omega, hhi, ⟨_, hsl, ?_, hlen⟩,
    ⟨r2, _, hrec⟩⟩
  intro hc
  rw [hc] at hlen
  simp at hlen
  omega

/-- Witness of C19: `demoReader`, fresh from `Reset`, pulls at its first `Read`. -/
theorem pull_window_nonempty_witness :
    demoReader.buf0 = 0 ∧ demoReader.err = none ∧ demoReader.searchLen = len demoReader.search ∧
    demoReader.buf1 ≤ len demoReader.search - 1 ∧
    len demoReader.search - 1 < len demoReader.search ∧
    len demoReader.search ≤ demoReader.max ∧ demoReader.max ≤ len demoReader.buf ∧
    (∃ dst, slice demoReader.buf demoReader.buf1 demoReader.max = .ok dst ∧ dst ≠ [] ∧
      len dst = demoReader.max - demoReader.buf1) ∧
    ∃ r2 n, receive Chunked.read demoReader = .ok (r2, n) :=
  pull_window_nonempty Chunked.read chunked_read_obeys demoReader
    (Visits.reset _ _ _ _ _ demoReader_reset) (by decide) (by decide)

theorem logging_obeys {σ : Type} (rd : Upstream σ) (ho : rd.Obeys) :
    (Upstream.logging rd).Obeys := fun s k => ho s.1 k

/-- The loop heads of a run that starts with the reader `Reset` leaves are
loop heads of a program. -/
theorem run_visits {σ : Type} (rd : Upstream σ) (r0 : BytesReplacingReader σ) (s : σ)
    (search1 replace1 : List Byte) (r1 r : BytesReplacingReader σ)
    (hreset : Reset r0 (some s) search1 replace1 = .ok r1) (h : Run rd r1 r) : Visits rd r := by
  induction h with
  | start => exact Visits.reset r0 s search1 replace1 r1 hreset
  | deliver r p res _ hb hd ih => exact Visits.deliver r p res ih hb hd
  | pull r fuel r' _ hb he hp ih => exact Visits.pull r fuel r' ih hb he hp

/-- The reader that a `Read` call leaves is at a loop head of the run. -/
theorem run_of_read {σ : Type} (rd : Upstream σ) (r0 : BytesReplacingReader σ) (fuel : Nat)
    (r : BytesReplacingReader σ) (p : List Byte) (res : ReadResult σ) (h : Run rd r0 r)
    (hread : Read rd fuel r p = .ok res) : Run rd r0 res.st := by
  induction fuel generalizing r with
  | zero =>
    rw [Read] at hread
    cases hread
  | succ fuel ih =>
    rw [Read] at hread
    by_cases hb : r.buf0 > 0
    · rw [if_pos hb] at hread
      exact Run.deliver r p res h hb hread
    · rw [if_neg hb] at hread
      by_cases he : r.err ≠ none
      · rw [if_pos he] at hread
        injection hread with hread
        subst hread
        exact h
      · rw [if_neg he] at hread
        have he2 : r.err = none := by
          by_contra hc
          exact he hc
        cases hp : pull rd fuel r with
        | error e =>
          rw [hp] at hread
          cases hread
        | ok r' =>
          rw [hp] at hread
          exact ih r' (Run.pull r fuel r' h hb he2 hp) hread

/-- One `pull` under watch is one call of the source: the log grows by the
error that the call returned, which is the error the reader latches. -/
theorem pull_logs {σ : Type} (rd : Upstream σ) (ho : rd.Obeys) (fuel : Nat)
    (r r' : BytesReplacingReader (σ × List (Option GoError))) (h : Inv r) (hb : ¬ r.buf0 > 0)
    (he : r.err = none) (hp : pull (Upstream.logging rd) fuel r = .ok r') :
    ∃ s log s', r.r = some (s, log) ∧ r'.r = some (s', log ++ [r'.err]) := by
  rcases pull_spec (Upstream.logging rd) (logging_obeys rd ho) fuel r h hb he with
    ⟨hout, _⟩ | ⟨r2, h2, hpost⟩
  · rw [hout] at hp
    cases hp
  · rw [h2] at hp
    injection hp with hp
    subst hp
    obtain ⟨s, hs, herr, hr⟩ := hpost.source
    exact ⟨s.1, s.2, _, hs, by rw [hr, herr]; rfl⟩

/-- The log of a run that starts with an empty log: calls that returned no
error, followed by the call that returned the latched error, if one is
latched. -/
theorem run_log {σ : Type} (rd : Upstream σ) (ho : rd.Obeys)
    (r0 : BytesReplacingReader (σ × List (Option GoError))) (s : σ)
    (search1 replace1 : List Byte) (r1 r : BytesReplacingReader (σ × List (Option GoError)))
    (hreset : Reset r0 (some (s, [])) search1 replace1 = .ok r1)
    (h : Run (Upstream.logging rd) r1 r) :
    ∃ s' n, r.r = some (s', List.replicate n none ++ r.err.toList.map some) := by
  have hoc := logging_obeys rd ho
  have hne : search1 ≠ [] := by
    intro hc
    subst hc
    simp [Reset, len] at hreset
  induction h with
  | start =>
    obtain ⟨_, hrs, _, _, herr, _, _⟩ := Reset_inv r0 r1 (s, []) search1 replace1 hne hreset
    exact ⟨s, 0, by rw [hrs, herr]; rfl⟩
  | deliver r p res hrun hb hd ih =>
    have hinv := visits_inv hoc (run_visits _ r0 (s, []) search1 replace1 r1 r hreset hrun)
    obtain ⟨res', hres, hpost⟩ := deliver_spec (Upstream.logging rd) r p hinv hb
    rw [hres] at hd
    injection hd with hd
    subst hd
    obtain ⟨q1, q2⟩ := hpost.quiet (Or.inl hb)
    rw [q1, q2]
    exact ih
  | pull r fuel r' hrun hb he hp ih =>
    have hinv := visits_inv hoc (run_visits _ r0 (s, []) search1 replace1 r1 r hreset hrun)
    obtain ⟨s1, log, s2, hs, hs2⟩ := pull_logs rd ho fuel r r' hinv hb he hp
    obtain ⟨s3, n, hn⟩ := ih
    rw [hs, he] at hn
    have hlog : log = List.replicate n none := by
      have := (Prod.mk.inj (Option.some.inj hn)).2
      simpa using this
    rw [hs2, hlog]
    cases hr : r'.err with
    | none =>
      refine ⟨s2, n + 1, ?_⟩
      rw [List.replicate_succ']
      simp
    | some x => exact ⟨s2, n, rfl⟩

/-- C16. Over an upstream source under watch, whose log holds the error that
each call of its `Read` returned: in every run that starts with the reader
that `Reset` leaves on a source with an empty log, at every head of the outer
loop of `Read`, so between the `Read` calls and between the iterations inside
a call, the log is a sequence of calls that returned no error, followed by the
one call that returned the latched error when an error is latched; so no call
of the source follows a call that returned a non-nil error.  The loop pulls
only when no error is latched, and a `pull` is one call of the source.  A
`Read` call leaves a reader of the run and only adds to the log; on a reader
with a latched error it
returns and leaves the source, its log and the error as they are; and once a
`Read` call has returned a non-nil error `e`, a later `Read` call returns
`(0, e)`, writes nothing to its destination and leaves the reader as it is, so
that the same holds for every call after it. -/
theorem no_upstream_call_after_error {σ : Type} (rd : Upstream σ) (ho : rd.Obeys)
    (r0 : BytesReplacingReader (σ × List (Option GoError))) (s : σ)
    (search1 replace1 : List Byte) (r1 r : BytesReplacingReader (σ × List (Option GoError)))
    (hreset : Reset r0 (some (s, [])) search1 replace1 = .ok r1)
    (hrun : Run (Upstream.logging rd) r1 r) :
    (∃ s' n, r.r = some (s', List.replicate n none ++ r.err.toList.map some)) ∧
    (∀ fuel r', ¬ r.buf0 > 0 → r.err = none → pull (Upstream.logging rd) fuel r = .ok r' →
      ∃ s1 log s2, r.r = some (s1, log) ∧ r'.r = some (s2, log ++ [r'.err])) ∧
    (∀ fuel p res, Read (Upstream.logging rd) fuel r p = .ok res →
      Run (Upstream.logging rd) r1 res.st ∧
      ∃ s1 log s2 more, r.r = some (s1, log) ∧ res.st.r = some (s2, log ++ more)) ∧
    (r.err ≠ none →
      ∀ fuel p, 1 ≤ fuel → ∃ res, Read (Upstream.logging rd) fuel r p = .ok res ∧
        res.st.r = r.r ∧ res.st.err = r.err) ∧
    (∀ fuel p res e, Read (Upstream.logging rd) fuel r p = .ok res → res.err = some e →
      res.st.err = some e ∧
      ∀ fuel' p', 1 ≤ fuel' →
        Read (Upstream.logging rd) fuel' res.st p'
          = .ok { n := 0, err := some e, p := p', st := res.st }) := by
  have hoc := logging_obeys rd ho
  have hinv := visits_inv hoc (run_visits _ r0 (s, []) search1 replace1 r1 r hreset hrun)
  have hpost : ∀ fuel p res, Read (Upstream.logging rd) fuel r p = .ok res →
      ReadPost (Upstream.logging rd) r p res := by
    intro fuel p res hread
    rcases Read_spec (Upstream.logging rd) hoc fuel r p hinv with hout | ⟨res', hres, hp⟩
    · rw [hout] at hread
      cases hread
    · rw [hres] at hread
      injection hread with hread
      subst hread
      exact hp
  refine ⟨run_log rd ho r0 s search1 replace1 r1 r hreset hrun,
    fun fuel r' hb he hp => pull_logs rd ho fuel r r' hinv hb he hp,
    fun fuel p res hread => ⟨run_of_read _ r1 fuel r p res hrun hread, ?_⟩, ?_, ?_⟩
  · obtain ⟨s1, n, hs1⟩ := run_log rd ho r0 s search1 replace1 r1 r hreset hrun
    obtain ⟨s2, m, hs2⟩ := run_log rd ho r0 s search1 replace1 r1 res.st hreset
      (run_of_read _ r1 fuel r p res hrun hread)
    have htrack := (hpost fuel p res hread).track
      (fun w _ => ∃ more, w.2 = (List.replicate n none ++ r.err.toList.map some) ++ more)
      (fun w k hw => by
        obtain ⟨more, hm⟩ := hw
        exact ⟨more ++ [(rd w.1 k).2.1], by
          show w.2 ++ [(rd w.1 k).2.1] = _
          rw [hm, List.append_assoc]⟩)
      (fun w hw => by
        rw [hs1] at hw
        exact ⟨[], by rw [← Option.some.inj hw, List.append_nil]⟩)
      _ hs2
    obtain ⟨more, hm⟩ := htrack
    exact ⟨s1, _, s2, more, hs1, by rw [hs2]; exact congrArg _ (congrArg _ hm)⟩
  · intro he fuel p hf
    obtain ⟨f, rfl⟩ : ∃ f, fuel = f + 1 := ⟨fuel - 1, by omega⟩
    rw [Read]
    by_cases hb : r.buf0 > 0
    · rw [if_pos hb]
      obtain ⟨res, hres, hp⟩ := deliver_spec (Upstream.logging rd) r p hinv hb
      exact ⟨res, hres, hp.quiet (Or.inl hb)⟩
    · rw [if_neg hb, if_pos he]
      exact ⟨_, rfl, rfl, rfl⟩
  · intro fuel p res e hread hre
    have hp := hpost fuel p res hread
    have hne : res.err ≠ none := by rw [hre]; simp
    have hee := hp.err_eq hne
    obtain ⟨hb0, _⟩ := hp.err_empty hne
    have hste : res.st.err = some e := by rw [← hee, hre]
    refine ⟨hste, fun fuel' p' hf => ?_⟩
    obtain ⟨f, rfl⟩ : ∃ f, fuel' = f + 1 := ⟨fuel' - 1, by omega⟩
    rw [Read]
    have hb : ¬ res.st.buf0 > 0 := by omega
    have he2 : res.st.err ≠ none := by rw [hste]; simp
    rw [if_neg hb, if_pos he2, hste]

theorem demoLogging_reset :
    Reset (BytesReplacingReader.zero (Chunked × List (Option GoError)))
      (some (Chunked.start [1] [] false GoError.EOF, [])) [9, 9] [] = .ok demoLogging := by
  apply ok_of_toOption
  decide!

theorem demoLogging_read :
    Read (Upstream.logging Chunked.read) 3 demoLogging [0, 0, 0] = .ok demoLogged := by
  apply ok_of_toOption
  decide!

/-- Witness of C16: the reader that the first `Read` from `demoLogging` leaves.
That call has called the source twice, the second call has returned `io.EOF`,
which is latched, and the log stays as it is from then on. -/
theorem no_upstream_call_after_error_witness :
    Reset (BytesReplacingReader.zero (Chunked × List (Option GoError)))
      (some (Chunked.start [1] [] false GoError.EOF, [])) [9, 9] [] = .ok demoLogging ∧
    Run (Upstream.logging Chunked.read) demoLogging demoLogged.st ∧
    demoLogged.st.err = some GoError.EOF ∧
    (∃ s', demoLogged.st.r = some (s', [none, some GoError.EOF])) ∧
    (∃ s' n, demoLogged.st.r
      = some (s', List.replicate n none ++ demoLogged.st.err.toList.map some)) ∧
    (∀ fuel r', ¬ demoLogged.st.buf0 > 0 → demoLogged.st.err = none →
      pull (Upstream.logging Chunked.read) fuel demoLogged.st = .ok r' →
      ∃ s1 log s2, demoLogged.st.r = some (s1, log) ∧ r'.r = some (s2, log ++ [r'.err])) ∧
    (∀ fuel p res, Read (Upstream.logging Chunked.read) fuel demoLogged.st p = .ok res →
      Run (Upstream.logging Chunked.read) demoLogging res.st ∧
      ∃ s1 log s2 more, demoLogged.st.r = some (s1, log) ∧ res.st.r = some (s2, log ++ more)) ∧
    (demoLogged.st.err ≠ none →
      ∀ fuel p, 1 ≤ fuel → ∃ res,
        Read (Upstream.logging Chunked.read) fuel demoLogged.st p = .ok res ∧
        res.st.r = demoLogged.st.r ∧ res.st.err = demoLogged.st.err) ∧
    (∀ fuel p res e, Read (Upstream.logging Chunked.read) fuel demoLogged.st p = .ok res →
      res.err = some e →
      res.st.err = some e ∧
      ∀ fuel' p', 1 ≤ fuel' →
        Read (Upstream.logging Chunked.read) fuel' res.st p'
          = .ok { n := 0, err := some e, p := p', st := res.st }) :=
  ⟨demoLogging_reset,
    run_of_read _ _ 3 demoLogging [0, 0, 0] demoLogged Run.start demoLogging_read,
    rfl, ⟨_, rfl⟩,
    no_upstream_call_after_error Chunked.read chunked_read_obeys
      (BytesReplacingReader.zero (Chunked × List (Option GoError)))
      (Chunked.start [1] [] false GoError.EOF) [9, 9] [] demoLogging demoLogged.st
      demoLogging_reset
      (run_of_read _ _ 3 demoLogging [0, 0, 0] demoLogged Run.start demoLogging_read)⟩


/-! ## UTF-8 -/

theorem byteOf_toNat (n : Int) (h0 : 0 ≤ n) (h1 : n < 256) : ((byteOf n).toNat : Int) = n := by
  unfold byteOf
  have : (UInt8.ofNat n.toNat).toNat = n.toNat % 256 := rfl
  rw [this]
  omega

theorem encodeRune_length (c : Int) :
    1 ≤ (encodeRune c).length ∧ (encodeRune c).length ≤ 4 := by
  unfold encodeRune
  split
  · simp
  · split
    · simp
    · split
      · simp
      · split <;> simp

theorem decodeRune_one (p0 : Byte) (rest : List Byte) (h0 : (p0.toNat : Int) < 0x80) :
    decodeRune (p0 :: rest) = ((p0.toNat : Int), 1) := by
  rw [decodeRune]
  simp only []
  rw [if_pos h0]

theorem decodeRune_two (p0 p1 : Byte) (rest : List Byte)
    (h0 : 0xC2 ≤ (p0.toNat : Int) ∧ (p0.toNat : Int) ≤ 0xDF)
    (h1 : 0x80 ≤ (p1.toNat : Int) ∧ (p1.toNat : Int) ≤ 0xBF) :
    decodeRune (p0 :: p1 :: rest) = ((p0.toNat : Int) % 32 * 64 + (p1.toNat : Int) % 64, 2) := by
  rw [decodeRune]
  simp only []
  rw [if_neg (by omega), if_neg (by omega)]
  have e1 : (p0.toNat : Int) ≠ 0xE0 := by omega
  have e2 : (p0.toNat : Int) ≠ 0xF0 := by omega
  have e3 : (p0.toNat : Int) ≠ 0xED := by omega
  have e4 : (p0.toNat : Int) ≠ 0xF4 := by omega
  simp only [e1, e2, e3, e4, if_false]
  rw [if_neg (by omega), if_pos (by omega)]

theorem decodeRune_three (p0 p1 p2 : Byte) (rest : List Byte)
    (h0 : 0xE0 ≤ (p0.toNat : Int) ∧ (p0.toNat : Int) ≤ 0xEF)
    (h1 : 0x80 ≤ (p1.toNat : Int) ∧ (p1.toNat : Int) ≤ 0xBF)
    (hlo : (p0.toNat : Int) = 0xE0 → 0xA0 ≤ (p1.toNat : Int))
    (hhi : (p0.toNat : Int) = 0xED → (p1.toNat : Int) ≤ 0x9F)
    (h2 : 0x80 ≤ (p2.toNat : Int) ∧ (p2.toNat : Int) ≤ 0xBF) :
    decodeRune (p0 :: p1 :: p2 :: rest)
      = ((p0.toNat : Int) % 16 * 4096 + (p1.toNat : Int) % 64 * 64 + (p2.toNat : Int) % 64, 3) := by
  rw [decodeRune]
  simp only []
  rw [if_neg (by omega), if_neg (by omega)]
  have e2 : (p0.toNat : Int) ≠ 0xF0 := by omega
  have e4 : (p0.toNat : Int) ≠ 0xF4 := by omega
  simp only [e2, e4, if_false]
  have c1 : ¬ ((p1.toNat : Int) < (if (p0.toNat : Int) = 0xE0 then 0xA0 else 0x80)
      ∨ (if (p0.toNat : Int) = 0xED then 0x9F else 0xBF) < (p1.toNat : Int)) := by
    split_ifs <;> omega
  rw [if_neg c1, if_neg (by omega), if_neg (by omega), if_pos (by omega)]

theorem decodeRune_four (p0 p1 p2 p3 : Byte) (rest : List Byte)
    (h0 : 0xF0 ≤ (p0.toNat : Int) ∧ (p0.toNat : Int) ≤ 0xF4)
    (h1 : 0x80 ≤ (p1.toNat : Int) ∧ (p1.toNat : Int) ≤ 0xBF)
    (hlo : (p0.toNat : Int) = 0xF0 → 0x90 ≤ (p1.toNat : Int))
    (hhi : (p0.toNat : Int) = 0xF4 → (p1.toNat : Int) ≤ 0x8F)
    (h2 : 0x80 ≤ (p2.toNat : Int) ∧ (p2.toNat : Int) ≤ 0xBF)
    (h3 : 0x80 ≤ (p3.toNat : Int) ∧ (p3.toNat : Int) ≤ 0xBF) :
    decodeRune (p0 :: p1 :: p2 :: p3 :: rest)
      = ((p0.toNat : Int) % 8 * 262144 + (p1.toNat : Int) % 64 * 4096
          + (p2.toNat : Int) % 64 * 64 + (p3.toNat : Int) % 64, 4) := by
  rw [decodeRune]
  simp only []
  rw [if_neg (by omega), if_neg (by omega)]
  have e1 : (p0.toNat : Int) ≠ 0xE0 := by omega
  have e3 : (p0.toNat : Int) ≠ 0xED := by omega
  simp only [e1, e3, if_false]
  have c1 : ¬ ((p1.toNat : Int) < (if (p0.toNat : Int) = 0xF0 then 0x90 else 0x80)
      ∨ (if (p0.toNat : Int) = 0xF4 then 0x8F else 0xBF) < (p1.toNat : Int)) := by
    split_ifs <;> omega
  rw [if_neg c1, if_neg (by omega), if_neg (by omega), if_neg (by omega), if_neg (by omega)]

/-- Decoding reads back the scalar value whose encoding the bytes start with. -/
theorem decodeRune_encodeRune (c : Int) (hc : IsScalar c) (rest : List Byte) :
    decodeRune (encodeRune c ++ rest) = (c, (encodeRune c).length) := by
  unfold IsScalar at hc
  unfold encodeRune
  by_cases h1 : 0 ≤ c ∧ c ≤ 0x7F
  · rw [if_pos h1]
    have hb := byteOf_toNat c (by omega) (by omega)
    rw [List.singleton_append, decodeRune_one _ _ (by omega), hb]
    rfl
  · rw [if_neg h1]
    by_cases h2 : 0 ≤ c ∧ c ≤ 0x7FF
    · rw [if_pos h2]
      have hb0 := byteOf_toNat (0xC0 + c / 64) (by omega) (by omega)
      have hb1 := byteOf_toNat (0x80 + c % 64) (by omega) (by omega)
      rw [List.cons_append, List.cons_append, List.nil_append,
        decodeRune_two _ _ _ (by omega) (by omega), hb0, hb1]
      simp only [List.length_cons, List.length_nil]
      congr 1
      omega
    · rw [if_neg h2]
      have h3 : ¬ (c < 0 ∨ 0x10FFFF < c ∨ (0xD800 ≤ c ∧ c ≤ 0xDFFF)) := by omega
      rw [if_neg h3]
      by_cases h4 : c ≤ 0xFFFF
      · rw [if_pos h4]
        have hb0 := byteOf_toNat (0xE0 + c / 4096) (by omega) (by omega)
        have hb1 := byteOf_toNat (0x80 + c / 64 % 64) (by omega) (by omega)
        have hb2 := byteOf_toNat (0x80 + c % 64) (by omega) (by omega)
        rw [List.cons_append, List.cons_append, List.cons_append, List.nil_append,
          decodeRune_three _ _ _ _ (by omega) (by omega) (by omega) (by omega) (by omega),
          hb0, hb1, hb2]
        simp only [List.length_cons, List.length_nil]
        congr 1
        omega
      · rw [if_neg h4]
        have hb0 := byteOf_toNat (0xF0 + c / 262144) (by omega) (by omega)
        have hb1 := byteOf_toNat (0x80 + c / 4096 % 64) (by omega) (by omega)
        have hb2 := byteOf_toNat (0x80 + c / 64 % 64) (by omega) (by omega)
        have hb3 := byteOf_toNat (0x80 + c % 64) (by omega) (by omega)
        rw [List.cons_append, List.cons_append, List.cons_append, List.cons_append,
          List.nil_append,
          decodeRune_four _ _ _ _ _ (by omega) (by omega) (by omega) (by omega) (by omega)
            (by omega),
          hb0, hb1, hb2, hb3]
        simp only [List.length_cons, List.length_nil]
        congr 1
        omega
theorem encodeRune_ne_nil (c : Int) : encodeRune c ≠ [] := by
  intro h
  have := (encodeRune_length c).1
  rw [h] at this
  simp at this

theorem decodeFrom_skip (k : Nat) (l : List Byte) :
    decodeFrom k l = decodeFrom 0 (l.drop k) := by
  induction l generalizing k with
  | nil => cases k <;> simp [decodeFrom]
  | cons x t ih =>
    cases k with
    | zero => simp
    | succ k => simp only [decodeFrom, List.drop_succ_cons]; exact ih k

theorem toRunes_encodeRune_append (c : Int) (hc : IsScalar c) (rest : List Byte) :
    toRunes (encodeRune c ++ rest) = c :: toRunes rest := by
  have hd := decodeRune_encodeRune c hc rest
  unfold toRunes
  obtain ⟨b, t, hbt⟩ := List.exists_cons_of_ne_nil (encodeRune_ne_nil c)
  rw [hbt] at hd ⊢
  rw [List.cons_append] at hd ⊢
  rw [decodeFrom, hd, decodeFrom_skip]
  simp

theorem encodeRunes_nil : encodeRunes [] = [] := rfl

theorem encodeRunes_cons (c : Int) (cs : List Int) :
    encodeRunes (c :: cs) = encodeRune c ++ encodeRunes cs := by
  simp [encodeRunes]

theorem encodeRunes_append (as bs : List Int) :
    encodeRunes (as ++ bs) = encodeRunes as ++ encodeRunes bs := by
  simp [encodeRunes]

theorem toRunes_encodeRunes_append (cs : List Int) (hcs : ∀ c ∈ cs, IsScalar c)
    (rest : List Byte) : toRunes (encodeRunes cs ++ rest) = cs ++ toRunes rest := by
  induction cs with
  | nil => simp [encodeRunes_nil]
  | cons c cs ih =>
    rw [encodeRunes_cons, List.append_assoc,
      toRunes_encodeRune_append c (hcs c (List.mem_cons_self _ _)),
      ih (fun x hx => hcs x (List.mem_cons_of_mem _ hx))]
    simp

theorem toRunes_nil : toRunes [] = [] := rfl

theorem toRunes_encodeRunes (cs : List Int) (hcs : ∀ c ∈ cs, IsScalar c) :
    toRunes (encodeRunes cs) = cs := by
  have := toRunes_encodeRunes_append cs hcs []
  simpa [toRunes_nil] using this

theorem toRunes_ne_nil (s : List Byte) (h : s ≠ []) : toRunes s ≠ [] := by
  obtain ⟨b, t, rfl⟩ := List.exists_cons_of_ne_nil h
  unfold toRunes
  rw [decodeFrom]
  exact List.cons_ne_nil _ _

theorem encodeRunes_eq_nil (cs : List Int) (h : encodeRunes cs = []) : cs = [] := by
  cases cs with
  | nil => rfl
  | cons c cs =>
    rw [encodeRunes_cons] at h
    have := encodeRune_ne_nil c
    simp at h
    exact absurd h.1 this

/-- A valid string is the encoding of its own runes, which are scalar values. -/
theorem valid_runes (s : List Byte) (h : ValidUTF8 s) :
    (∀ c ∈ toRunes s, IsScalar c) ∧ encodeRunes (toRunes s) = s := by
  obtain ⟨cs, hcs, rfl⟩ := h
  rw [toRunes_encodeRunes cs hcs]
  exact ⟨hcs, rfl⟩

theorem valid_encodeRunes (cs : List Int) (hcs : ∀ c ∈ cs, IsScalar c) :
    ValidUTF8 (encodeRunes cs) := ⟨cs, hcs, rfl⟩

/-- The bytes of an encoding: the first is no continuation byte, the others
are. -/
theorem encodeRune_shape (c : Int) (hc : IsScalar c) :
    ∃ b t, encodeRune c = b :: t ∧ ¬ (0x80 ≤ b.toNat ∧ b.toNat ≤ 0xBF) ∧
      ∀ x ∈ t, 0x80 ≤ x.toNat ∧ x.toNat ≤ 0xBF := by
  unfold IsScalar at hc
  unfold encodeRune
  by_cases h1 : 0 ≤ c ∧ c ≤ 0x7F
  · rw [if_pos h1]
    have hb := byteOf_toNat c (by omega) (by omega)
    exact ⟨_, _, rfl, by omega, by simp⟩
  · rw [if_neg h1]
    by_cases h2 : 0 ≤ c ∧ c ≤ 0x7FF
    · rw [if_pos h2]
      have hb0 := byteOf_toNat (0xC0 + c / 64) (by omega) (by omega)
      have hb1 := byteOf_toNat (0x80 + c % 64) (by omega) (by omega)
      refine ⟨_, _, rfl, by omega, ?_⟩
      intro x hx
      simp only [List.mem_singleton] at hx
      subst hx
      omega
    · rw [if_neg h2]
      have h3 : ¬ (c < 0 ∨ 0x10FFFF < c ∨ (0xD800 ≤ c ∧ c ≤ 0xDFFF)) := by omega
      rw [if_neg h3]
      by_cases h4 : c ≤ 0xFFFF
      · rw [if_pos h4]
        have hb0 := byteOf_toNat (0xE0 + c / 4096) (by omega) (by omega)
        have hb1 := byteOf_toNat (0x80 + c / 64 % 64) (by omega) (by omega)
        have hb2 := byteOf_toNat (0x80 + c % 64) (by omega) (by omega)
        refine ⟨_, _, rfl, by omega, ?_⟩
        intro x hx
        simp only [List.mem_cons, List.mem_singleton, List.not_mem_nil, or_false] at hx
        rcases hx with rfl | rfl <;> omega
      · rw [if_neg h4]
        have hb0 := byteOf_toNat (0xF0 + c / 262144) (by omega) (by omega)
        have hb1 := byteOf_toNat (0x80 + c / 4096 % 64) (by omega) (by omega)
        have hb2 := byteOf_toNat (0x80 + c / 64 % 64) (by omega) (by omega)
        have hb3 := byteOf_toNat (0x80 + c % 64) (by omega) (by omega)
        refine ⟨_, _, rfl, by omega, ?_⟩
        intro x hx
        simp only [List.mem_cons, List.mem_singleton, List.not_mem_nil, or_false] at hx
        rcases hx with rfl | rfl | rfl <;> omega
theorem findEsc_nil (ds : List Int) (e : Int) : findEsc ds e [] = none := by
  rw [findEsc]

theorem findEsc_esc_last (ds : List Int) (e : Int) : findEsc ds e [e] = none := by
  rw [findEsc]; simp

theorem findEsc_esc (ds : List Int) (e d : Int) (rest : List Int) :
    findEsc ds e (e :: d :: rest) = (findEsc ds e rest).map (fun k => k + 2) := by
  rw [findEsc]; simp

theorem findEsc_hit (ds : List Int) (e c : Int) (rest : List Int) (hc : c ≠ e)
    (h : ds.isPrefixOf (c :: rest) = true) : findEsc ds e (c :: rest) = some 0 := by
  rw [findEsc.eq_def]; simp [hc, h]

theorem findEsc_miss (ds : List Int) (e c : Int) (rest : List Int) (hc : c ≠ e)
    (h : ds.isPrefixOf (c :: rest) = false) :
    findEsc ds e (c :: rest) = (findEsc ds e rest).map (fun k => k + 1) := by
  rw [findEsc.eq_def]; simp [hc, h]

theorem findEsc_short (ds : List Int) (e : Int) :
    ∀ (n : Nat) (l : List Int), l.length ≤ n → l.length < ds.length → findEsc ds e l = none := by
  intro n
  induction n with
  | zero =>
    intro l hl _
    have : l = [] := List.length_eq_zero.mp (by omega)
    subst this
    exact findEsc_nil ds e
  | succ n ih =>
    intro l hl hs
    cases l with
    | nil => exact findEsc_nil ds e
    | cons c rest =>
      by_cases hc : c = e
      · subst hc
        cases rest with
        | nil => exact findEsc_esc_last ds c
        | cons d rest2 =>
          rw [findEsc_esc, ih rest2 (by simp at hl; omega) (by simp at hs; omega)]
          rfl
      · have hp : ds.isPrefixOf (c :: rest) = false := by
          cases hq : ds.isPrefixOf (c :: rest) with
          | false => rfl
          | true =>
            have := (List.isPrefixOf_iff_prefix.mp hq).length_le
            omega
        rw [findEsc_miss ds e c rest hc hp, ih rest (by simp at hl; omega) (by simp at hs; omega)]
        rfl

theorem runeAt_drop (rs : List Int) (n : Nat) (c : Int) (rest : List Int)
    (h : rs.drop n = c :: rest) : runeAt rs (n : Int) = .ok c := by
  have hn : n < rs.length := by
    by_contra hc
    rw [List.drop_eq_nil_of_le (by omega)] at h
    exact List.noConfusion h
  have hg : rs.get? n = some c := by
    have := List.head?_drop rs n
    rw [h] at this
    simp at this
    rw [List.get?_eq_getElem?]
    exact this.symm
  unfold runeAt
  rw [if_pos ⟨by omega, by omega⟩]
  simp only [Int.toNat_ofNat, hg]

theorem sliceRunes_front (rs : List Int) (n : Nat) (h : n ≤ rs.length) :
    sliceRunes rs 0 (n : Int) = .ok (rs.take n) := by
  unfold sliceRunes
  rw [if_pos ⟨le_refl _, by omega, by omega⟩]
  simp

theorem drop_cons_of_lt (rs : List Int) (n : Nat) (h : n < rs.length) :
    ∃ c, rs.drop n = c :: rs.drop (n + 1) :=
  ⟨rs[n], List.drop_eq_getElem_cons h⟩

theorem delimFoundAt_eq (cs ds : List Int) (n : Nat) (hb : n + ds.length ≤ cs.length) :
    ∀ (fuel j : Nat), j ≤ ds.length → ds.length - j + 1 ≤ fuel →
      delimFoundAt cs ds (n : Int) fuel (j : Int)
        = .ok ((ds.drop j).isPrefixOf (cs.drop (n + j))) := by
  intro fuel
  induction fuel with
  | zero => intro j _ hf; omega
  | succ fuel ih =>
    intro j hj hf
    rw [delimFoundAt]
    by_cases hlt : j < ds.length
    · rw [if_pos (by omega)]
      obtain ⟨b, hb2⟩ := drop_cons_of_lt ds j hlt
      obtain ⟨a, ha2⟩ := drop_cons_of_lt cs (n + j) (by omega)
      have ra : runeAt cs ((n : Int) + (j : Int)) = .ok a := by
        have := runeAt_drop cs (n + j) a _ ha2
        rw [Nat.cast_add] at this
        exact this
      have rb := runeAt_drop ds j b _ hb2
      rw [ra, rb]
      simp only []
      rw [hb2, ha2]
      by_cases hab : a = b
      · subst hab
        rw [if_neg (by simp)]
        have := ih (j + 1) (by omega) (by omega)
        rw [Nat.cast_add, Nat.cast_one] at this
        rw [this]
        simp [List.isPrefixOf, Nat.add_assoc]
      · rw [if_pos hab]
        have : (b == a) = false := by
          simp
          exact fun h => hab h.symm
        simp [List.isPrefixOf, this]
    · have : j = ds.length := by omega
      subst this
      rw [if_neg (by omega)]
      simp

theorem indexLoop_eq (cs ds : List Int) (e : Int) (hne : ds ≠ []) :
    ∀ (fuel n : Nat), 1 ≤ fuel → cs.length + 1 ≤ fuel + n →
      indexLoop cs ds e fuel (n : Int)
        = .ok (match findEsc ds e (cs.drop n) with
               | none => -1
               | some k => len (encodeRunes (cs.take (n + k)))) := by
  have hpos : 0 < ds.length := List.length_pos.mpr hne
  intro fuel
  induction fuel with
  | zero => intro n h1 _; omega
  | succ fuel ih =>
    intro n _ hf
    rw [indexLoop]
    by_cases hlt : n + ds.length ≤ cs.length
    · rw [if_pos (by omega)]
      obtain ⟨c, hc2⟩ := drop_cons_of_lt cs n (by omega)
      rw [runeAt_drop cs n c _ hc2]
      simp only []
      by_cases hce : c = e
      · rw [if_pos hce]
        have := ih (n + 1 + 1) (by omega) (by omega)
        rw [Nat.cast_add, Nat.cast_add, Nat.cast_one] at this
        rw [this, hc2, hce]
        by_cases hl2 : n + 1 < cs.length
        · obtain ⟨d, hd2⟩ := drop_cons_of_lt cs (n + 1) hl2
          rw [hd2, findEsc_esc]
          cases findEsc ds e (cs.drop (n + 1 + 1)) with
          | none => rfl
          | some k =>
            simp only [Option.map_some']
            have : n + 1 + 1 + k = n + (k + 2) := by omega
            rw [this]
        · rw [List.drop_eq_nil_of_le (show cs.length ≤ n + 1 by omega),
            List.drop_eq_nil_of_le (show cs.length ≤ n + 1 + 1 by omega),
            findEsc_nil, findEsc_esc_last]
      · rw [if_neg hce]
        have hd := delimFoundAt_eq cs ds n hlt (ds.length + 1) 0 (by omega) (by omega)
        rw [Nat.cast_zero] at hd
        rw [hd]
        simp only [List.drop_zero, Nat.add_zero]
        rw [hc2]
        cases hp : ds.isPrefixOf (c :: cs.drop (n + 1)) with
        | true =>
          simp only []
          rw [sliceRunes_front cs n (by omega), findEsc_hit ds e c _ hce hp]
          rfl
        | false =>
          simp only []
          have := ih (n + 1) (by omega) (by omega)
          rw [Nat.cast_add, Nat.cast_one] at this
          rw [this, findEsc_miss ds e c _ hce hp]
          cases findEsc ds e (cs.drop (n + 1)) with
          | none => rfl
          | some k =>
            simp only [Option.map_some']
            have : n + 1 + k = n + (k + 1) := by omega
            rw [this]
    · rw [if_neg (by omega)]
      rw [findEsc_short ds e _ (cs.drop n) (le_refl _) (by rw [List.length_drop]; omega)]
/-- Induction along the recursion of `findEsc` and `unescRunes`. -/
theorem esc_induct (e : Int) (P : List Int → Prop) (h0 : P []) (h1 : P [e])
    (h2 : ∀ d rest, P rest → P (e :: d :: rest))
    (h3 : ∀ c rest, c ≠ e → P rest → P (c :: rest)) : ∀ l, P l := by
  have key : ∀ (n : Nat) (l : List Int), l.length ≤ n → P l := by
    intro n
    induction n with
    | zero =>
      intro l hl
      have : l = [] := List.length_eq_zero.mp (by omega)
      subst this
      exact h0
    | succ n ih =>
      intro l hl
      cases l with
      | nil => exact h0
      | cons c rest =>
        by_cases hc : c = e
        · subst hc
          cases rest with
          | nil => exact h1
          | cons d rest2 => exact h2 d rest2 (ih rest2 (by simp at hl; omega))
        · exact h3 c rest hc (ih rest (by simp at hl; omega))
  intro l
  exact key l.length l (le_refl _)

theorem IndexWithEsc_some (s delim : List Byte) (e : Int) (hne : delim ≠ []) :
    IndexWithEsc s delim (some e)
      = .ok (match findEsc (toRunes delim) e (toRunes s) with
             | none => -1
             | some k => offsetOf (toRunes s) k) := by
  unfold IndexWithEsc
  have h1 : ¬ len delim = 0 := fun h => hne ((len_eq_zero_iff delim).mp h)
  rw [if_neg h1]
  by_cases h2 : len s = 0
  · rw [if_pos h2]
    have : s = [] := (len_eq_zero_iff s).mp h2
    subst this
    rw [toRunes_nil, findEsc_nil]
  · rw [if_neg h2]
    simp only []
    have := indexLoop_eq (toRunes s) (toRunes delim) e (toRunes_ne_nil delim hne)
      ((toRunes s).length + 1) 0 (by omega) (by omega)
    rw [Nat.cast_zero] at this
    rw [this]
    simp only [List.drop_zero, Nat.zero_add]
    rfl

/-- A find of the search is an occurrence of the runes `ds`. -/
theorem findEsc_occ (ds : List Int) (e : Int) :
    ∀ (l : List Int) (k : Nat), findEsc ds e l = some k → ds <+: l.drop k := by
  refine esc_induct e (fun l => ∀ k, findEsc ds e l = some k → ds <+: l.drop k) ?_ ?_ ?_ ?_
  · intro k h; rw [findEsc_nil] at h; exact Option.noConfusion h
  · intro k h; rw [findEsc_esc_last] at h; exact Option.noConfusion h
  · intro d rest ih k h
    rw [findEsc_esc] at h
    cases hf : findEsc ds e rest with
    | none => rw [hf] at h; exact Option.noConfusion h
    | some k2 =>
      rw [hf] at h
      simp only [Option.map_some', Option.some.injEq] at h
      subst h
      exact ih k2 hf
  · intro c rest hc ih k h
    cases hp : ds.isPrefixOf (c :: rest) with
    | true =>
      rw [findEsc_hit ds e c rest hc hp] at h
      simp only [Option.some.injEq] at h
      subst h
      exact List.isPrefixOf_iff_prefix.mp hp
    | false =>
      rw [findEsc_miss ds e c rest hc hp] at h
      cases hf : findEsc ds e rest with
      | none => rw [hf] at h; exact Option.noConfusion h
      | some k2 =>
        rw [hf] at h
        simp only [Option.map_some', Option.some.injEq] at h
        subst h
        exact ih k2 hf

/-- In front of a find the search finds nothing. -/
theorem findEsc_take (ds : List Int) (e : Int) :
    ∀ (l : List Int) (k : Nat), findEsc ds e l = some k → findEsc ds e (l.take k) = none := by
  refine esc_induct e (fun l => ∀ k, findEsc ds e l = some k → findEsc ds e (l.take k) = none)
    ?_ ?_ ?_ ?_
  · intro k h; rw [findEsc_nil] at h; exact Option.noConfusion h
  · intro k h; rw [findEsc_esc_last] at h; exact Option.noConfusion h
  · intro d rest ih k h
    rw [findEsc_esc] at h
    cases hf : findEsc ds e rest with
    | none => rw [hf] at h; exact Option.noConfusion h
    | some k2 =>
      rw [hf] at h
      simp only [Option.map_some', Option.some.injEq] at h
      subst h
      rw [List.take_succ_cons, List.take_succ_cons, findEsc_esc, ih k2 hf]
      rfl
  · intro c rest hc ih k h
    cases hp : ds.isPrefixOf (c :: rest) with
    | true =>
      rw [findEsc_hit ds e c rest hc hp] at h
      simp only [Option.some.injEq] at h
      subst h
      rw [List.take_zero, findEsc_nil]
    | false =>
      rw [findEsc_miss ds e c rest hc hp] at h
      cases hf : findEsc ds e rest with
      | none => rw [hf] at h; exact Option.noConfusion h
      | some k2 =>
        rw [hf] at h
        simp only [Option.map_some', Option.some.injEq] at h
        subst h
        rw [List.take_succ_cons]
        have hp2 : ds.isPrefixOf (c :: rest.take k2) = false := by
          cases hq : ds.isPrefixOf (c :: rest.take k2) with
          | false => rfl
          | true =>
            have h1 := List.isPrefixOf_iff_prefix.mp hq
            have h2 : (c :: rest.take k2) <+: (c :: rest) := by
              rw [← List.take_succ_cons]
              exact List.take_prefix _ _
            have h3 := List.isPrefixOf_iff_prefix.mpr (h1.trans h2)
            rw [hp] at h3
            exact Bool.noConfusion h3
        rw [findEsc_miss ds e c _ hc hp2, ih k2 hf]
        rfl

/-- Without an escape rune in the runes the search is for the first
occurrence. -/
theorem findEsc_plain (ds : List Int) (e : Int) :
    ∀ (l : List Int), e ∉ l →
      (findEsc ds e l = none → ∀ q, q < l.length → ¬ ds <+: l.drop q) ∧
      (∀ k, findEsc ds e l = some k → ∀ q, q < k → ¬ ds <+: l.drop q) := by
  intro l
  induction l with
  | nil =>
    intro _
    refine ⟨fun _ q hq => by simp at hq, fun k h => ?_⟩
    rw [findEsc_nil] at h; exact Option.noConfusion h
  | cons c rest ih =>
    intro he
    have hc : c ≠ e := fun h => he (h ▸ List.mem_cons_self _ _)
    have hr : e ∉ rest := fun h => he (List.mem_cons_of_mem _ h)
    obtain ⟨ih1, ih2⟩ := ih hr
    cases hp : ds.isPrefixOf (c :: rest) with
    | true =>
      rw [findEsc_hit ds e c rest hc hp]
      refine ⟨fun h => Option.noConfusion h, fun k h q hq => ?_⟩
      simp only [Option.some.injEq] at h
      omega
    | false =>
      rw [findEsc_miss ds e c rest hc hp]
      have hp0 : ¬ ds <+: (c :: rest) := by
        intro h
        rw [List.isPrefixOf_iff_prefix.mpr h] at hp
        exact Bool.noConfusion hp
      constructor
      · intro h q hq
        cases hf : findEsc ds e rest with
        | some k2 => rw [hf] at h; simp at h
        | none =>
          cases q with
          | zero => simpa using hp0
          | succ q =>
            rw [List.drop_succ_cons]
            exact ih1 hf q (by simp at hq; omega)
      · intro k h q hq
        cases hf : findEsc ds e rest with
        | none => rw [hf] at h; simp at h
        | some k2 =>
          rw [hf] at h
          simp only [Option.map_some', Option.some.injEq] at h
          subst h
          cases q with
          | zero => simpa using hp0
          | succ q =>
            rw [List.drop_succ_cons]
            exact ih2 k2 hf q (by omega)
theorem escRun_skip (e c : Int) (rest : List Int) (hc : c ≠ e) (q : Nat) :
    escRun e (c :: rest) (q + 1) = escRun e rest q := by
  induction q with
  | zero => simp [escRun, hc]
  | succ q ih =>
    rw [escRun, ih]
    simp only [List.get?_cons_succ]
    rw [escRun]

theorem escRun_pair (e d : Int) (rest : List Int) (q : Nat) :
    escRun e (e :: d :: rest) (q + 2) % 2 = escRun e rest q % 2 := by
  induction q with
  | zero =>
    by_cases hd : d = e
    · simp [escRun, hd]
    · simp [escRun, hd]
  | succ q ih =>
    rw [escRun]
    simp only [List.get?_cons_succ]
    by_cases hq : rest.get? q = some e
    · rw [if_pos hq]
      have : escRun e rest (q + 1) = escRun e rest q + 1 := by rw [escRun, if_pos hq]
      omega
    · rw [if_neg hq]
      have : escRun e rest (q + 1) = 0 := by rw [escRun, if_neg hq]
      omega

theorem occ_head (ds : List Int) (c : Int) (rest : List Int) (hne : ds ≠ [])
    (h : ds <+: c :: rest) : ds.head? = some c := by
  obtain ⟨d, t, rfl⟩ := List.exists_cons_of_ne_nil hne
  obtain ⟨u, hu⟩ := h
  simp at hu
  simp [hu.1]

/-- The finds of the search are the occurrences behind an even number of
escape runes, for runes `ds` that do not begin with the escape rune. -/
theorem findEsc_even (ds : List Int) (e : Int) (hne : ds ≠ []) (hd : ds.head? ≠ some e) :
    ∀ (l : List Int),
      (findEsc ds e l = none → ∀ q, ds <+: l.drop q → escRun e l q % 2 = 1) ∧
      (∀ k, findEsc ds e l = some k →
        escRun e l k % 2 = 0 ∧ ∀ q, q < k → ds <+: l.drop q → escRun e l q % 2 = 1) := by
  have hnil : ¬ ds <+: [] := fun h => hne (List.prefix_nil.mp h)
  refine esc_induct e (fun l =>
      (findEsc ds e l = none → ∀ q, ds <+: l.drop q → escRun e l q % 2 = 1) ∧
      (∀ k, findEsc ds e l = some k →
        escRun e l k % 2 = 0 ∧ ∀ q, q < k → ds <+: l.drop q → escRun e l q % 2 = 1))
    ?_ ?_ ?_ ?_
  · constructor
    · intro _ q h
      rw [List.drop_nil] at h
      exact absurd h hnil
    · intro k h; rw [findEsc_nil] at h; exact Option.noConfusion h
  · constructor
    · intro _ q h
      cases q with
      | zero => exact absurd (occ_head ds e [] hne h) hd
      | succ q =>
        rw [List.drop_succ_cons, List.drop_nil] at h
        exact absurd h hnil
    · intro k h; rw [findEsc_esc_last] at h; exact Option.noConfusion h
  · intro d rest ih
    obtain ⟨ih1, ih2⟩ := ih
    have low : ∀ q, q < 2 → ds <+: (e :: d :: rest).drop q →
        escRun e (e :: d :: rest) q % 2 = 1 := by
      intro q hq h
      have : q = 0 ∨ q = 1 := by omega
      rcases this with rfl | rfl
      · exact absurd (occ_head ds e _ hne h) hd
      · simp [escRun]
    rw [findEsc_esc]
    constructor
    · intro h q hq
      cases hf : findEsc ds e rest with
      | some k2 => rw [hf] at h; simp at h
      | none =>
        by_cases h2 : q < 2
        · exact low q h2 hq
        · obtain ⟨q2, rfl⟩ : ∃ q2, q = q2 + 2 := ⟨q - 2, by omega⟩
          rw [escRun_pair]
          exact ih1 hf q2 (by simpa using hq)
    · intro k h
      cases hf : findEsc ds e rest with
      | none => rw [hf] at h; simp at h
      | some k2 =>
        rw [hf] at h
        simp only [Option.map_some', Option.some.injEq] at h
        subst h
        obtain ⟨e1, e2⟩ := ih2 k2 hf
        refine ⟨by rw [escRun_pair]; exact e1, fun q hq hocc => ?_⟩
        by_cases h2 : q < 2
        · exact low q h2 hocc
        · obtain ⟨q2, rfl⟩ : ∃ q2, q = q2 + 2 := ⟨q - 2, by omega⟩
          rw [escRun_pair]
          exact e2 q2 (by omega) (by simpa using hocc)
  · intro c rest hc ih
    obtain ⟨ih1, ih2⟩ := ih
    cases hp : ds.isPrefixOf (c :: rest) with
    | true =>
      rw [findEsc_hit ds e c rest hc hp]
      refine ⟨fun h => Option.noConfusion h, fun k h => ?_⟩
      simp only [Option.some.injEq] at h
      subst h
      exact ⟨by simp [escRun], fun q hq => by omega⟩
    | false =>
      rw [findEsc_miss ds e c rest hc hp]
      have hp0 : ¬ ds <+: (c :: rest) := by
        intro h
        rw [List.isPrefixOf_iff_prefix.mpr h] at hp
        exact Bool.noConfusion hp
      constructor
      · intro h q hq
        cases hf : findEsc ds e rest with
        | some k2 => rw [hf] at h; simp at h
        | none =>
          cases q with
          | zero => exact absurd (by simpa using hq) hp0
          | succ q =>
            rw [escRun_skip e c rest hc]
            exact ih1 hf q (by simpa using hq)
      · intro k h
        cases hf : findEsc ds e rest with
        | none => rw [hf] at h; simp at h
        | some k2 =>
          rw [hf] at h
          simp only [Option.map_some', Option.some.injEq] at h
          subst h
          obtain ⟨e1, e2⟩ := ih2 k2 hf
          refine ⟨by rw [escRun_skip e c rest hc]; exact e1, fun q hq hocc => ?_⟩
          cases q with
          | zero => exact absurd (by simpa using hocc) hp0
          | succ q =>
            rw [escRun_skip e c rest hc]
            exact e2 q (by omega) (by simpa using hocc)
theorem drop_cons_of_lt_byte (rs : List Byte) (n : Nat) (h : n < rs.length) :
    ∃ c, rs.drop n = c :: rs.drop (n + 1) :=
  ⟨rs[n], List.drop_eq_getElem_cons h⟩

theorem encodeRunes_take_drop (cs : List Int) (p : Nat) :
    encodeRunes cs = encodeRunes (cs.take p) ++ encodeRunes (cs.drop p) := by
  rw [← encodeRunes_append, List.take_append_drop]

theorem occ_runes_split (ds cs : List Int) (p : Nat) (h : ds <+: cs.drop p) :
    cs = cs.take p ++ ds ++ cs.drop (p + ds.length) := by
  obtain ⟨u, hu⟩ := h
  have h1 : cs.drop (p + ds.length) = u := by
    rw [← List.drop_drop, ← hu]
    simp
  rw [h1, List.append_assoc, hu, List.take_append_drop]

theorem offsetOf_eq (cs : List Int) (p : Nat) :
    offsetOf cs p = ((encodeRunes (cs.take p)).length : Int) := rfl

theorem offsetOf_nonneg (cs : List Int) (p : Nat) : 0 ≤ offsetOf cs p := by
  rw [offsetOf_eq]; omega

theorem offsetOf_zero (cs : List Int) : offsetOf cs 0 = 0 := by
  simp [offsetOf_eq, encodeRunes_nil]

theorem offsetOf_mono (cs : List Int) (p q : Nat) (h : p ≤ q) :
    offsetOf cs p ≤ offsetOf cs q := by
  rw [offsetOf_eq, offsetOf_eq]
  have : cs.take p = (cs.take q).take p := by rw [List.take_take, Nat.min_eq_left h]
  rw [this, encodeRunes_take_drop (cs.take q) p, List.length_append]
  omega

/-- The bytes of the string at an occurrence of the runes `ds`. -/
theorem occ_bytes_split (ds cs : List Int) (p : Nat) (h : ds <+: cs.drop p) :
    encodeRunes cs = encodeRunes (cs.take p) ++ encodeRunes ds
      ++ encodeRunes (cs.drop (p + ds.length)) := by
  have := occ_runes_split ds cs p h
  rw [← encodeRunes_append, ← encodeRunes_append, ← this]

theorem occ_bytes (ds cs : List Int) (p : Nat) (h : ds <+: cs.drop p) :
    encodeRunes ds <+: (encodeRunes cs).drop (offsetOf cs p).toNat := by
  rw [offsetOf_eq, Int.toNat_ofNat]
  rw [occ_bytes_split ds cs p h, List.append_assoc, List.drop_left]
  exact List.prefix_append _ _

theorem encodeRune_cancel (c d : Int) (hc : IsScalar c) (hd : IsScalar d) (x y : List Byte)
    (h : encodeRune c ++ x = encodeRune d ++ y) : c = d ∧ x = y := by
  have h1 := decodeRune_encodeRune c hc x
  have h2 := decodeRune_encodeRune d hd y
  rw [h] at h1
  rw [h1] at h2
  have hcd : c = d := congrArg Prod.fst h2
  subst hcd
  exact ⟨rfl, List.append_cancel_left h⟩

/-- A valid string that starts another starts it rune by rune. -/
theorem prefix_runes (ds : List Int) (hds : ∀ c ∈ ds, IsScalar c) :
    ∀ (cs : List Int), (∀ c ∈ cs, IsScalar c) → encodeRunes ds <+: encodeRunes cs →
      ds <+: cs := by
  induction ds with
  | nil => intro cs _ _; exact List.nil_prefix
  | cons d ds ih =>
    intro cs hcs h
    obtain ⟨z, hz⟩ := h
    cases cs with
    | nil =>
      rw [encodeRunes_nil, encodeRunes_cons] at hz
      have := encodeRune_ne_nil d
      simp at hz
      exact absurd hz.1 this
    | cons c cs =>
      rw [encodeRunes_cons, encodeRunes_cons, List.append_assoc] at hz
      obtain ⟨e1, e2⟩ := encodeRune_cancel d c (hds d (List.mem_cons_self _ _))
        (hcs c (List.mem_cons_self _ _)) _ _ hz
      subst e1
      have := ih (fun x hx => hds x (List.mem_cons_of_mem _ hx)) cs
        (fun x hx => hcs x (List.mem_cons_of_mem _ hx)) ⟨z, e2⟩
      exact (List.prefix_cons_inj d).mpr this

/-- Self-synchronisation: a valid non-empty string occurs in a valid string
only at the byte offsets of rune indices, as an occurrence of its runes. -/
theorem occ_sync (ds : List Int) (hds : ∀ c ∈ ds, IsScalar c) (hne : ds ≠ []) :
    ∀ (cs : List Int), (∀ c ∈ cs, IsScalar c) →
      ∀ o : Nat, encodeRunes ds <+: (encodeRunes cs).drop o →
        ∃ p, (o : Int) = offsetOf cs p ∧ ds <+: cs.drop p := by
  obtain ⟨d, dt, rfl⟩ := List.exists_cons_of_ne_nil hne
  obtain ⟨db, dbt, hdb, hlead, _⟩ := encodeRune_shape d (hds d (List.mem_cons_self _ _))
  intro cs
  induction cs with
  | nil =>
    intro _ o h
    rw [encodeRunes_nil, List.drop_nil, encodeRunes_cons, hdb] at h
    obtain ⟨z, hz⟩ := h
    simp at hz
  | cons c cs ih =>
    intro hcs o h
    have hc := hcs c (List.mem_cons_self _ _)
    have hcs2 : ∀ x ∈ cs, IsScalar x := fun x hx => hcs x (List.mem_cons_of_mem _ hx)
    by_cases h0 : o = 0
    · subst h0
      rw [List.drop_zero] at h
      exact ⟨0, by rw [offsetOf_zero]; rfl, by
        rw [List.drop_zero]; exact prefix_runes _ hds _ hcs h⟩
    · by_cases h1 : o < (encodeRune c).length
      · exfalso
        obtain ⟨b, t, hbt, _, hcont⟩ := encodeRune_shape c hc
        rw [encodeRunes_cons, encodeRunes_cons, hbt, hdb] at h
        rw [hbt] at h1
        obtain ⟨o2, rfl⟩ : ∃ o2, o = o2 + 1 := ⟨o - 1, by omega⟩
        simp only [List.length_cons] at h1
        rw [List.cons_append, List.cons_append, List.drop_succ_cons,
          List.drop_append_of_le_length (by omega)] at h
        obtain ⟨x, hx⟩ := drop_cons_of_lt_byte t o2 (by omega)
        rw [hx] at h
        obtain ⟨z, hz⟩ := h
        simp only [List.cons_append, List.cons.injEq] at hz
        have hxm : x ∈ t := by
          have : x ∈ t.drop o2 := by rw [hx]; exact List.mem_cons_self _ _
          exact List.mem_of_mem_drop this
        have := hcont x hxm
        rw [← hz.1] at this
        exact hlead this
      · rw [encodeRunes_cons c, List.drop_append_eq_append_drop,
          List.drop_eq_nil_of_le (by omega), List.nil_append] at h
        obtain ⟨p, hp1, hp2⟩ := ih hcs2 _ h
        refine ⟨p + 1, ?_, by rw [List.drop_succ_cons]; exact hp2⟩
        rw [offsetOf_eq] at hp1 ⊢
        rw [List.take_succ_cons, encodeRunes_cons, List.length_append]
        omega
theorem occ_drop_bound_int (sep s : List Byte) (i : Nat) (h : sep <+: s.drop i) (hne : sep ≠ []) :
    (i : Int) + len sep ≤ len s := by
  have := occ_drop_bound sep s i h hne
  unfold len
  omega

/-- Without an escape rune `IndexWithEsc` is `strings.Index`, except for the
empty `s`. -/
theorem IndexWithEsc_none (s delim : List Byte) :
    IndexWithEsc s delim none = .ok (Index s delim) := by
  unfold IndexWithEsc
  by_cases h1 : len delim = 0
  · rw [if_pos h1]
    have : delim = [] := (len_eq_zero_iff delim).mp h1
    subst this
    cases s <;> simp [Index]
  · rw [if_neg h1]
    by_cases h2 : len s = 0
    · rw [if_pos h2]
      have : s = [] := (len_eq_zero_iff s).mp h2
      subst this
      have hd : delim ≠ [] := fun h => h1 ((len_eq_zero_iff delim).mpr h)
      have : delim.isPrefixOf [] = false := by
        cases delim with
        | nil => exact absurd rfl hd
        | cons a b => rfl
      simp [Index, this]
    · rw [if_neg h2]

theorem IndexWithEsc_empty_delim (s : List Byte) (esc : Option Int) :
    IndexWithEsc s [] esc = .ok 0 := by
  unfold IndexWithEsc
  rw [if_pos (show len ([] : List Byte) = 0 from rfl)]

/-- `IndexWithEsc` on valid strings, by the search on their runes. -/
theorem IndexWithEsc_valid (s delim : List Byte) (e : Int) (hs : ValidUTF8 s)
    (hd : ValidUTF8 delim) (hne : delim ≠ []) :
    (findEsc (toRunes delim) e (toRunes s) = none ∧ IndexWithEsc s delim (some e) = .ok (-1)) ∨
    ∃ p, findEsc (toRunes delim) e (toRunes s) = some p ∧
      IndexWithEsc s delim (some e) = .ok (offsetOf (toRunes s) p) ∧
      toRunes delim <+: (toRunes s).drop p ∧
      s = encodeRunes ((toRunes s).take p) ++ delim
        ++ encodeRunes ((toRunes s).drop (p + (toRunes delim).length)) := by
  rw [IndexWithEsc_some s delim e hne]
  cases hf : findEsc (toRunes delim) e (toRunes s) with
  | none => exact Or.inl ⟨rfl, rfl⟩
  | some p =>
    refine Or.inr ⟨p, rfl, rfl, findEsc_occ _ _ _ _ hf, ?_⟩
    have := occ_bytes_split _ _ p (findEsc_occ _ _ _ _ hf)
    rw [(valid_runes s hs).2, (valid_runes delim hd).2] at this
    exact this

/-- C12 as amended. For all strings `s` and `delim` and every `esc` such that
`esc` is nil, or `delim` is empty, or `s` and `delim` are both valid UTF-8,
`IndexWithEsc(s, delim, esc)` returns, and the returned value is either `-1`
or a byte offset `i` with `0 <= i <= len(s)` such that `s[i:]` starts with
`delim`, so that `i + len(delim) <= len(s)`. -/
theorem IndexWithEsc_offset (s delim : List Byte) (esc : Option Int)
    (h : esc = none ∨ delim = [] ∨ (ValidUTF8 s ∧ ValidUTF8 delim)) :
    ∃ i, IndexWithEsc s delim esc = .ok i ∧
      (i = -1 ∨ (0 ≤ i ∧ i ≤ len s ∧ delim <+: s.drop i.toNat ∧ i + len delim ≤ len s)) := by
  have hl := len_nonneg s
  by_cases hd : delim = []
  · subst hd
    refine ⟨0, IndexWithEsc_empty_delim s esc, Or.inr ⟨le_refl _, hl, List.nil_prefix, ?_⟩⟩
    simp [len]
  · cases esc with
    | none =>
      refine ⟨Index s delim, IndexWithEsc_none s delim, ?_⟩
      by_cases hneg : Index s delim < 0
      · have := Index_ge s delim
        exact Or.inl (by omega)
      · obtain ⟨i, hi, hocc, _⟩ := Index_found s delim (by omega)
        have hb := occ_drop_bound_int delim s i hocc hd
        have hdl := len_nonneg delim
        rw [hi]
        exact Or.inr ⟨by omega, by omega, by simpa using hocc, hb⟩
    | some e =>
      rcases h with h | h | ⟨hs, hv⟩
      · exact Option.noConfusion h
      · exact absurd h hd
      · rcases IndexWithEsc_valid s delim e hs hv hd with ⟨_, hr⟩ | ⟨p, hf, hr, hocc, _⟩
        · exact ⟨-1, hr, Or.inl rfl⟩
        · have hob := occ_bytes _ _ p hocc
          rw [(valid_runes s hs).2, (valid_runes delim hv).2] at hob
          have hn := offsetOf_nonneg (toRunes s) p
          have hb := occ_drop_bound_int delim s _ hob hd
          have hdl := len_nonneg delim
          rw [Int.toNat_of_nonneg hn] at hb
          exact ⟨_, hr, Or.inr ⟨hn, by omega, hob, hb⟩⟩

/-- Witness of C12 as amended: the example of the source, `"abc%|efg|xyz"` with the
delimiter `"|"` and the escape rune `%`, where the offset is 8. -/
theorem IndexWithEsc_offset_witness :
    ValidUTF8 (str "abc%|efg|xyz") ∧ ValidUTF8 (str "|") ∧
    IndexWithEsc (str "abc%|efg|xyz") (str "|") (some (rune '%')) = .ok 8 ∧
    ∃ i, IndexWithEsc (str "abc%|efg|xyz") (str "|") (some (rune '%')) = .ok i ∧
      (i = -1 ∨ (0 ≤ i ∧ i ≤ len (str "abc%|efg|xyz") ∧
        str "|" <+: (str "abc%|efg|xyz").drop i.toNat ∧
        i + len (str "|") ≤ len (str "abc%|efg|xyz"))) :=
  ⟨valid_encodeRunes _ (by decide), valid_encodeRunes _ (by decide),
    ok_of_toOption _ _ (by decide),
    IndexWithEsc_offset _ _ _
      (Or.inr (Or.inr ⟨valid_encodeRunes _ (by decide), valid_encodeRunes _ (by decide)⟩))⟩

/-- Counterexample to C12 as stated, a `delim` that is not valid UTF-8: the string
of U+FFFD, the bytes `EF BF BD`, is valid UTF-8, the byte `FF` does not occur in it,
and `IndexWithEsc` returns the offset 0, neither `-1` nor an offset where
`delim` starts. -/
theorem IndexWithEsc_offset_invalid_delim :
    ValidUTF8 (encodeRunes [0xFFFD]) ∧
    IndexWithEsc (encodeRunes [0xFFFD]) [0xFF] (some (rune 'x')) = .ok 0 ∧
    ¬ ([0xFF] : List Byte) <+: (encodeRunes [0xFFFD]).drop 0 :=
  ⟨valid_encodeRunes _ (by decide), ok_of_toOption _ _ (by decide), by decide⟩
/-- C13 as amended. For every valid UTF-8 string `s`, every non-empty valid
UTF-8 `delim` that does not begin with the escape rune and every set `esc`:
`delim` occurs in `s` only at byte offsets of rune indices, as an occurrence
of its runes; `IndexWithEsc(s, delim, esc)` returns the byte offset of the
leftmost occurrence of `delim` whose first rune has an even number (possibly
zero) of consecutive escape runes immediately in front of it, and `-1` when
there is no such occurrence; every occurrence in front of the returned one,
and every occurrence when `-1` is returned, has an odd number of them. -/
theorem IndexWithEsc_leftmost_unescaped (s delim : List Byte) (e : Int)
    (hs : ValidUTF8 s) (hd : ValidUTF8 delim) (hne : delim ≠ [])
    (hb : (toRunes delim).head? ≠ some e) :
    (∀ o : Nat, delim <+: s.drop o →
      ∃ p, (o : Int) = offsetOf (toRunes s) p ∧ toRunes delim <+: (toRunes s).drop p) ∧
    ((IndexWithEsc s delim (some e) = .ok (-1) ∧
        ∀ p, toRunes delim <+: (toRunes s).drop p → Odd (escRun e (toRunes s) p)) ∨
     ∃ p, IndexWithEsc s delim (some e) = .ok (offsetOf (toRunes s) p) ∧
        toRunes delim <+: (toRunes s).drop p ∧
        delim <+: s.drop (offsetOf (toRunes s) p).toNat ∧
        Even (escRun e (toRunes s) p) ∧
        ∀ q, q < p → toRunes delim <+: (toRunes s).drop q →
          Odd (escRun e (toRunes s) q)) := by
  obtain ⟨hcs, hes⟩ := valid_runes s hs
  obtain ⟨hds, hed⟩ := valid_runes delim hd
  have hdn : toRunes delim ≠ [] := toRunes_ne_nil delim hne
  obtain ⟨f1, f2⟩ := findEsc_even (toRunes delim) e hdn hb (toRunes s)
  constructor
  · intro o ho
    have := occ_sync (toRunes delim) hds hdn (toRunes s) hcs o
    rw [hes, hed] at this
    exact this ho
  · rcases IndexWithEsc_valid s delim e hs hd hne with ⟨hf, hr⟩ | ⟨p, hf, hr, hocc, _⟩
    · exact Or.inl ⟨hr, fun p hp => Nat.odd_iff.mpr (f1 hf p hp)⟩
    · obtain ⟨e1, e2⟩ := f2 p hf
      have hob := occ_bytes _ _ p hocc
      rw [hes, hed] at hob
      exact Or.inr ⟨p, hr, hocc, hob, Nat.even_iff.mpr e1,
        fun q hq ho => Nat.odd_iff.mpr (e2 q hq ho)⟩

/-- Witness of C13 as amended: the examples of the source.  In `"abc%|efg|xyz"` the
delimiter at the offset 4 is escaped and the one at 8 is returned; in
`"мир во всем /мире"` the only occurrence of `"мире"` is escaped by `/`; in
`"мир во всем ξξмире"` two escape runes `ξ` stand in front of it. -/
theorem IndexWithEsc_leftmost_unescaped_witness :
    ValidUTF8 (str "abc%|efg|xyz") ∧ ValidUTF8 (str "|") ∧ str "|" ≠ [] ∧
    (toRunes (str "|")).head? ≠ some (rune '%') ∧
    IndexWithEsc (str "abc%|efg|xyz") (str "|") (some (rune '%')) = .ok 8 ∧
    IndexWithEsc (str "мир во всем /мире") (str "мире") (some (rune '/')) = .ok (-1) ∧
    IndexWithEsc (str "мир во всем ξξмире") (str "мире") (some (rune 'ξ'))
      = .ok (len (str "мир во всем ξξ")) ∧
    (∀ o : Nat, str "|" <+: (str "abc%|efg|xyz").drop o →
      ∃ p, (o : Int) = offsetOf (toRunes (str "abc%|efg|xyz")) p ∧
        toRunes (str "|") <+: (toRunes (str "abc%|efg|xyz")).drop p) ∧
    ((IndexWithEsc (str "abc%|efg|xyz") (str "|") (some (rune '%')) = .ok (-1) ∧
        ∀ p, toRunes (str "|") <+: (toRunes (str "abc%|efg|xyz")).drop p →
          Odd (escRun (rune '%') (toRunes (str "abc%|efg|xyz")) p)) ∨
     ∃ p, IndexWithEsc (str "abc%|efg|xyz") (str "|") (some (rune '%'))
          = .ok (offsetOf (toRunes (str "abc%|efg|xyz")) p) ∧
        toRunes (str "|") <+: (toRunes (str "abc%|efg|xyz")).drop p ∧
        str "|" <+: (str "abc%|efg|xyz").drop (offsetOf (toRunes (str "abc%|efg|xyz")) p).toNat ∧
        Even (escRun (rune '%') (toRunes (str "abc%|efg|xyz")) p) ∧
        ∀ q, q < p → toRunes (str "|") <+: (toRunes (str "abc%|efg|xyz")).drop q →
          Odd (escRun (rune '%') (toRunes (str "abc%|efg|xyz")) q)) :=
  ⟨valid_encodeRunes _ (by decide), valid_encodeRunes _ (by decide), by decide, by decide,
    ok_of_toOption _ _ (by decide), ok_of_toOption _ _ (by decide),
    ok_of_toOption _ _ (by decide),
    IndexWithEsc_leftmost_unescaped (str "abc%|efg|xyz") (str "|") (rune '%')
      (valid_encodeRunes _ (by decide)) (valid_encodeRunes _ (by decide)) (by decide)
      (by decide)⟩

/-- Counterexample to C13 as stated, a `delim` that is not valid UTF-8: the byte `FF`
is a non-empty `delim` that does not begin with the escape rune `x` and does
not occur in the valid string of U+FFFD, and `IndexWithEsc` returns 0 instead
of `-1`. -/
theorem IndexWithEsc_finds_absent_delim :
    ValidUTF8 (encodeRunes [0xFFFD]) ∧ ([0xFF] : List Byte) ≠ [] ∧
    (toRunes [0xFF]).head? ≠ some (rune 'x') ∧
    (∀ o : Nat, ¬ ([0xFF] : List Byte) <+: (encodeRunes [0xFFFD]).drop o) ∧
    IndexWithEsc (encodeRunes [0xFFFD]) [0xFF] (some (rune 'x')) = .ok 0 := by
  refine ⟨valid_encodeRunes _ (by decide), by decide, by decide, ?_,
    ok_of_toOption _ _ (by decide)⟩
  intro o ho
  have hm : (0xFF : Byte) ∈ encodeRunes [0xFFFD] :=
    List.mem_of_mem_drop (ho.subset (List.mem_singleton_self _))
  revert hm
  decide
theorem unescRunes_nil (e : Int) : unescRunes e [] = [] := by
  rw [unescRunes]

theorem unescRunes_esc_last (e : Int) : unescRunes e [e] = [] := by
  rw [unescRunes]; simp

theorem unescRunes_esc (e d : Int) (rest : List Int) :
    unescRunes e (e :: d :: rest) = d :: unescRunes e rest := by
  rw [unescRunes]; simp

theorem unescRunes_other (e c : Int) (rest : List Int) (hc : c ≠ e) :
    unescRunes e (c :: rest) = c :: unescRunes e rest := by
  rw [unescRunes.eq_def]; simp [hc]

theorem sliceRunes_tail (rs : List Int) (n : Nat) (h : n ≤ rs.length) :
    sliceRunes rs (n : Int) (rs.length : Int) = .ok (rs.drop n) := by
  unfold sliceRunes
  rw [if_pos ⟨by omega, by omega, le_refl _⟩]
  simp

theorem copyRunes_shift (a r : List Int) (c : Int) :
    (a ++ (copyRunes (c :: r) r).1).take (a.length + r.length) = a ++ r ∧
    (a ++ (copyRunes (c :: r) r).1).length = a.length + r.length + 1 := by
  unfold copyRunes
  simp only [List.length_cons]
  rw [Nat.min_eq_right (by omega), List.take_of_length_le (le_refl _), ← List.append_assoc]
  constructor
  · have := List.take_left (a ++ r) (List.drop r.length (c :: r))
    rw [List.length_append] at this
    exact this
  · simp
    omega

theorem take_succ_append (a : List Int) (d : Int) (r : List Int) :
    (a ++ d :: r).take (a.length + 1) = a ++ [d] ∧ (a ++ d :: r).drop (a.length + 1) = r := by
  have e : a ++ d :: r = (a ++ [d]) ++ r := by simp
  have l : (a ++ [d]).length = a.length + 1 := by simp
  rw [e, ← l]
  exact ⟨List.take_left _ _, List.drop_left _ _⟩

theorem unescapeLoop_eq (e : Int) :
    ∀ (fuel : Nat) (rs : List Int) (n : Nat), 1 ≤ fuel → rs.length + 1 ≤ fuel + n →
      unescapeLoop e fuel rs (n : Int) = .ok (rs.take n ++ unescRunes e (rs.drop n)) := by
  intro fuel
  induction fuel with
  | zero => intro rs n h1 _; omega
  | succ fuel ih =>
    intro rs n _ hf
    rw [unescapeLoop]
    by_cases hlt : n < rs.length
    · rw [if_pos (by omega)]
      obtain ⟨c, hc2⟩ := drop_cons_of_lt rs n hlt
      rw [runeAt_drop rs n c _ hc2]
      simp only []
      have hA : (rs.take n).length = n := by rw [List.length_take]; omega
      have hR : (rs.drop (n + 1)).length = rs.length - (n + 1) := List.length_drop _ _
      by_cases hce : c = e
      · rw [if_neg (by simp [hce])]
        rw [sliceRunes_tail rs n (by omega)]
        simp only []
        have h1 := sliceRunes_tail rs (n + 1) (by omega)
        rw [Nat.cast_add, Nat.cast_one] at h1
        rw [h1]
        simp only []
        rw [Int.toNat_ofNat, hc2]
        obtain ⟨k1, k2⟩ := copyRunes_shift (rs.take n) (rs.drop (n + 1)) c
        rw [hA, hR] at k1 k2
        have hs := sliceRunes_front
          (rs.take n ++ (copyRunes (c :: rs.drop (n + 1)) (rs.drop (n + 1))).1)
          (n + (rs.length - (n + 1))) (by rw [k2]; omega)
        have hcast : ((n + (rs.length - (n + 1)) : Nat) : Int) = (rs.length : Int) - 1 := by
          omega
        rw [hcast, k1] at hs
        rw [hs]
        simp only []
        have := ih (rs.take n ++ rs.drop (n + 1)) (n + 1) (by omega)
          (by rw [List.length_append, hA, hR]; omega)
        rw [Nat.cast_add, Nat.cast_one] at this
        rw [this, hce]
        by_cases hl2 : n + 1 < rs.length
        · obtain ⟨d, hd2⟩ := drop_cons_of_lt rs (n + 1) hl2
          rw [hd2, unescRunes_esc]
          obtain ⟨t1, t2⟩ := take_succ_append (rs.take n) d (rs.drop (n + 1 + 1))
          rw [hA] at t1 t2
          rw [t1, t2, List.append_assoc]
          rfl
        · rw [List.drop_eq_nil_of_le (show rs.length ≤ n + 1 by omega), unescRunes_esc_last,
            List.append_nil, List.take_of_length_le (by omega),
            List.drop_eq_nil_of_le (by omega), unescRunes_nil, List.append_nil]
      · rw [if_pos hce]
        have := ih rs (n + 1) (by omega) (by omega)
        rw [Nat.cast_add, Nat.cast_one] at this
        rw [this, hc2, unescRunes_other e c _ hce]
        have e1 : rs.take (n + 1) = rs.take n ++ [c] := by
          have h0 : rs = rs.take n ++ c :: rs.drop (n + 1) := by
            rw [← hc2, List.take_append_drop]
          obtain ⟨t1, _⟩ := take_succ_append (rs.take n) c (rs.drop (n + 1))
          rw [hA, ← h0] at t1
          exact t1
        rw [e1, List.append_assoc]
        rfl
    · rw [if_neg (by omega)]
      rw [List.take_of_length_le (by omega), List.drop_eq_nil_of_le (by omega), unescRunes_nil]
      simp

/-- `Unescape` with a set `esc`, on the runes of `s`. -/
theorem Unescape_some (s : List Byte) (e : Int) :
    Unescape s (some e) = .ok (encodeRunes (unescRunes e (toRunes s))) := by
  unfold Unescape
  simp only []
  have := unescapeLoop_eq e ((toRunes s).length + 1) (toRunes s) 0 (by omega) (by omega)
  rw [Nat.cast_zero] at this
  rw [this]
  simp

theorem unescRunes_escapeRunes (e : Int) :
    ∀ (t : List Int) (mask : List Bool),
      unescRunes e (escapeRunes e mask t) = t ∧
      unescRunes e (escapeRunes e mask t ++ [e]) = t := by
  intro t
  induction t with
  | nil =>
    intro mask
    rw [escapeRunes]
    exact ⟨unescRunes_nil e, by rw [List.nil_append, unescRunes_esc_last]⟩
  | cons c rest ih =>
    intro mask
    obtain ⟨i1, i2⟩ := ih mask.tail
    rw [escapeRunes]
    by_cases h : c = e ∨ mask.headD false = true
    · rw [if_pos h]
      constructor
      · rw [unescRunes_esc, i1]
      · rw [List.cons_append, List.cons_append, unescRunes_esc, i2]
    · rw [if_neg h]
      have hc : c ≠ e := fun hc => h (Or.inl hc)
      constructor
      · rw [unescRunes_other e c _ hc, i1]
      · rw [List.cons_append, unescRunes_other e c _ hc, i2]

theorem unescRunes_id (e : Int) : ∀ (l : List Int), e ∉ l → unescRunes e l = l := by
  intro l
  induction l with
  | nil => intro _; exact unescRunes_nil e
  | cons c rest ih =>
    intro he
    have hc : c ≠ e := fun h => he (h ▸ List.mem_cons_self _ _)
    rw [unescRunes_other e c _ hc, ih (fun h => he (List.mem_cons_of_mem _ h))]

theorem escapeRunes_scalar (e : Int) (he : IsScalar e) :
    ∀ (t : List Int) (mask : List Bool), (∀ c ∈ t, IsScalar c) →
      ∀ c ∈ escapeRunes e mask t, IsScalar c := by
  intro t
  induction t with
  | nil => intro mask _ c hc; rw [escapeRunes] at hc; exact absurd hc (List.not_mem_nil _)
  | cons a rest ih =>
    intro mask ht c hc
    have ha := ht a (List.mem_cons_self _ _)
    have hr := ih mask.tail (fun x hx => ht x (List.mem_cons_of_mem _ hx))
    rw [escapeRunes] at hc
    by_cases h : a = e ∨ mask.headD false = true
    · rw [if_pos h] at hc
      simp only [List.mem_cons] at hc
      rcases hc with rfl | rfl | hc
      · exact he
      · exact ha
      · exact hr c hc
    · rw [if_neg h] at hc
      simp only [List.mem_cons] at hc
      rcases hc with rfl | hc
      · exact ha
      · exact hr c hc

/-- C14 as amended. For every valid UTF-8 string `t` and every escape rune
`e`: if `e` is a Unicode scalar value and `u` is obtained from `t` by
inserting `e` immediately before every occurrence of `e` in `t` and before
any further chosen runes of `t` (those marked by `mask`), then
`Unescape(u, e) = t`, also when a lone `e` is appended to `u`;
`Unescape(t, e) = t` when `e` does not occur in `t`.  For every string `s`,
`Unescape(s, nil) = s`, and `Unescape(s, e)` is the string of the runes of
`s` with each escaping escape rune removed and the rune it escapes kept. -/
theorem Unescape_escaped (t : List Byte) (e : Int) (ht : ValidUTF8 t) :
    (IsScalar e → ∀ mask : List Bool,
      Unescape (encodeRunes (escapeRunes e mask (toRunes t))) (some e) = .ok t ∧
      Unescape (encodeRunes (escapeRunes e mask (toRunes t) ++ [e])) (some e) = .ok t) ∧
    (e ∉ toRunes t → Unescape t (some e) = .ok t) ∧
    (∀ s : List Byte, Unescape s none = .ok s) ∧
    ∀ s : List Byte, Unescape s (some e) = .ok (encodeRunes (unescRunes e (toRunes s))) := by
  obtain ⟨hcs, hes⟩ := valid_runes t ht
  refine ⟨fun he mask => ?_, fun hn => ?_, fun _ => rfl, fun s => Unescape_some s e⟩
  · have hsc := escapeRunes_scalar e he (toRunes t) mask hcs
    have hsc2 : ∀ c ∈ escapeRunes e mask (toRunes t) ++ [e], IsScalar c := by
      intro c hc
      rcases List.mem_append.mp hc with h | h
      · exact hsc c h
      · rw [List.mem_singleton.mp h]; exact he
    obtain ⟨u1, u2⟩ := unescRunes_escapeRunes e (toRunes t) mask
    rw [Unescape_some, Unescape_some, toRunes_encodeRunes _ hsc, toRunes_encodeRunes _ hsc2,
      u1, u2, hes]
    exact ⟨rfl, rfl⟩
  · rw [Unescape_some, unescRunes_id e _ hn, hes]

/-- Witness of C14 as amended: the examples of the source, `"abc%|efg"` unescaped with
`%` and `"ξξabcξdξ"` unescaped with `ξ`, and the theorem at `t = "abc|efg"`. -/
theorem Unescape_escaped_witness :
    ValidUTF8 (str "abc|efg") ∧
    Unescape (str "abc%|efg") (some (rune '%')) = .ok (str "abc|efg") ∧
    Unescape (str "ξξabcξdξ") (some (rune 'ξ')) = .ok (str "ξabcd") ∧
    escapeRunes (rune '%') [false, false, false, true] (toRunes (str "abc|efg"))
      = toRunes (str "abc%|efg") ∧
    (IsScalar (rune '%') → ∀ mask : List Bool,
      Unescape (encodeRunes (escapeRunes (rune '%') mask (toRunes (str "abc|efg"))))
        (some (rune '%')) = .ok (str "abc|efg") ∧
      Unescape (encodeRunes (escapeRunes (rune '%') mask (toRunes (str "abc|efg")) ++ [rune '%']))
        (some (rune '%')) = .ok (str "abc|efg")) ∧
    (rune '%' ∉ toRunes (str "abc|efg") →
      Unescape (str "abc|efg") (some (rune '%')) = .ok (str "abc|efg")) ∧
    (∀ s : List Byte, Unescape s none = .ok s) ∧
    ∀ s : List Byte, Unescape s (some (rune '%'))
      = .ok (encodeRunes (unescRunes (rune '%') (toRunes s))) :=
  ⟨valid_encodeRunes _ (by decide), ok_of_toOption _ _ (by decide),
    ok_of_toOption _ _ (by decide), by decide,
    Unescape_escaped (str "abc|efg") (rune '%') (valid_encodeRunes _ (by decide))⟩

/-- Counterexample to C14 as stated, a string that is not valid UTF-8: the escape rune
`%` does not occur in the string of the one byte `FF`, nothing is inserted,
and `Unescape` returns the three bytes of U+FFFD instead of the string. -/
theorem Unescape_changes_invalid :
    rune '%' ∉ toRunes [0xFF] ∧
    encodeRunes (escapeRunes (rune '%') [] (toRunes [0xFF])) = encodeRunes (toRunes [0xFF]) ∧
    Unescape [0xFF] (some (rune '%')) = .ok [0xEF, 0xBF, 0xBD] ∧
    ([0xEF, 0xBF, 0xBD] : List Byte) ≠ [0xFF] :=
  ⟨by decide, by decide, ok_of_toOption _ _ (by decide), by decide⟩
theorem stringsJoin_single (x sep : List Byte) : stringsJoin [x] sep = x := by
  simp [stringsJoin, List.intercalate, List.intersperse]

theorem stringsJoin_cons (x : List Byte) (l : List (List Byte)) (sep : List Byte)
    (hl : l ≠ []) : stringsJoin (x :: l) sep = x ++ sep ++ stringsJoin l sep := by
  obtain ⟨y, t, rfl⟩ := List.exists_cons_of_ne_nil hl
  simp [stringsJoin, List.intercalate, List.intersperse]

theorem splitFrom_skip (sep : List Byte) (k : Nat) (cur l : List Byte) :
    splitFrom sep k cur l = splitFrom sep 0 cur (l.drop k) := by
  induction l generalizing k with
  | nil => cases k <;> simp [splitFrom]
  | cons x t ih =>
    cases k with
    | zero => simp
    | succ k => simp only [splitFrom, List.drop_succ_cons]; exact ih k

theorem Index_lt_zero_iff (s sep : List Byte) : Index s sep < 0 ↔ Index s sep = -1 := by
  have := Index_ge s sep
  omega

/-- The pieces of `strings.Split` by the first instance that `strings.Index`
finds. -/
theorem splitFrom_unfold (sep : List Byte) (hne : sep ≠ []) :
    ∀ (s cur : List Byte),
      splitFrom sep 0 cur s
        = if Index s sep < 0 then [cur ++ s]
          else (cur ++ s.take (Index s sep).toNat)
            :: splitFrom sep 0 [] (s.drop ((Index s sep).toNat + sep.length)) := by
  have hnp : sep.isPrefixOf [] = false := by
    cases sep with
    | nil => exact absurd rfl hne
    | cons a b => rfl
  have hpos : 0 < sep.length := List.length_pos.mpr hne
  intro s
  induction s with
  | nil =>
    intro cur
    simp [splitFrom, Index, hnp]
  | cons x t ih =>
    intro cur
    rw [splitFrom, Index]
    cases hp : sep.isPrefixOf (x :: t) with
    | true =>
      simp only [if_true]
      rw [if_neg (by omega), splitFrom_skip]
      simp only [Int.toNat_zero, List.take_zero, List.append_nil, Nat.zero_add]
      obtain ⟨m, hm⟩ : ∃ m, sep.length = m + 1 := ⟨sep.length - 1, by omega⟩
      rw [hm, List.drop_succ_cons]
      simp
    | false =>
      simp only [Bool.false_eq_true, if_false]
      rw [ih (cur ++ [x])]
      by_cases hneg : Index t sep < 0
      · rw [if_pos hneg, if_pos hneg, if_pos (by omega)]
        simp
      · rw [if_neg hneg, if_neg hneg, if_neg (by
          have := Index_ge t sep
          omega)]
        obtain ⟨i, hi⟩ := Int.eq_ofNat_of_zero_le (show 0 ≤ Index t sep by omega)
        rw [hi]
        have e1 : ((i : Int) + 1).toNat = i + 1 := by omega
        rw [e1, Int.toNat_ofNat, List.take_succ_cons, Nat.add_right_comm, List.drop_succ_cons]
        simp

theorem splitFrom_ne_nil (sep : List Byte) (hne : sep ≠ []) (s cur : List Byte) :
    splitFrom sep 0 cur s ≠ [] := by
  rw [splitFrom_unfold sep hne]
  split <;> exact List.cons_ne_nil _ _

/-- The pieces of `strings.Split`, joined with the separator, are the string. -/
theorem splitFrom_join (sep : List Byte) (hne : sep ≠ []) :
    ∀ (n : Nat) (s cur : List Byte), s.length ≤ n →
      stringsJoin (splitFrom sep 0 cur s) sep = cur ++ s := by
  have hpos : 0 < sep.length := List.length_pos.mpr hne
  intro n
  induction n with
  | zero =>
    intro s cur hs
    have : s = [] := List.length_eq_zero.mp (by omega)
    subst this
    rw [splitFrom, stringsJoin_single, List.append_nil]
  | succ n ih =>
    intro s cur hs
    rw [splitFrom_unfold sep hne]
    by_cases hneg : Index s sep < 0
    · rw [if_pos hneg, stringsJoin_single]
    · rw [if_neg hneg, stringsJoin_cons _ _ _ (splitFrom_ne_nil sep hne _ _)]
      obtain ⟨i, hi, hocc, _⟩ := Index_found s sep (by omega)
      rw [hi, Int.toNat_ofNat]
      have hb := occ_drop_bound sep s i hocc hne
      rw [ih _ [] (by rw [List.length_drop]; omega), List.nil_append]
      have := occ_drop_split sep s i hocc
      rw [List.append_assoc, List.append_assoc, ← List.append_assoc (s.take i), ← this]

theorem runes_length_le (cs : List Int) : cs.length ≤ (encodeRunes cs).length := by
  induction cs with
  | nil => simp
  | cons c cs ih =>
    rw [encodeRunes_cons, List.length_append, List.length_cons]
    have := (encodeRune_length c).1
    omega

theorem scalars_take (cs : List Int) (h : ∀ c ∈ cs, IsScalar c) (p : Nat) :
    ∀ c ∈ cs.take p, IsScalar c := fun c hc => h c (List.mem_of_mem_take hc)

theorem scalars_drop (cs : List Int) (h : ∀ c ∈ cs, IsScalar c) (p : Nat) :
    ∀ c ∈ cs.drop p, IsScalar c := fun c hc => h c (List.mem_of_mem_drop hc)

/-- One iteration of the loop of `SplitWithEsc` on valid strings. -/
theorem splitLoop_step (cs ds : List Int) (e : Int) (hcs : ∀ c ∈ cs, IsScalar c)
    (hds : ∀ c ∈ ds, IsScalar c) (hne : ds ≠ []) (fuel : Nat) (split : List (List Byte)) :
    (findEsc ds e cs = none →
      splitLoop (encodeRunes ds) (some e) (fuel + 1) (encodeRunes cs) split
        = .ok (split ++ [encodeRunes cs])) ∧
    (∀ p, findEsc ds e cs = some p →
      splitLoop (encodeRunes ds) (some e) (fuel + 1) (encodeRunes cs) split
        = splitLoop (encodeRunes ds) (some e) fuel (encodeRunes (cs.drop (p + ds.length)))
            (split ++ [encodeRunes (cs.take p)])) := by
  have hdn : encodeRunes ds ≠ [] := fun h => hne (encodeRunes_eq_nil ds h)
  have hI := IndexWithEsc_some (encodeRunes cs) (encodeRunes ds) e hdn
  rw [toRunes_encodeRunes cs hcs, toRunes_encodeRunes ds hds] at hI
  constructor
  · intro hf
    rw [hf] at hI
    rw [splitLoop, hI]
    simp only []
    rw [if_neg (by omega)]
  · intro p hf
    rw [hf] at hI
    rw [splitLoop, hI]
    simp only []
    have hn := offsetOf_nonneg cs p
    rw [if_pos hn]
    have hsp := occ_bytes_split ds cs p (findEsc_occ ds e cs p hf)
    have hl : len (encodeRunes cs)
        = offsetOf cs p + len (encodeRunes ds) + len (encodeRunes (cs.drop (p + ds.length))) := by
      rw [offsetOf_eq]
      unfold len
      have := congrArg List.length hsp
      simp only [List.length_append] at this
      omega
    have hd0 := len_nonneg (encodeRunes ds)
    have hr0 := len_nonneg (encodeRunes (cs.drop (p + ds.length)))
    rw [slice_ok_int _ 0 (offsetOf cs p) (le_refl _) hn (by omega)]
    simp only []
    rw [slice_ok_int _ (offsetOf cs p + len (encodeRunes ds)) (len (encodeRunes cs)) (by omega)
      (by omega) (le_refl _)]
    simp only []
    have e1 : ((encodeRunes cs).drop (0 : Int).toNat).take (offsetOf cs p - 0).toNat
        = encodeRunes (cs.take p) := by
      rw [offsetOf_eq]
      simp only [Int.toNat_zero, List.drop_zero, sub_zero, Int.toNat_ofNat]
      rw [hsp, List.append_assoc, List.take_left]
    have e2 : ((encodeRunes cs).drop (offsetOf cs p + len (encodeRunes ds)).toNat).take
          (len (encodeRunes cs) - (offsetOf cs p + len (encodeRunes ds))).toNat
        = encodeRunes (cs.drop (p + ds.length)) := by
      have a1 : (offsetOf cs p + len (encodeRunes ds)).toNat
          = (encodeRunes (cs.take p) ++ encodeRunes ds).length := by
        rw [offsetOf_eq]
        unfold len
        rw [List.length_append]
        omega
      have a2 : (len (encodeRunes cs) - (offsetOf cs p + len (encodeRunes ds))).toNat
          = (encodeRunes (cs.drop (p + ds.length))).length := by
        rw [hl]
        unfold len
        omega
      rw [a1, a2]
      nth_rewrite 1 [hsp]
      rw [List.drop_left, List.take_of_length_le (le_refl _)]
    rw [e1, e2]
theorem Index_empty_sep (s : List Byte) : Index s [] = 0 := by
  have h1 := IndexWithEsc_none s []
  rw [IndexWithEsc_empty_delim] at h1
  exact (Except.ok.inj h1).symm

theorem occ_lt_length (ds cs : List Int) (hne : ds ≠ []) (p : Nat) (h : ds <+: cs.drop p) :
    p < cs.length := by
  by_contra hc
  rw [List.drop_eq_nil_of_le (by omega)] at h
  exact hne (List.prefix_nil.mp h)

/-- Without the escape rune in a valid `s`, `IndexWithEsc` with a set `esc`
and a valid `delim` is `strings.Index`. -/
theorem IndexWithEsc_plain (s delim : List Byte) (e : Int) (hs : ValidUTF8 s)
    (hd : ValidUTF8 delim) (he : e ∉ toRunes s) :
    IndexWithEsc s delim (some e) = .ok (Index s delim) := by
  by_cases hne : delim = []
  · subst hne
    rw [IndexWithEsc_empty_delim, Index_empty_sep]
  · obtain ⟨hcs, hes⟩ := valid_runes s hs
    obtain ⟨hds, hed⟩ := valid_runes delim hd
    have hdn : toRunes delim ≠ [] := toRunes_ne_nil delim hne
    obtain ⟨p1, p2⟩ := findEsc_plain (toRunes delim) e (toRunes s) he
    have hsync := occ_sync (toRunes delim) hds hdn (toRunes s) hcs
    rw [hes, hed] at hsync
    have hge := Index_ge s delim
    rcases IndexWithEsc_valid s delim e hs hd hne with ⟨hf, hr⟩ | ⟨p, hf, hr, hocc, _⟩
    · rw [hr]
      by_cases hneg : Index s delim < 0
      · have : Index s delim = -1 := by omega
        rw [this]
      · exfalso
        obtain ⟨i, _, hio, _⟩ := Index_found s delim (by omega)
        obtain ⟨q, _, hq⟩ := hsync i hio
        exact p1 hf q (occ_lt_length _ _ hdn q hq) hq
    · rw [hr]
      have hob := occ_bytes _ _ p hocc
      rw [hes, hed] at hob
      have hn := offsetOf_nonneg (toRunes s) p
      by_cases hneg : Index s delim < 0
      · exact absurd hob (Index_neg s delim hneg _)
      · obtain ⟨i, hi, hio, hleft⟩ := Index_found s delim (by omega)
        obtain ⟨q, hq1, hq2⟩ := hsync i hio
        have hpq : p ≤ q := by
          by_contra hc
          exact p2 p hf q (by omega) hq2
        have h1 := offsetOf_mono (toRunes s) p q hpq
        have h2 : ¬ (offsetOf (toRunes s) p).toNat < i := fun hc => hleft _ hc hob
        rw [hi]
        congr 1
        omega

/-- The loop of `SplitWithEsc` on valid strings: its pieces. -/
theorem splitLoop_spec (ds : List Int) (e : Int) (hds : ∀ c ∈ ds, IsScalar c) (hne : ds ≠ []) :
    ∀ (n : Nat) (cs : List Int), cs.length ≤ n → (∀ c ∈ cs, IsScalar c) →
      ∃ pieces : List (List Byte),
        (∀ fuel split, cs.length + 1 ≤ fuel →
          splitLoop (encodeRunes ds) (some e) fuel (encodeRunes cs) split
            = .ok (split ++ pieces)) ∧
        pieces ≠ [] ∧
        stringsJoin pieces (encodeRunes ds) = encodeRunes cs ∧
        (∀ piece ∈ pieces, ValidUTF8 piece ∧
          IndexWithEsc piece (encodeRunes ds) (some e) = .ok (-1)) ∧
        (pieces = [encodeRunes cs] ↔ findEsc ds e cs = none) ∧
        (e ∉ cs → pieces = splitFrom (encodeRunes ds) 0 [] (encodeRunes cs)) := by
  have hdn : encodeRunes ds ≠ [] := fun h => hne (encodeRunes_eq_nil ds h)
  have hdv : ValidUTF8 (encodeRunes ds) := valid_encodeRunes ds hds
  have hpos : 0 < ds.length := List.length_pos.mpr hne
  have hminus : ∀ (cs : List Int), (∀ c ∈ cs, IsScalar c) → findEsc ds e cs = none →
      IndexWithEsc (encodeRunes cs) (encodeRunes ds) (some e) = .ok (-1) := by
    intro cs hcs hf
    rw [IndexWithEsc_some _ _ e hdn, toRunes_encodeRunes cs hcs, toRunes_encodeRunes ds hds, hf]
  have hnone : ∀ (cs : List Int), (∀ c ∈ cs, IsScalar c) → findEsc ds e cs = none →
      ∃ pieces : List (List Byte),
        (∀ fuel split, cs.length + 1 ≤ fuel →
          splitLoop (encodeRunes ds) (some e) fuel (encodeRunes cs) split
            = .ok (split ++ pieces)) ∧
        pieces ≠ [] ∧
        stringsJoin pieces (encodeRunes ds) = encodeRunes cs ∧
        (∀ piece ∈ pieces, ValidUTF8 piece ∧
          IndexWithEsc piece (encodeRunes ds) (some e) = .ok (-1)) ∧
        (pieces = [encodeRunes cs] ↔ findEsc ds e cs = none) ∧
        (e ∉ cs → pieces = splitFrom (encodeRunes ds) 0 [] (encodeRunes cs)) := by
    intro cs hcs hf
    refine ⟨[encodeRunes cs], ?_, List.cons_ne_nil _ _, stringsJoin_single _ _, ?_,
      ⟨fun _ => hf, fun _ => rfl⟩, ?_⟩
    · intro fuel split hfu
      obtain ⟨f, rfl⟩ : ∃ f, fuel = f + 1 := ⟨fuel - 1, by omega⟩
      exact (splitLoop_step cs ds e hcs hds hne f split).1 hf
    · intro piece hp
      rw [List.mem_singleton.mp hp]
      exact ⟨valid_encodeRunes cs hcs, hminus cs hcs hf⟩
    · intro he
      have h1 := IndexWithEsc_plain (encodeRunes cs) (encodeRunes ds) e
        (valid_encodeRunes cs hcs) hdv (by rw [toRunes_encodeRunes cs hcs]; exact he)
      rw [hminus cs hcs hf] at h1
      have h2 : Index (encodeRunes cs) (encodeRunes ds) = -1 := (Except.ok.inj h1).symm
      rw [splitFrom_unfold _ hdn, if_pos (by omega), List.nil_append]
  intro n
  induction n with
  | zero =>
    intro cs hl hcs
    have : cs = [] := List.length_eq_zero.mp (by omega)
    subst this
    exact hnone [] hcs (findEsc_nil ds e)
  | succ n ih =>
    intro cs hl hcs
    cases hf : findEsc ds e cs with
    | none =>
      have := hnone cs hcs hf
      rw [hf] at this
      exact this
    | some p =>
      have hocc := findEsc_occ ds e cs p hf
      have hlen : p + ds.length ≤ cs.length := by
        have := hocc.length_le
        rw [List.length_drop] at this
        have := occ_lt_length ds cs hne p hocc
        omega
      have hrl : (cs.drop (p + ds.length)).length ≤ n := by
        rw [List.length_drop]
        omega
      have hrs := scalars_drop cs hcs (p + ds.length)
      obtain ⟨rest, r1, r2, r3, r4, _, r6⟩ := ih (cs.drop (p + ds.length)) hrl hrs
      have hsp := occ_bytes_split ds cs p hocc
      have hI : IndexWithEsc (encodeRunes cs) (encodeRunes ds) (some e)
          = .ok (offsetOf cs p) := by
        rw [IndexWithEsc_some _ _ e hdn, toRunes_encodeRunes cs hcs, toRunes_encodeRunes ds hds,
          hf]
      refine ⟨encodeRunes (cs.take p) :: rest, ?_, List.cons_ne_nil _ _, ?_, ?_, ?_, ?_⟩
      · intro fuel split hfu
        obtain ⟨f, rfl⟩ : ∃ f, fuel = f + 1 := ⟨fuel - 1, by omega⟩
        rw [(splitLoop_step cs ds e hcs hds hne f split).2 p hf,
          r1 f _ (by rw [List.length_drop]; omega), List.append_assoc]
        rfl
      · rw [stringsJoin_cons _ _ _ r2, r3, ← hsp]
      · intro piece hp
        rcases List.mem_cons.mp hp with h | h
        · rw [h]
          exact ⟨valid_encodeRunes _ (scalars_take cs hcs p),
            hminus _ (scalars_take cs hcs p) (findEsc_take ds e cs p hf)⟩
        · exact r4 piece h
      · constructor
        · intro h
          have := congrArg List.length h
          obtain ⟨y, t, hyt⟩ := List.exists_cons_of_ne_nil r2
          rw [hyt] at this
          simp at this
        · intro h
          exact Option.noConfusion h
      · intro he
        have h1 := IndexWithEsc_plain (encodeRunes cs) (encodeRunes ds) e
          (valid_encodeRunes cs hcs) hdv (by rw [toRunes_encodeRunes cs hcs]; exact he)
        rw [hI] at h1
        have h2 : Index (encodeRunes cs) (encodeRunes ds) = offsetOf cs p :=
          (Except.ok.inj h1).symm
        have hn := offsetOf_nonneg cs p
        have t1 : (encodeRunes cs).take (encodeRunes (cs.take p)).length
            = encodeRunes (cs.take p) := by
          conv_lhs => rw [hsp, List.append_assoc]
          exact List.take_left _ _
        have t2 : (encodeRunes cs).drop
              ((encodeRunes (cs.take p)).length + (encodeRunes ds).length)
            = encodeRunes (cs.drop (p + ds.length)) := by
          conv_lhs => rw [hsp]
          rw [← List.length_append]
          exact List.drop_left _ _
        rw [r6 (fun h => he (List.mem_of_mem_drop h)), splitFrom_unfold _ hdn (encodeRunes cs),
          if_neg (by omega), h2, offsetOf_eq, Int.toNat_ofNat, List.nil_append, t1, t2]
theorem error_of_check {ε α : Type} (x : Except ε α) (f : ε)
    (h : (match x with | .error g => some g | .ok _ => none) = some f) : x = .error f := by
  cases x with
  | error g =>
    simp only [Option.some.injEq] at h
    rw [h]
  | ok a => exact Option.noConfusion h

theorem explodeFrom_skip (k : Nat) (l : List Byte) :
    explodeFrom k l = explodeFrom 0 (l.drop k) := by
  induction l generalizing k with
  | nil => cases k <;> simp [explodeFrom]
  | cons x t ih =>
    cases k with
    | zero => simp
    | succ k => simp only [explodeFrom, List.drop_succ_cons]; exact ih k

/-- The pieces of `strings.Split` with an empty separator, on a valid string:
the encodings of its runes. -/
theorem explodeFrom_valid (cs : List Int) (hcs : ∀ c ∈ cs, IsScalar c) :
    explodeFrom 0 (encodeRunes cs) = cs.map encodeRune := by
  induction cs with
  | nil => rw [encodeRunes_nil, explodeFrom]; rfl
  | cons c cs ih =>
    have hc := hcs c (List.mem_cons_self _ _)
    have hd := decodeRune_encodeRune c hc (encodeRunes cs)
    rw [encodeRunes_cons]
    obtain ⟨b, t, hbt⟩ := List.exists_cons_of_ne_nil (encodeRune_ne_nil c)
    rw [hbt] at hd ⊢
    rw [List.cons_append] at hd ⊢
    have e1 : List.take (b :: t).length (b :: (t ++ encodeRunes cs)) = b :: t := by
      rw [← List.cons_append]
      exact List.take_left _ _
    have e2 : List.drop ((b :: t).length - 1) (t ++ encodeRunes cs) = encodeRunes cs := by
      simp only [List.length_cons, Nat.add_sub_cancel]
      exact List.drop_left _ _
    rw [explodeFrom, hd, explodeFrom_skip, List.map_cons, hbt,
      ← ih (fun x hx => hcs x (List.mem_cons_of_mem _ hx))]
    simp only []
    rw [e1, e2]

theorem stringsJoin_empty_sep (l : List (List Byte)) : stringsJoin l [] = l.flatten := by
  induction l with
  | nil => rfl
  | cons x l ih =>
    by_cases hl : l = []
    · subst hl
      rw [stringsJoin_single]
      simp
    · rw [stringsJoin_cons x l [] hl, ih]
      simp

theorem flatten_map_encodeRune (cs : List Int) : (cs.map encodeRune).flatten = encodeRunes cs := by
  unfold encodeRunes
  rw [List.flatMap_def]

/-- The function `SplitWithEsc` on valid strings with a set `esc` and a
non-empty `delim`. -/
theorem SplitWithEsc_valid (s delim : List Byte) (e : Int) (hs : ValidUTF8 s)
    (hd : ValidUTF8 delim) (hne : delim ≠ []) :
    ∃ pieces : List (List Byte),
      (∀ fuel, s.length + 1 ≤ fuel → SplitWithEsc fuel s delim (some e) = .ok pieces) ∧
      pieces ≠ [] ∧
      stringsJoin pieces delim = s ∧
      (∀ piece ∈ pieces, ValidUTF8 piece ∧ IndexWithEsc piece delim (some e) = .ok (-1)) ∧
      (pieces = [s] ↔ IndexWithEsc s delim (some e) = .ok (-1)) ∧
      (e ∉ toRunes s → pieces = stringsSplit s delim) := by
  obtain ⟨hcs, hes⟩ := valid_runes s hs
  obtain ⟨hds, hed⟩ := valid_runes delim hd
  have hdn : toRunes delim ≠ [] := toRunes_ne_nil delim hne
  obtain ⟨pieces, p1, p2, p3, p4, p5, p6⟩ :=
    splitLoop_spec (toRunes delim) e hds hdn (toRunes s).length (toRunes s) (le_refl _) hcs
  rw [hes, hed] at p1 p3 p6
  rw [hed] at p4
  rw [hes] at p5
  have hlen : (toRunes s).length ≤ s.length := by
    have := runes_length_le (toRunes s)
    rw [hes] at this
    exact this
  refine ⟨pieces, ?_, p2, p3, p4, ?_, ?_⟩
  · intro fuel hf
    unfold SplitWithEsc
    have h1 : ¬ (len delim = 0 ∨ (some e : Option Int) = none) := by
      intro h
      rcases h with h | h
      · exact hne ((len_eq_zero_iff delim).mp h)
      · exact Option.noConfusion h
    rw [if_neg h1, p1 fuel [] (by omega), List.nil_append]
  · rw [p5]
    rcases IndexWithEsc_valid s delim e hs hd hne with ⟨hf, hr⟩ | ⟨p, hf, hr, _, _⟩
    · exact ⟨fun _ => hr, fun _ => hf⟩
    · constructor
      · intro h
        rw [hf] at h
        exact Option.noConfusion h
      · intro h
        rw [hr] at h
        have := Except.ok.inj h
        have := offsetOf_nonneg (toRunes s) p
        omega
  · intro he
    rw [p6 he]
    unfold stringsSplit
    rw [if_neg hne]

/-- C15 as amended. For all strings `s` and `delim` and every `esc` such that
either `esc` is nil and `delim` is not empty, or `s` and `delim` are both
valid UTF-8: `SplitWithEsc(s, delim, esc)` returns, the returned pieces joined
with `delim` give back `s` (`strings.Join(SplitWithEsc(s, delim, esc), delim)
= s`), and when `delim` is not empty there is at least one piece. -/
theorem SplitWithEsc_join (s delim : List Byte) (esc : Option Int)
    (h : (esc = none ∧ delim ≠ []) ∨ (ValidUTF8 s ∧ ValidUTF8 delim)) :
    ∃ pieces : List (List Byte),
      (∀ fuel, s.length + 1 ≤ fuel → SplitWithEsc fuel s delim esc = .ok pieces) ∧
      stringsJoin pieces delim = s ∧
      (delim ≠ [] → pieces ≠ []) := by
  by_cases hne : delim = []
  · subst hne
    rcases h with ⟨_, h⟩ | ⟨hs, _⟩
    · exact absurd rfl h
    · obtain ⟨hcs, hes⟩ := valid_runes s hs
      refine ⟨stringsSplit s [], fun fuel _ => ?_, ?_, fun hc => absurd rfl hc⟩
      · unfold SplitWithEsc
        rw [if_pos (Or.inl (show len ([] : List Byte) = 0 from rfl))]
      · unfold stringsSplit
        rw [if_pos rfl, stringsJoin_empty_sep]
        nth_rewrite 1 [← hes]
        rw [explodeFrom_valid _ hcs, flatten_map_encodeRune, hes]
  · cases esc with
    | none =>
      refine ⟨stringsSplit s delim, fun fuel _ => ?_, ?_, fun _ => ?_⟩
      · unfold SplitWithEsc
        rw [if_pos (Or.inr rfl)]
      · unfold stringsSplit
        rw [if_neg hne, splitFrom_join delim hne s.length s [] (le_refl _), List.nil_append]
      · unfold stringsSplit
        rw [if_neg hne]
        exact splitFrom_ne_nil delim hne s []
    | some e =>
      rcases h with ⟨h, _⟩ | ⟨hs, hd⟩
      · exact Option.noConfusion h
      · obtain ⟨pieces, p1, p2, p3, _⟩ := SplitWithEsc_valid s delim e hs hd hne
        exact ⟨pieces, p1, p3, fun _ => p2⟩

/-- Witness of C15 as amended: the example of the source, `"a*bc/*d*efg"` split at `"*"`
with the escape rune `/`. -/
theorem SplitWithEsc_join_witness :
    ValidUTF8 (str "a*bc/*d*efg") ∧ ValidUTF8 (str "*") ∧
    SplitWithEsc 12 (str "a*bc/*d*efg") (str "*") (some (rune '/'))
      = .ok [str "a", str "bc/*d", str "efg"] ∧
    stringsJoin [str "a", str "bc/*d", str "efg"] (str "*") = str "a*bc/*d*efg" ∧
    ∃ pieces : List (List Byte),
      (∀ fuel, (str "a*bc/*d*efg").length + 1 ≤ fuel →
        SplitWithEsc fuel (str "a*bc/*d*efg") (str "*") (some (rune '/')) = .ok pieces) ∧
      stringsJoin pieces (str "*") = str "a*bc/*d*efg" ∧
      (str "*" ≠ [] → pieces ≠ []) :=
  ⟨valid_encodeRunes _ (by decide), valid_encodeRunes _ (by decide),
    ok_of_toOption _ _ (by decide), by decide,
    SplitWithEsc_join (str "a*bc/*d*efg") (str "*") (some (rune '/'))
      (Or.inr ⟨valid_encodeRunes _ (by decide), valid_encodeRunes _ (by decide)⟩)⟩

/-- Counterexample to C15 as stated, strings that are not valid UTF-8.  On the string
of the byte `FF` and `"|"`, with the delimiter `"|"` and the escape rune `%`,
`IndexWithEsc` returns 3 and the slice expression `s[:3]` of line 63 is out of
range on the two bytes of `s`: `SplitWithEsc` returns no pieces.  On the valid
string `"a\uFFFDb"` with the delimiter of the one byte `FF`, `SplitWithEsc`
returns four pieces that join to a different string. -/
theorem SplitWithEsc_join_invalid :
    IndexWithEsc ([0xFF] ++ str "|") (str "|") (some (rune '%')) = .ok 3 ∧
    len ([0xFF] ++ str "|") = 2 ∧
    SplitWithEsc 10 ([0xFF] ++ str "|") (str "|") (some (rune '%'))
      = .error .sliceOutOfRange ∧
    ValidUTF8 (encodeRunes [rune 'a', 0xFFFD, rune 'b']) ∧
    SplitWithEsc 10 (encodeRunes [rune 'a', 0xFFFD, rune 'b']) [0xFF] (some (rune '%'))
      = .ok [str "a", [], [], str "b"] ∧
    stringsJoin [str "a", [], [], str "b"] [0xFF] ≠ encodeRunes [rune 'a', 0xFFFD, rune 'b'] :=
  ⟨ok_of_toOption _ _ (by decide), by decide, error_of_check _ _ (by decide),
    valid_encodeRunes _ (by decide), ok_of_toOption _ _ (by decide), by decide⟩

/-- C17. If `esc` is nil, or `esc` is set and the escape rune does not occur
in `s`, then for all valid UTF-8 strings `s` and `delim`,
`IndexWithEsc(s, delim, esc)` equals `strings.Index(s, delim)`, which is 0
for an empty `delim`, `-1` if `delim` is absent from `s`, and the byte offset
of the first occurrence of `delim` otherwise, and `SplitWithEsc(s, delim,
esc)` returns and equals `strings.Split(s, delim)`. -/
theorem IndexWithEsc_eq_Index (s delim : List Byte) (esc : Option Int)
    (hs : ValidUTF8 s) (hd : ValidUTF8 delim) (he : ∀ e, esc = some e → e ∉ toRunes s) :
    IndexWithEsc s delim esc = .ok (Index s delim) ∧
    (∀ fuel, s.length + 1 ≤ fuel →
      SplitWithEsc fuel s delim esc = .ok (stringsSplit s delim)) ∧
    (delim = [] → Index s delim = 0) ∧
    ((Index s delim = -1 ∧ ∀ j, ¬ delim <+: s.drop j) ∨
      ∃ i : Nat, Index s delim = (i : Int) ∧ delim <+: s.drop i ∧
        ∀ j, j < i → ¬ delim <+: s.drop j) := by
  refine ⟨?_, ?_, fun h => by rw [h]; exact Index_empty_sep s, ?_⟩
  · cases esc with
    | none => exact IndexWithEsc_none s delim
    | some e => exact IndexWithEsc_plain s delim e hs hd (he e rfl)
  · intro fuel hf
    cases esc with
    | none =>
      unfold SplitWithEsc
      rw [if_pos (Or.inr rfl)]
    | some e =>
      by_cases hne : delim = []
      · subst hne
        unfold SplitWithEsc
        rw [if_pos (Or.inl (show len ([] : List Byte) = 0 from rfl))]
      · obtain ⟨pieces, p1, _, _, _, _, p6⟩ := SplitWithEsc_valid s delim e hs hd hne
        rw [p1 fuel hf, p6 (he e rfl)]
  · have hge := Index_ge s delim
    by_cases hneg : Index s delim < 0
    · exact Or.inl ⟨by omega, fun j => Index_neg s delim hneg j⟩
    · exact Or.inr (Index_found s delim (by omega))

/-- Witness of C17: `"abc"` and `"bc"` with the escape rune `%`, which does
not occur in `"abc"`. -/
theorem IndexWithEsc_eq_Index_witness :
    ValidUTF8 (str "abc") ∧ ValidUTF8 (str "bc") ∧ rune '%' ∉ toRunes (str "abc") ∧
    Index (str "abc") (str "bc") = 1 ∧
    stringsSplit (str "abc") (str "bc") = [str "a", []] ∧
    IndexWithEsc (str "abc") (str "bc") (some (rune '%')) = .ok (Index (str "abc") (str "bc")) ∧
    (∀ fuel, (str "abc").length + 1 ≤ fuel →
      SplitWithEsc fuel (str "abc") (str "bc") (some (rune '%'))
        = .ok (stringsSplit (str "abc") (str "bc"))) ∧
    (str "bc" = [] → Index (str "abc") (str "bc") = 0) ∧
    ((Index (str "abc") (str "bc") = -1 ∧ ∀ j, ¬ str "bc" <+: (str "abc").drop j) ∨
      ∃ i : Nat, Index (str "abc") (str "bc") = (i : Int) ∧ str "bc" <+: (str "abc").drop i ∧
        ∀ j, j < i → ¬ str "bc" <+: (str "abc").drop j) :=
  ⟨valid_encodeRunes _ (by decide), valid_encodeRunes _ (by decide), by decide, by decide,
    by decide,
    IndexWithEsc_eq_Index (str "abc") (str "bc") (some (rune '%'))
      (valid_encodeRunes _ (by decide)) (valid_encodeRunes _ (by decide))
      (fun e h => by
        cases h
        decide)⟩

/-- C20 as amended. For every valid UTF-8 string `s`, every non-empty valid
UTF-8 `delim` and every set `esc`, `SplitWithEsc` returns, within
`len(s) + 1` iterations of its loop, and no piece it returns contains an
unescaped delimiter: `IndexWithEsc(piece, delim, esc) = -1` for every
returned piece; the result is the single piece `[s]` exactly when
`IndexWithEsc(s, delim, esc) = -1`. -/
theorem SplitWithEsc_pieces (s delim : List Byte) (e : Int) (hs : ValidUTF8 s)
    (hd : ValidUTF8 delim) (hne : delim ≠ []) :
    ∃ pieces : List (List Byte),
      (∀ fuel, s.length + 1 ≤ fuel → SplitWithEsc fuel s delim (some e) = .ok pieces) ∧
      (∀ piece ∈ pieces, IndexWithEsc piece delim (some e) = .ok (-1)) ∧
      (pieces = [s] ↔ IndexWithEsc s delim (some e) = .ok (-1)) := by
  obtain ⟨pieces, p1, _, _, p4, p5, _⟩ := SplitWithEsc_valid s delim e hs hd hne
  exact ⟨pieces, p1, fun piece hp => (p4 piece hp).2, p5⟩

/-- Witness of C20 as amended: the example of the source, `"?xyz"` with the delimiter
`"xyz"` and the escape rune `?`, which is returned as one piece. -/
theorem SplitWithEsc_pieces_witness :
    ValidUTF8 (str "?xyz") ∧ ValidUTF8 (str "xyz") ∧ str "xyz" ≠ [] ∧
    SplitWithEsc 5 (str "?xyz") (str "xyz") (some (rune '?')) = .ok [str "?xyz"] ∧
    ∃ pieces : List (List Byte),
      (∀ fuel, (str "?xyz").length + 1 ≤ fuel →
        SplitWithEsc fuel (str "?xyz") (str "xyz") (some (rune '?')) = .ok pieces) ∧
      (∀ piece ∈ pieces, IndexWithEsc piece (str "xyz") (some (rune '?')) = .ok (-1)) ∧
      (pieces = [str "?xyz"] ↔
        IndexWithEsc (str "?xyz") (str "xyz") (some (rune '?')) = .ok (-1)) :=
  ⟨valid_encodeRunes _ (by decide), valid_encodeRunes _ (by decide), by decide,
    ok_of_toOption _ _ (by decide),
    SplitWithEsc_pieces (str "?xyz") (str "xyz") (rune '?')
      (valid_encodeRunes _ (by decide)) (valid_encodeRunes _ (by decide)) (by decide)⟩

/-- Counterexample to C20 as stated, a `delim` that is not valid UTF-8.  The string
`"Q\uFFFDQ\uFFFDzz"` is valid; with the delimiter of the bytes `51 FF` and
the escape rune `%`, `SplitWithEsc` returns three pieces, and in the second
one `IndexWithEsc` finds the delimiter, returning 6 and not `-1`.  On
`"Q\uFFFDQ\uFFFD"` the slice expression of line 64 is out of range and
`SplitWithEsc` returns nothing. -/
theorem SplitWithEsc_piece_with_delim :
    ValidUTF8 (encodeRunes [rune 'Q', 0xFFFD, rune 'Q', 0xFFFD, rune 'z', rune 'z']) ∧
    (str "Q" ++ [0xFF] : List Byte) ≠ [] ∧
    SplitWithEsc 10 (encodeRunes [rune 'Q', 0xFFFD, rune 'Q', 0xFFFD, rune 'z', rune 'z'])
        (str "Q" ++ [0xFF]) (some (rune '%'))
      = .ok [[], [0xBF, 0xBD, 0x51, 0xEF, 0xBF, 0xBD], []] ∧
    IndexWithEsc [0xBF, 0xBD, 0x51, 0xEF, 0xBF, 0xBD] (str "Q" ++ [0xFF]) (some (rune '%'))
      = .ok 6 ∧
    ValidUTF8 (encodeRunes [rune 'Q', 0xFFFD, rune 'Q', 0xFFFD]) ∧
    SplitWithEsc 10 (encodeRunes [rune 'Q', 0xFFFD, rune 'Q', 0xFFFD])
        (str "Q" ++ [0xFF]) (some (rune '%'))
      = .error .sliceOutOfRange :=
  ⟨valid_encodeRunes _ (by decide), by decide, ok_of_toOption _ _ (by decide),
    ok_of_toOption _ _ (by decide), valid_encodeRunes _ (by decide),
    error_of_check _ _ (by decide)⟩

end Iohelper
